import Mathlib

/-!
Verification of the min-max surround-slashing array engine
(`slasher/src/array.rs`) of the lighthouse repository.

The Rust source is shallowly embedded below.  Machine integers (`u64`
epochs, `usize` chunk indices, `u16` cell distances) are modelled as `Nat`;
the lighthouse `Epoch` type uses saturating subtraction, which coincides
with `Nat` subtraction.  Fallible Rust code (`Result<_, Error>`) becomes
`Except SlasherError _`; a Rust panic (a firing `assert_eq!`/`assert_ne!`)
is modelled by the distinguished error `SlasherError.panicAssert`, and a
diverging loop is cut off by an explicit fuel argument whose exhaustion is
the distinguished error `SlasherError.outOfFuel` (so `Except.ok` results
are exactly the executions that terminate without panicking).
-/

namespace Slasher

/-- `MAX_DISTANCE = u16::MAX` from `array.rs`. -/
def MAX_DISTANCE : Nat := 65535

/-- Modelled from the spec: the configuration (section 3); `config.rs` is not
under `src/`, only its consumer `array.rs` is.  `H` = `history_length`,
`C` = `chunk_size`, `K` = `validator_chunk_size`. -/
structure Config where
  history_length : Nat
  chunk_size : Nat
  validator_chunk_size : Nat
deriving Repr, DecidableEq

/-- Modelled from the spec: `chunk_index(e) = (e mod H) / C` (section 3). -/
def Config.chunk_index (c : Config) (epoch : Nat) : Nat :=
  (epoch % c.history_length) / c.chunk_size

/-- Modelled from the spec: `validator_chunk_index(v) = v / K` (section 3). -/
def Config.validator_chunk_index (c : Config) (v : Nat) : Nat :=
  v / c.validator_chunk_size

/-- Modelled from the spec: `chunk_offset(e) = e mod C` (section 3). -/
def Config.chunk_offset (c : Config) (epoch : Nat) : Nat :=
  epoch % c.chunk_size

/-- Modelled from the spec: `validator_offset(v) = v mod K` (section 3). -/
def Config.validator_offset (c : Config) (v : Nat) : Nat :=
  v % c.validator_chunk_size

/-- Modelled from the spec: `cell_index = validator_offset * C + chunk_offset`
(row-major within a chunk, section 3). -/
def Config.cell_index (c : Config) (validator_offset chunk_offset : Nat) : Nat :=
  validator_offset * c.chunk_size + chunk_offset

/-- A well-formed configuration: positive sizes, `C` divides `H`,
`H < MAX_DISTANCE` (spec sections 3 and 6). -/
structure Config.WF (c : Config) : Prop where
  hH : 0 < c.history_length
  hC : 0 < c.chunk_size
  hK : 0 < c.validator_chunk_size
  hdvd : c.chunk_size ∣ c.history_length
  hmax : c.history_length < MAX_DISTANCE

/-- An indexed attestation, flattened: in the Rust source the checkpoints live
at `attestation.data.source.epoch` and `attestation.data.target.epoch`; the
signing-data root is kept as an opaque `Nat` so that distinct attestations
with equal checkpoints can be told apart. -/
structure IndexedAttestation where
  attesting_indices : List Nat
  source : Nat
  target : Nat
  data_root : Nat
deriving Repr, DecidableEq

/-- The error kinds of `slasher::Error` reachable from `array.rs`, plus the
two modelling-only outcomes `panicAssert` (a Rust panic from a firing
assertion or the `safe_sub` underflow) and `outOfFuel` (a diverging loop). -/
inductive SlasherError where
  | chunkIndexOutOfBounds (cell_index : Nat)
  | distanceTooLarge
  | distanceCalculationOverflow
  | missingAttesterRecord (validator_index : Nat) (target_epoch : Nat)
  | panicAssert
  | outOfFuel
deriving Repr, DecidableEq

/-- Decidable equality of `Except` results, for concrete evaluation. -/
instance {e a : Type _} [DecidableEq e] [DecidableEq a] : DecidableEq (Except e a) := fun x y =>
  match x, y with
  | .ok u, .ok w =>
    if h : u = w then isTrue (by rw [h]) else isFalse (fun hc => h (Except.ok.inj hc))
  | .error u, .error w =>
    if h : u = w then isTrue (by rw [h]) else isFalse (fun hc => h (Except.error.inj hc))
  | .ok _, .error _ => isFalse (fun hc => Except.noConfusion hc)
  | .error _, .ok _ => isFalse (fun hc => Except.noConfusion hc)

/-- The flat cell array of a chunk (`Chunk { data: Vec<u16> }`). -/
structure Chunk where
  data : List Nat
deriving Repr, DecidableEq

/-- `Chunk::get_target`.  The leading `assert_eq!(self.data.len(), C * K)`
is modelled as `panicAssert` when it would fire. -/
def Chunk.get_target (self : Chunk) (validator_index : Nat) (epoch : Nat)
    (config : Config) : Except SlasherError Nat :=
  if self.data.length = config.chunk_size * config.validator_chunk_size then
    let validator_offset := config.validator_offset validator_index
    let chunk_offset := config.chunk_offset epoch
    let cell_index := config.cell_index validator_offset chunk_offset
    match self.data.get? cell_index with
    | some distance => .ok (epoch + distance)
    | none => .error (.chunkIndexOutOfBounds cell_index)
  else
    .error .panicAssert

/-- `Chunk::epoch_distance`: `checked_sub` then `u16::try_from` then the
strict `MAX_DISTANCE` bound. -/
def Chunk.epoch_distance (epoch base_epoch : Nat) : Except SlasherError Nat :=
  if epoch < base_epoch then
    .error .distanceCalculationOverflow
  else
    let distance_u64 := epoch - base_epoch
    if distance_u64 < 65536 then
      if distance_u64 < MAX_DISTANCE then .ok distance_u64
      else .error .distanceTooLarge
    else .error .distanceTooLarge

/-- `Chunk::set_target`: bounds-checked cell access first (`get_mut`), then
the distance computation; on any error the chunk is left unchanged. -/
def Chunk.set_target (self : Chunk) (validator_index epoch target_epoch : Nat)
    (config : Config) : Except SlasherError Chunk :=
  let validator_offset := config.validator_offset validator_index
  let chunk_offset := config.chunk_offset epoch
  let cell_index := config.cell_index validator_offset chunk_offset
  match self.data.get? cell_index with
  | none => .error (.chunkIndexOutOfBounds cell_index)
  | some _ =>
    match Chunk.epoch_distance target_epoch epoch with
    | .error e => .error e
    | .ok distance => .ok ⟨self.data.set cell_index distance⟩

/-- Modelled from the spec: the attester record store (section 4.4,
`SlasherDB::get_attestation_for_validator` lives outside `src/`): a map
keyed by `(validator_index, target_epoch)`. -/
abbrev AttesterRecords := List ((Nat × Nat) × IndexedAttestation)

/-- Modelled from the spec: `get(v, target_epoch) -> record?` (section 4.4). -/
def get_attestation_for_validator (recs : AttesterRecords) (validator_index target_epoch : Nat) :
    Option IndexedAttestation :=
  (recs.find? (fun p => p.1.1 == validator_index && p.1.2 == target_epoch)).map Prod.snd

/-- `SlashingStatus` (declared in `lib.rs`; the three variants used by
`array.rs`). -/
inductive SlashingStatus where
  | notSlashable
  | surroundsExisting (existing : IndexedAttestation)
  | surroundedByExisting (existing : IndexedAttestation)
deriving Repr, DecidableEq

/-- An attester slashing: the existing (stored) attestation and the new one. -/
structure AttesterSlashing where
  existing : IndexedAttestation
  new_attestation : IndexedAttestation
deriving Repr, DecidableEq

/-- Modelled from the spec: construct `AttesterSlashing { existing, new }`
from a non-`NotSlashable` status and the current attestation (section 4.6;
`SlashingStatus::into_slashing` lives in `lib.rs`, outside `src/`). -/
def SlashingStatus.into_slashing :
    SlashingStatus → IndexedAttestation → Option AttesterSlashing
  | .notSlashable, _ => none
  | .surroundsExisting existing, att => some ⟨existing, att⟩
  | .surroundedByExisting existing, att => some ⟨existing, att⟩

/-- `MinTargetChunk::empty`: all cells `MAX_DISTANCE`. -/
def MinTargetChunk.empty (config : Config) : Chunk :=
  ⟨List.replicate (config.chunk_size * config.validator_chunk_size) MAX_DISTANCE⟩

/-- `MaxTargetChunk::empty`: all cells `0`. -/
def MaxTargetChunk.empty (config : Config) : Chunk :=
  ⟨List.replicate (config.chunk_size * config.validator_chunk_size) 0⟩

/-- `MinTargetChunk::check_slashable`. -/
def MinTargetChunk.check_slashable (recs : AttesterRecords) (self : Chunk)
    (validator_index : Nat) (attestation : IndexedAttestation) (config : Config) :
    Except SlasherError SlashingStatus :=
  match self.get_target validator_index attestation.source config with
  | .error e => .error e
  | .ok min_target =>
    if attestation.target > min_target then
      match get_attestation_for_validator recs validator_index min_target with
      | some existing => .ok (.surroundsExisting existing)
      | none => .error (.missingAttesterRecord validator_index min_target)
    else
      .ok .notSlashable

/-- `MaxTargetChunk::check_slashable`. -/
def MaxTargetChunk.check_slashable (recs : AttesterRecords) (self : Chunk)
    (validator_index : Nat) (attestation : IndexedAttestation) (config : Config) :
    Except SlasherError SlashingStatus :=
  match self.get_target validator_index attestation.source config with
  | .error e => .error e
  | .ok max_target =>
    if attestation.target < max_target then
      match get_attestation_for_validator recs validator_index max_target with
      | some existing => .ok (.surroundedByExisting existing)
      | none => .error (.missingAttesterRecord validator_index max_target)
    else
      .ok .notSlashable

/-- One write performed by an update walk: instrumentation recording the
validator, the (true, un-wrapped) epoch passed to `set_target` and the new
target epoch stored there.  The walks below return, next to the chunk the
source mutates in place, the list of such writes; this list is pure
bookkeeping and does not influence control flow. -/
structure WriteEv where
  validator : Nat
  epoch : Nat
  target : Nat
deriving Repr, DecidableEq

/-- The `while` loop of `MinTargetChunk::update`: walk `epoch` downwards
(with the saturating decrement of the lighthouse `Epoch` type) while it
stays in `chunk_index`, tightening cells while `new_target_epoch` is
strictly below the stored target, stopping unconditionally at `min_epoch`;
on leaving the chunk, `assert_ne!(chunk_index, 0)` then `Ok(true)`. -/
def MinTargetChunk.update_loop (config : Config) (chunk_index validator_index : Nat)
    (new_target_epoch min_epoch : Nat) :
    Nat → Chunk → Nat → Except SlasherError (Chunk × List WriteEv × Bool)
  | 0, _, _ => .error .outOfFuel
  | fuel + 1, chunk, epoch =>
    if config.chunk_index epoch = chunk_index then
      match chunk.get_target validator_index epoch config with
      | .error e => .error e
      | .ok stored_target =>
        if new_target_epoch < stored_target then
          match chunk.set_target validator_index epoch new_target_epoch config with
          | .error e => .error e
          | .ok chunk1 =>
            if epoch = min_epoch then
              .ok (chunk1, [⟨validator_index, epoch, new_target_epoch⟩], false)
            else
              match MinTargetChunk.update_loop config chunk_index validator_index
                  new_target_epoch min_epoch fuel chunk1 (epoch - 1) with
              | .error e => .error e
              | .ok (chunk2, evs, keep_going) =>
                .ok (chunk2, ⟨validator_index, epoch, new_target_epoch⟩ :: evs, keep_going)
        else
          .ok (chunk, [], false)
    else if chunk_index = 0 then
      .error .panicAssert
    else
      .ok (chunk, [], true)

/-- `MinTargetChunk::update`:
`min_epoch = current_epoch.saturating_sub(history_length - 1)`. -/
def MinTargetChunk.update (fuel : Nat) (self : Chunk)
    (chunk_index validator_index start_epoch new_target_epoch current_epoch : Nat)
    (config : Config) : Except SlasherError (Chunk × List WriteEv × Bool) :=
  let min_epoch := current_epoch - (config.history_length - 1)
  MinTargetChunk.update_loop config chunk_index validator_index
    new_target_epoch min_epoch fuel self start_epoch

/-- The `while` loop of `MaxTargetChunk::update`: walk `epoch` upwards while
it stays in `chunk_index`, raising cells while `new_target_epoch` is strictly
above the stored target, stopping unconditionally at `current_epoch`; on
leaving the chunk, `Ok(true)` (no assertion on this side). -/
def MaxTargetChunk.update_loop (config : Config) (chunk_index validator_index : Nat)
    (new_target_epoch current_epoch : Nat) :
    Nat → Chunk → Nat → Except SlasherError (Chunk × List WriteEv × Bool)
  | 0, _, _ => .error .outOfFuel
  | fuel + 1, chunk, epoch =>
    if config.chunk_index epoch = chunk_index then
      match chunk.get_target validator_index epoch config with
      | .error e => .error e
      | .ok stored_target =>
        if new_target_epoch > stored_target then
          match chunk.set_target validator_index epoch new_target_epoch config with
          | .error e => .error e
          | .ok chunk1 =>
            if epoch = current_epoch then
              .ok (chunk1, [⟨validator_index, epoch, new_target_epoch⟩], false)
            else
              match MaxTargetChunk.update_loop config chunk_index validator_index
                  new_target_epoch current_epoch fuel chunk1 (epoch + 1) with
              | .error e => .error e
              | .ok (chunk2, evs, keep_going) =>
                .ok (chunk2, ⟨validator_index, epoch, new_target_epoch⟩ :: evs, keep_going)
        else
          .ok (chunk, [], false)
    else
      .ok (chunk, [], true)

/-- `MaxTargetChunk::update`. -/
def MaxTargetChunk.update (fuel : Nat) (self : Chunk)
    (chunk_index validator_index start_epoch new_target_epoch current_epoch : Nat)
    (config : Config) : Except SlasherError (Chunk × List WriteEv × Bool) :=
  MaxTargetChunk.update_loop config chunk_index validator_index
    new_target_epoch current_epoch fuel self start_epoch

/-- `MinTargetChunk::first_start_epoch`: `source - 1` when `source > 0`. -/
def MinTargetChunk.first_start_epoch (source_epoch _current_epoch : Nat) : Option Nat :=
  if source_epoch > 0 then some (source_epoch - 1) else none

/-- `MaxTargetChunk::first_start_epoch`: `source + 1` when
`source < current_epoch`. -/
def MaxTargetChunk.first_start_epoch (source_epoch current_epoch : Nat) : Option Nat :=
  if source_epoch < current_epoch then some (source_epoch + 1) else none

/-- `MinTargetChunk::next_chunk_index_and_start_epoch`:
`chunk_index.safe_sub(1)` (an arithmetic error — modelled as a panic since
`safe_arith` errors surface as `Error::from` but cannot legitimately occur —
is kept as `panicAssert` to share the fatal-outcome marker), and
`start_epoch / C * C - 1` with the saturating `Epoch` subtraction. -/
def MinTargetChunk.next_chunk_index_and_start_epoch (chunk_index start_epoch : Nat)
    (config : Config) : Except SlasherError (Nat × Nat) :=
  if chunk_index = 0 then .error .panicAssert
  else .ok (chunk_index - 1, start_epoch / config.chunk_size * config.chunk_size - 1)

/-- `MaxTargetChunk::next_chunk_index_and_start_epoch`:
`(chunk_index + 1, (start_epoch / C + 1) * C)`. -/
def MaxTargetChunk.next_chunk_index_and_start_epoch (chunk_index start_epoch : Nat)
    (_config : Config) : Except SlasherError (Nat × Nat) :=
  .ok (chunk_index + 1, (start_epoch / _config.chunk_size + 1) * _config.chunk_size)

/-- The capability set of the `TargetArrayChunk` trait, as consumed by the
generic driver functions. -/
structure TargetArrayKind where
  empty : Config → Chunk
  check_slashable : AttesterRecords → Chunk → Nat → IndexedAttestation → Config →
    Except SlasherError SlashingStatus
  chunk_update : Nat → Chunk → Nat → Nat → Nat → Nat → Nat → Config →
    Except SlasherError (Chunk × List WriteEv × Bool)
  first_start_epoch : Nat → Nat → Option Nat
  next_chunk_index_and_start_epoch : Nat → Nat → Config → Except SlasherError (Nat × Nat)

/-- The MIN instantiation of the trait. -/
def minKind : TargetArrayKind where
  empty := MinTargetChunk.empty
  check_slashable := MinTargetChunk.check_slashable
  chunk_update := MinTargetChunk.update
  first_start_epoch := MinTargetChunk.first_start_epoch
  next_chunk_index_and_start_epoch := MinTargetChunk.next_chunk_index_and_start_epoch

/-- The MAX instantiation of the trait. -/
def maxKind : TargetArrayKind where
  empty := MaxTargetChunk.empty
  check_slashable := MaxTargetChunk.check_slashable
  chunk_update := MaxTargetChunk.update
  first_start_epoch := MaxTargetChunk.first_start_epoch
  next_chunk_index_and_start_epoch := MaxTargetChunk.next_chunk_index_and_start_epoch

/-- One on-disk database of chunks (`min_targets` or `max_targets`), keyed by
`(validator_chunk_index, chunk_index)` — the pair the `disk_key` encodes. -/
abbrev ChunkDB := List ((Nat × Nat) × Chunk)

/-- Transactional read of a chunk. -/
def ChunkDB.get : ChunkDB → (Nat × Nat) → Option Chunk
  | [], _ => none
  | (k, c) :: rest, key => if k = key then some c else ChunkDB.get rest key

/-- Transactional overwrite-allowed write of a chunk. -/
def ChunkDB.put (db : ChunkDB) (key : Nat × Nat) (chunk : Chunk) : ChunkDB :=
  match db with
  | [] => [(key, chunk)]
  | (k, c) :: rest =>
    if k = key then (key, chunk) :: rest else (k, c) :: ChunkDB.put rest key chunk

/-- The per-batch write-through cache `BTreeMap<usize, T>`, kept as an
association list sorted by ascending chunk index (the `BTreeMap` iteration
order). -/
abbrev ChunkCache := List (Nat × Chunk)

/-- Cache lookup. -/
def ChunkCache.get : ChunkCache → Nat → Option Chunk
  | [], _ => none
  | (k, c) :: rest, key => if k = key then some c else ChunkCache.get rest key

/-- Sorted insert-or-replace into the cache. -/
def ChunkCache.put (cache : ChunkCache) (key : Nat) (chunk : Chunk) : ChunkCache :=
  match cache with
  | [] => [(key, chunk)]
  | (k, c) :: rest =>
    if key < k then (key, chunk) :: (k, c) :: rest
    else if key = k then (key, chunk) :: rest
    else (k, c) :: ChunkCache.put rest key chunk

/-- `get_chunk_for_update`: on a cache miss, load from the store, falling
back to `T::empty(config)`; the obtained chunk is cached.  Deserialization
is abstracted away (the store holds chunks), so loading cannot fail here. -/
def get_chunk_for_update (kind : TargetArrayKind) (db : ChunkDB) (cache : ChunkCache)
    (validator_chunk_index chunk_index : Nat) (config : Config) : ChunkCache × Chunk :=
  match cache.get chunk_index with
  | some chunk => (cache, chunk)
  | none =>
    let chunk :=
      match db.get (validator_chunk_index, chunk_index) with
      | some disk_chunk => disk_chunk
      | none => kind.empty config
    (cache.put chunk_index chunk, chunk)

/-- The chunk-crossing `loop` of `apply_attestation_for_validator`: fetch the
current chunk, run the kind's update walk on it, store the mutated chunk back
into the cache, and either stop or advance to the next chunk.  `walk_fuel` is
the budget handed to each inner `while` loop, `fuel` bounds the number of
chunk crossings (the Rust loop has no intrinsic bound: with a wrapped cursor
it runs forever, which surfaces here as `outOfFuel`). -/
def apply_attestation_loop (kind : TargetArrayKind) (db : ChunkDB)
    (validator_chunk_index validator_index target_epoch current_epoch : Nat)
    (config : Config) (walk_fuel : Nat) :
    Nat → ChunkCache → Nat → Nat → Except SlasherError (ChunkCache × List WriteEv)
  | 0, _, _, _ => .error .outOfFuel
  | fuel + 1, cache, chunk_index, start_epoch =>
    let (cache1, chunk) :=
      get_chunk_for_update kind db cache validator_chunk_index chunk_index config
    match kind.chunk_update walk_fuel chunk chunk_index validator_index
        start_epoch target_epoch current_epoch config with
    | .error e => .error e
    | .ok (chunk1, evs, keep_going) =>
      let cache2 := cache1.put chunk_index chunk1
      if keep_going then
        match kind.next_chunk_index_and_start_epoch chunk_index start_epoch config with
        | .error e => .error e
        | .ok (next_chunk_index, next_start_epoch) =>
          match apply_attestation_loop kind db validator_chunk_index validator_index
              target_epoch current_epoch config walk_fuel
              fuel cache2 next_chunk_index next_start_epoch with
          | .error e => .error e
          | .ok (cache3, evs2) => .ok (cache3, evs ++ evs2)
      else
        .ok (cache2, evs)

/-- `apply_attestation_for_validator`: check slashability against the cell at
the attestation's source epoch, return any non-`NotSlashable` status
immediately, otherwise run the update walk from `first_start_epoch`. -/
def apply_attestation_for_validator (kind : TargetArrayKind) (fuel : Nat)
    (db : ChunkDB) (recs : AttesterRecords) (cache : ChunkCache)
    (validator_chunk_index validator_index : Nat) (attestation : IndexedAttestation)
    (current_epoch : Nat) (config : Config) :
    Except SlasherError (ChunkCache × SlashingStatus × List WriteEv) :=
  let chunk_index := config.chunk_index attestation.source
  let (cache1, chunk) :=
    get_chunk_for_update kind db cache validator_chunk_index chunk_index config
  match kind.check_slashable recs chunk validator_index attestation config with
  | .error e => .error e
  | .ok slashing_status =>
    if slashing_status = .notSlashable then
      match kind.first_start_epoch attestation.source current_epoch with
      | none => .ok (cache1, slashing_status, [])
      | some start_epoch =>
        match apply_attestation_loop kind db validator_chunk_index validator_index
            attestation.target current_epoch config fuel
            fuel cache1 (config.chunk_index start_epoch) start_epoch with
        | .error e => .error e
        | .ok (cache2, evs) => .ok (cache2, .notSlashable, evs)
    else
      .ok (cache1, slashing_status, [])

/-- Modelled from the spec: `attesting_validators_for_chunk` (section 4.1,
defined in `config.rs` outside `src/`): the attesting indices whose
validator chunk is `validator_chunk_index`, in attestation order. -/
def attesting_validators_for_chunk (config : Config) (attestation : IndexedAttestation)
    (validator_chunk_index : Nat) : List Nat :=
  attestation.attesting_indices.filter
    (fun v => config.validator_chunk_index v == validator_chunk_index)

/-- The status of every `(validator, attestation)` pair handed to
`apply_attestation_for_validator` during one pass, in processing order
(instrumentation mirroring the `slashing_status` values of `update_array`). -/
abbrev StatusTrace := List ((Nat × IndexedAttestation) × SlashingStatus)

/-- The innermost loop of `update_array`: one attestation applied to each of
its attesting validators of this validator chunk, in order; a slashing is
collected whenever `into_slashing` yields one. -/
def update_array_validators (kind : TargetArrayKind) (fuel : Nat) (db : ChunkDB)
    (recs : AttesterRecords) (validator_chunk_index : Nat)
    (attestation : IndexedAttestation) (current_epoch : Nat) (config : Config) :
    List Nat → ChunkCache →
    Except SlasherError (ChunkCache × List AttesterSlashing × StatusTrace × List WriteEv)
  | [], cache => .ok (cache, [], [], [])
  | validator_index :: rest, cache =>
    match apply_attestation_for_validator kind fuel db recs cache
        validator_chunk_index validator_index attestation current_epoch config with
    | .error e => .error e
    | .ok (cache1, slashing_status, evs) =>
      match update_array_validators kind fuel db recs validator_chunk_index
          attestation current_epoch config rest cache1 with
      | .error e => .error e
      | .ok (cache2, slashings, statuses, evs2) =>
        .ok (cache2,
             (slashing_status.into_slashing attestation).toList ++ slashings,
             ((validator_index, attestation), slashing_status) :: statuses,
             evs ++ evs2)

/-- The middle loop of `update_array`: the attestations of one source-chunk
group, in insertion order. -/
def update_array_atts (kind : TargetArrayKind) (fuel : Nat) (db : ChunkDB)
    (recs : AttesterRecords) (validator_chunk_index : Nat) (current_epoch : Nat)
    (config : Config) :
    List IndexedAttestation → ChunkCache →
    Except SlasherError (ChunkCache × List AttesterSlashing × StatusTrace × List WriteEv)
  | [], cache => .ok (cache, [], [], [])
  | attestation :: rest, cache =>
    match update_array_validators kind fuel db recs validator_chunk_index
        attestation current_epoch config
        (attesting_validators_for_chunk config attestation validator_chunk_index) cache with
    | .error e => .error e
    | .ok (cache1, slashings1, statuses1, evs1) =>
      match update_array_atts kind fuel db recs validator_chunk_index current_epoch
          config rest cache1 with
      | .error e => .error e
      | .ok (cache2, slashings2, statuses2, evs2) =>
        .ok (cache2, slashings1 ++ slashings2, statuses1 ++ statuses2, evs1 ++ evs2)

/-- The outer loop of `update_array`: the source-chunk groups in ascending
chunk-index order (`BTreeMap::values`). -/
def update_array_groups (kind : TargetArrayKind) (fuel : Nat) (db : ChunkDB)
    (recs : AttesterRecords) (validator_chunk_index : Nat) (current_epoch : Nat)
    (config : Config) :
    List (Nat × List IndexedAttestation) → ChunkCache →
    Except SlasherError (ChunkCache × List AttesterSlashing × StatusTrace × List WriteEv)
  | [], cache => .ok (cache, [], [], [])
  | (_, atts) :: rest, cache =>
    match update_array_atts kind fuel db recs validator_chunk_index current_epoch
        config atts cache with
    | .error e => .error e
    | .ok (cache1, slashings1, statuses1, evs1) =>
      match update_array_groups kind fuel db recs validator_chunk_index current_epoch
          config rest cache1 with
      | .error e => .error e
      | .ok (cache2, slashings2, statuses2, evs2) =>
        .ok (cache2, slashings1 ++ slashings2, statuses1 ++ statuses2, evs1 ++ evs2)

/-- Flush the dirty chunks to the store in ascending chunk-index order. -/
def flush_chunks (validator_chunk_index : Nat) : ChunkDB → ChunkCache → ChunkDB
  | db, [] => db
  | db, (chunk_index, chunk) :: rest =>
    flush_chunks validator_chunk_index (db.put (validator_chunk_index, chunk_index) chunk) rest

/-- `update_array`: drive one pass over the grouped attestations with a fresh
chunk cache, then store the touched chunks. -/
def update_array (kind : TargetArrayKind) (fuel : Nat) (db : ChunkDB)
    (recs : AttesterRecords) (validator_chunk_index : Nat)
    (chunk_attestations : List (Nat × List IndexedAttestation))
    (current_epoch : Nat) (config : Config) :
    Except SlasherError (ChunkDB × List AttesterSlashing × StatusTrace × List WriteEv) :=
  match update_array_groups kind fuel db recs validator_chunk_index current_epoch
      config chunk_attestations [] with
  | .error e => .error e
  | .ok (cache, slashings, statuses, evs) =>
    .ok (flush_chunks validator_chunk_index db cache, slashings, statuses, evs)

/-- Sorted-map insert used to build `chunk_attestations`
(`BTreeMap::entry(..).or_insert_with(Vec::new).push(..)`). -/
def group_insert (key : Nat) (attestation : IndexedAttestation) :
    List (Nat × List IndexedAttestation) → List (Nat × List IndexedAttestation)
  | [] => [(key, [attestation])]
  | (k, atts) :: rest =>
    if key < k then (key, [attestation]) :: (k, atts) :: rest
    else if key = k then (k, atts ++ [attestation]) :: rest
    else (k, atts) :: group_insert key attestation rest

/-- Group a batch by the chunk index of each attestation's source epoch. -/
def group_by_chunk (config : Config) (batch : List IndexedAttestation) :
    List (Nat × List IndexedAttestation) :=
  batch.foldl (fun m a => group_insert (config.chunk_index a.source) a m) []

/-- The two chunk databases the engine writes
(`min_targets_db` / `max_targets_db`). -/
structure Stores where
  min_targets : ChunkDB
  max_targets : ChunkDB
deriving Repr, DecidableEq

/-- Everything one `update` call produces: the post-transaction stores, the
collected slashings, and the instrumentation traces of both passes. -/
structure UpdateResult where
  stores : Stores
  slashings : List AttesterSlashing
  min_statuses : StatusTrace
  max_statuses : StatusTrace
  min_writes : List WriteEv
  max_writes : List WriteEv
deriving Repr, DecidableEq

/-- `update`: the batch entry point.  Group the batch by source chunk index,
run the MIN pass then the MAX pass (each with its own cache and database),
and concatenate the slashings. -/
def update (fuel : Nat) (stores : Stores) (recs : AttesterRecords)
    (validator_chunk_index : Nat) (batch : List IndexedAttestation)
    (current_epoch : Nat) (config : Config) : Except SlasherError UpdateResult :=
  let chunk_attestations := group_by_chunk config batch
  match update_array minKind fuel stores.min_targets recs validator_chunk_index
      chunk_attestations current_epoch config with
  | .error e => .error e
  | .ok (min_db, slashings1, min_statuses, min_writes) =>
    match update_array maxKind fuel stores.max_targets recs validator_chunk_index
        chunk_attestations current_epoch config with
    | .error e => .error e
    | .ok (max_db, slashings2, max_statuses, max_writes) =>
      .ok ⟨⟨min_db, max_db⟩, slashings1 ++ slashings2,
           min_statuses, max_statuses, min_writes, max_writes⟩

/-- The window floor `max(0, current_epoch - H + 1)` (spec section 7), as the
saturating `Nat` expression `current_epoch + 1 - H`. -/
def window_floor (config : Config) (current_epoch : Nat) : Nat :=
  current_epoch + 1 - config.history_length

/-- Read the reconstructed target of cell `(validator, epoch)` from a stored
array (missing chunks read as the kind's empty chunk, exactly what a
subsequent batch would observe through `get_chunk_for_update`). -/
def db_get_target (kind : TargetArrayKind) (db : ChunkDB)
    (validator_chunk_index validator_index epoch : Nat) (config : Config) :
    Except SlasherError Nat :=
  (match db.get (validator_chunk_index, config.chunk_index epoch) with
   | some chunk => chunk
   | none => kind.empty config).get_target validator_index epoch config

/-- Little-endian bytes of one `u16` cell. -/
def u16_le_bytes (d : Nat) : List Nat :=
  [d % 256, d / 256 % 256]

/-- Little-endian bytes of the `u64` length prefix bincode writes for a
`Vec`. -/
def u64_le_bytes (n : Nat) : List Nat :=
  [n % 256, n / 256 % 256, n / 65536 % 256, n / 16777216 % 256,
   n / 4294967296 % 256, n / 1099511627776 % 256, n / 281474976710656 % 256,
   n / 72057594037927936 % 256]

/-- The byte blob `TargetArrayChunk::store` writes:
`bincode::serialize` of the (serde-transparent) `Chunk { data: Vec<u16> }`,
i.e. an 8-byte little-endian element count followed by the cells as
little-endian `u16`s (bincode 1.x default options: little endian, fixed-width
integers, `u64` sequence lengths). -/
def chunk_store_bytes (self : Chunk) : List Nat :=
  u64_le_bytes self.data.length ++ (self.data.map u16_le_bytes).flatten

/-- Read `n` little-endian `u16` cells. -/
def read_u16_cells : Nat → List Nat → Option (List Nat)
  | 0, _ => some []
  | n + 1, b0 :: b1 :: rest => (read_u16_cells n rest).map (fun t => (b0 + 256 * b1) :: t)
  | _ + 1, [] => none
  | _ + 1, [_] => none

/-- Read the 8-byte little-endian length prefix. -/
def read_u64_le : List Nat → Option (Nat × List Nat)
  | b0 :: b1 :: b2 :: b3 :: b4 :: b5 :: b6 :: b7 :: rest =>
    some (b0 + 256 * b1 + 65536 * b2 + 16777216 * b3 + 4294967296 * b4 +
          1099511627776 * b5 + 281474976710656 * b6 + 72057594037927936 * b7, rest)
  | _ => none

/-- The decoder `TargetArrayChunk::load` applies (`bincode::deserialize`):
length prefix, then that many cells; too few bytes is a decode error. -/
def chunk_load_bytes (bytes : List Nat) : Option Chunk :=
  match read_u64_le bytes with
  | none => none
  | some (n, rest) => (read_u16_cells n rest).map Chunk.mk

/-- The chunk an engine pass observes at `chunk_index` given the store and the
current cache: the cached entry if present, else the stored chunk, else the
kind's empty chunk — exactly what `get_chunk_for_update` would hand out. -/
def cache_view (kind : TargetArrayKind) (db : ChunkDB) (cache : ChunkCache)
    (validator_chunk_index chunk_index : Nat) (config : Config) : Chunk :=
  match cache.get chunk_index with
  | some chunk => chunk
  | none =>
    match db.get (validator_chunk_index, chunk_index) with
    | some chunk => chunk
    | none => kind.empty config

/-- The flat index of the cell addressed by `(validator, epoch)` (the
composition `cell_index (validator_offset v) (chunk_offset e)` used by both
`get_target` and `set_target`). -/
def Config.cell_of (config : Config) (v e : Nat) : Nat :=
  config.cell_index (config.validator_offset v) (config.chunk_offset e)

/-- The distance stored in the cell `idx` of the chunk seen at `chunk_index`
through the cache over the store (0 for a missing index). -/
def view_cell (kind : TargetArrayKind) (db : ChunkDB) (cache : ChunkCache)
    (vci ci idx : Nat) (config : Config) : Nat :=
  (cache_view kind db cache vci ci config).data.getD idx 0

/-- The per-batch cache is keyed by strictly ascending chunk indices
(`BTreeMap` order). -/
def CacheSorted (cache : ChunkCache) : Prop :=
  List.Chain' (fun p q => p.1 < q.1) cache

/-- The batch invariant of the min-target array: through the given cache over
the given store, every batch attestation's cell at its own source epoch still
reads a target at least the attestation's target (so
`MinTargetChunk::check_slashable` reports `NotSlashable` for it). -/
def MinInv (db : ChunkDB) (vci : Nat) (batch : List IndexedAttestation)
    (config : Config) (cache : ChunkCache) : Prop :=
  ∀ b ∈ batch, ∀ v ∈ b.attesting_indices,
    b.target ≤ b.source + view_cell minKind db cache vci
      (config.chunk_index b.source) (config.cell_of v b.source) config

/-- The batch invariant of the max-target array: every batch attestation's
cell at its own source epoch reads a target at most the attestation's target
(so `MaxTargetChunk::check_slashable` reports `NotSlashable` for it). -/
def MaxInv (db : ChunkDB) (vci : Nat) (batch : List IndexedAttestation)
    (config : Config) (cache : ChunkCache) : Prop :=
  ∀ b ∈ batch, ∀ v ∈ b.attesting_indices,
    b.source + view_cell maxKind db cache vci
      (config.chunk_index b.source) (config.cell_of v b.source) config ≤ b.target

/-! ## Theorems -/

theorem cache_get_put (cache : ChunkCache) (k k' : Nat) (c : Chunk) :
    (cache.put k c).get k' = if k = k' then some c else cache.get k' := by
  induction cache with
  | nil => simp [ChunkCache.put, ChunkCache.get]
  | cons hd tl ih =>
    obtain ⟨k0, c0⟩ := hd
    by_cases h1 : k < k0
    · simp only [ChunkCache.put, if_pos h1, ChunkCache.get]
    · by_cases h2 : k = k0
      · subst h2
        simp only [ChunkCache.put, if_neg h1, if_pos rfl, ChunkCache.get]
        by_cases h : k = k' <;> simp [h]
      · simp only [ChunkCache.put, if_neg h1, if_neg h2, ChunkCache.get]
        by_cases h0 : k0 = k'
        · have hkk : ¬ k = k' := fun hc => h2 (hc.trans h0.symm)
          simp [h0, hkk]
        · simp [h0, ih]

theorem epoch_distance_eq (epoch base_epoch : Nat) :
    Chunk.epoch_distance epoch base_epoch =
      if epoch < base_epoch then .error .distanceCalculationOverflow
      else if epoch - base_epoch < MAX_DISTANCE then .ok (epoch - base_epoch)
      else .error .distanceTooLarge := by
  simp only [Chunk.epoch_distance, MAX_DISTANCE]
  split_ifs <;> first | rfl | omega

theorem set_target_eq (chunk : Chunk) (v e t : Nat) (config : Config) (d0 : Nat)
    (hd0 : chunk.data.get? (config.cell_index (config.validator_offset v)
      (config.chunk_offset e)) = some d0) :
    chunk.set_target v e t config =
      if t < e then .error .distanceCalculationOverflow
      else if t - e < MAX_DISTANCE then
        .ok ⟨chunk.data.set (config.cell_index (config.validator_offset v)
          (config.chunk_offset e)) (t - e)⟩
      else .error .distanceTooLarge := by
  simp only [Chunk.set_target]
  rw [hd0, epoch_distance_eq]
  split_ifs <;> rfl

theorem get_target_eq (chunk : Chunk) (v e : Nat) (config : Config) (d0 : Nat)
    (hlen : chunk.data.length = config.chunk_size * config.validator_chunk_size)
    (hd0 : chunk.data.get? (config.cell_index (config.validator_offset v)
      (config.chunk_offset e)) = some d0) :
    chunk.get_target v e config = .ok (e + d0) := by
  simp only [Chunk.get_target]
  rw [if_pos hlen, hd0]

/-- Claim C7: `epoch_distance(t, e)` returns `Ok(t - e)` exactly when
`e ≤ t` and `t - e < MAX_DISTANCE`, `DistanceCalculationOverflow` when
`t < e`, and `DistanceTooLarge` when `t - e ≥ MAX_DISTANCE`; consequently
`set_target` stores only distances strictly below `MAX_DISTANCE` (writing
`t - e` into the addressed cell) and rejects every other write with one of
those two errors — in which case the returned value carries no mutated
chunk, i.e. the cell is left unchanged. -/
theorem c7_epoch_distance_and_set_target :
    (∀ epoch base_epoch : Nat,
      (Chunk.epoch_distance epoch base_epoch = .ok (epoch - base_epoch) ↔
        base_epoch ≤ epoch ∧ epoch - base_epoch < MAX_DISTANCE) ∧
      (∀ d, Chunk.epoch_distance epoch base_epoch = .ok d → d = epoch - base_epoch) ∧
      (epoch < base_epoch →
        Chunk.epoch_distance epoch base_epoch = .error .distanceCalculationOverflow) ∧
      (base_epoch ≤ epoch → MAX_DISTANCE ≤ epoch - base_epoch →
        Chunk.epoch_distance epoch base_epoch = .error .distanceTooLarge)) ∧
    (∀ (chunk : Chunk) (v e t : Nat) (config : Config) (d0 : Nat),
      chunk.data.get? (config.cell_index (config.validator_offset v)
        (config.chunk_offset e)) = some d0 →
      ((e ≤ t ∧ t - e < MAX_DISTANCE →
        chunk.set_target v e t config =
          .ok ⟨chunk.data.set (config.cell_index (config.validator_offset v)
            (config.chunk_offset e)) (t - e)⟩) ∧
       (¬(e ≤ t ∧ t - e < MAX_DISTANCE) →
        chunk.set_target v e t config = .error .distanceCalculationOverflow ∨
        chunk.set_target v e t config = .error .distanceTooLarge))) := by
  constructor
  · intro epoch base_epoch
    rw [epoch_distance_eq]
    refine ⟨?_, ?_, ?_, ?_⟩
    · split_ifs with h1 h2
      · constructor
        · intro h
          exact absurd h (by simp)
        · intro h
          omega
      · constructor
        · intro _
          exact ⟨by omega, h2⟩
        · intro _
          rfl
      · constructor
        · intro h
          exact absurd h (by simp)
        · intro h
          exact absurd h.2 h2
    · intro d hd
      by_cases h1 : epoch < base_epoch
      · rw [if_pos h1] at hd
        exact absurd hd (by simp)
      · by_cases h2 : epoch - base_epoch < MAX_DISTANCE
        · rw [if_neg h1, if_pos h2] at hd
          exact (Except.ok.inj hd).symm
        · rw [if_neg h1, if_neg h2] at hd
          exact absurd hd (by simp)
    · intro h
      rw [if_pos h]
    · intro h1 h2
      rw [if_neg (by omega), if_neg (by omega)]
  · intro chunk v e t config d0 hd0
    rw [set_target_eq chunk v e t config d0 hd0]
    constructor
    · rintro ⟨hle, hlt⟩
      rw [if_neg (by omega), if_pos hlt]
    · intro hno
      by_cases h1 : t < e
      · left
        rw [if_pos h1]
      · right
        rw [if_neg h1, if_neg (by omega)]

theorem c7_witness :
    Chunk.set_target ⟨[0, 0]⟩ 0 0 1 ⟨4, 2, 1⟩ = .ok ⟨[1, 0]⟩ ∧
    Chunk.epoch_distance 3 5 = .error .distanceCalculationOverflow := by
  constructor
  · exact ((c7_epoch_distance_and_set_target.2 ⟨[0, 0]⟩ 0 0 1 ⟨4, 2, 1⟩ 0
      (by decide)).1 (by decide)).trans (by decide)
  · exact (c7_epoch_distance_and_set_target.1 3 5).2.2.1 (by decide)

/-- Claim C8 (amended): for a chunk holding the full `C * K` cells — as every
chunk built by this module does — `get_target(v, e)` succeeds for every
`(v, e)` whatsoever, returning `e` plus the distance stored at the cell
addressed by the wrapped offsets `(v mod K, e mod C)`; the
`ChunkIndexOutOfBounds` branch is unreachable, so no out-of-tile failure
exists. -/
theorem c8_get_target_total (config : Config) (chunk : Chunk) (v e : Nat)
    (hC : 0 < config.chunk_size) (hK : 0 < config.validator_chunk_size)
    (hlen : chunk.data.length = config.chunk_size * config.validator_chunk_size) :
    ∃ d, chunk.data.get? (config.cell_index (config.validator_offset v)
        (config.chunk_offset e)) = some d ∧
      chunk.get_target v e config = .ok (e + d) := by
  have hvo : config.validator_offset v < config.validator_chunk_size :=
    Nat.mod_lt _ hK
  have hco : config.chunk_offset e < config.chunk_size := Nat.mod_lt _ hC
  have hidx : config.cell_index (config.validator_offset v) (config.chunk_offset e) <
      chunk.data.length := by
    rw [hlen]
    unfold Config.cell_index
    calc config.validator_offset v * config.chunk_size + config.chunk_offset e
        < config.validator_offset v * config.chunk_size + config.chunk_size := by omega
      _ = (config.validator_offset v + 1) * config.chunk_size := by ring
      _ ≤ config.validator_chunk_size * config.chunk_size :=
          Nat.mul_le_mul_right _ hvo
      _ = config.chunk_size * config.validator_chunk_size := Nat.mul_comm _ _
  obtain ⟨d, hd⟩ := List.get?_eq_some.1 (List.get?_eq_get hidx)
  refine ⟨chunk.data.get ⟨_, hidx⟩, List.get?_eq_get hidx, ?_⟩
  unfold Chunk.get_target
  rw [if_pos hlen]
  simp only [List.get?_eq_get hidx]

theorem c8_witness :
    ∃ d, (Chunk.mk [5, 6, 7, 8]).data.get?
        ((Config.mk 4 2 2).cell_index ((Config.mk 4 2 2).validator_offset 1)
          ((Config.mk 4 2 2).chunk_offset 1)) = some d ∧
      (Chunk.mk [5, 6, 7, 8]).get_target 1 1 ⟨4, 2, 2⟩ = .ok (1 + d) :=
  c8_get_target_total ⟨4, 2, 2⟩ ⟨[5, 6, 7, 8]⟩ 1 1 (by decide) (by decide) (by decide)

/-- Claim C8 counterexample: with `C = 2, K = 2`, the coordinate
`(v, e) = (2, 2)` lies outside the 2-by-2 tile of a standalone chunk, yet
`get_target` does not fail with `ChunkIndexOutOfBounds`: it wraps the
offsets modulo `K` and `C` and happily returns the cell at `(0, 0)`. -/
theorem c8_counterexample :
    (Chunk.mk [5, 6, 7, 8]).get_target 2 2 ⟨4, 2, 2⟩ = .ok 7 ∧
    ∀ i, (Chunk.mk [5, 6, 7, 8]).get_target 2 2 ⟨4, 2, 2⟩ ≠
      .error (.chunkIndexOutOfBounds i) := by
  refine ⟨by decide, ?_⟩
  intro i h
  rw [show (Chunk.mk [5, 6, 7, 8]).get_target 2 2 ⟨4, 2, 2⟩ = .ok 7 from by decide] at h
  cases h

theorem flatten_u16_length (data : List Nat) :
    ((data.map u16_le_bytes).flatten).length = 2 * data.length := by
  induction data with
  | nil => rfl
  | cons d tl ih =>
    rw [List.map_cons, List.flatten_cons, List.length_append, ih]
    simp only [u16_le_bytes, List.length_cons, List.length_nil]
    omega

theorem read_u64_le_round (n : Nat) (h : n < 18446744073709551616) (rest : List Nat) :
    read_u64_le (u64_le_bytes n ++ rest) = some (n, rest) := by
  show read_u64_le (n % 256 :: n / 256 % 256 :: n / 65536 % 256 :: n / 16777216 % 256 ::
    n / 4294967296 % 256 :: n / 1099511627776 % 256 :: n / 281474976710656 % 256 ::
    n / 72057594037927936 % 256 :: rest) = some (n, rest)
  simp only [read_u64_le, Option.some.injEq, Prod.mk.injEq]
  exact ⟨by omega, by trivial⟩

theorem read_u16_cells_round (data : List Nat) (h : ∀ d ∈ data, d < 65536) :
    read_u16_cells data.length ((data.map u16_le_bytes).flatten) = some data := by
  induction data with
  | nil => rfl
  | cons d tl ih =>
    have hd : d < 65536 := h d (List.mem_cons_self d tl)
    have hih := ih (fun x hx => h x (List.mem_cons_of_mem d hx))
    show (read_u16_cells tl.length ((tl.map u16_le_bytes).flatten)).map
      (fun t => (d % 256 + 256 * (d / 256 % 256)) :: t) = some (d :: tl)
    rw [hih]
    show some ((d % 256 + 256 * (d / 256 % 256)) :: tl) = some (d :: tl)
    have hdd : d % 256 + 256 * (d / 256 % 256) = d := by omega
    rw [hdd]


theorem read_u16_cells_short (n : Nat) (bytes : List Nat) (h : bytes.length < 2 * n) :
    read_u16_cells n bytes = none := by
  induction n generalizing bytes with
  | zero => omega
  | succ m ih =>
    match bytes with
    | [] => rfl
    | [b] => rfl
    | b0 :: b1 :: rest =>
      simp only [read_u16_cells]
      rw [ih rest (by simp only [List.length_cons] at h; omega)]
      rfl

/-- Claim C9 (amended): the blob `TargetArrayChunk::store` hands to the store
is the bincode encoding of the cell vector: an 8-byte little-endian element
count followed by the `C * K` cells as little-endian 16-bit integers — total
length `2 * C * K + 8`, not a 1-byte `0x01` version tag and not length
`2 * C * K + 1`.  Decoding the produced blob restores the chunk, and decoding
fails (as a bincode error, there is no `CorruptChunk` variant in this code)
when the blob is too short for its own length prefix. -/
theorem c9_store_blob_format (chunk : Chunk)
    (hlen : chunk.data.length < 18446744073709551616)
    (hcell : ∀ d ∈ chunk.data, d < 65536) :
    (chunk_store_bytes chunk).length = 2 * chunk.data.length + 8 ∧
    chunk_load_bytes (chunk_store_bytes chunk) = some chunk ∧
    (∀ bytes n rest, read_u64_le bytes = some (n, rest) → rest.length < 2 * n →
      chunk_load_bytes bytes = none) := by
  refine ⟨?_, ?_, ?_⟩
  · simp only [chunk_store_bytes, List.length_append, flatten_u16_length, u64_le_bytes]
    simp only [List.length]
    omega
  · simp [chunk_load_bytes, chunk_store_bytes, read_u64_le_round _ hlen,
      read_u16_cells_round _ hcell]
  · intro bytes n rest h1 h2
    simp [chunk_load_bytes, h1, read_u16_cells_short n rest h2]

theorem c9_witness :
    (chunk_store_bytes ⟨[1, 2]⟩).length = 2 * (Chunk.mk [1, 2]).data.length + 8 ∧
    chunk_load_bytes (chunk_store_bytes ⟨[1, 2]⟩) = some ⟨[1, 2]⟩ :=
  ⟨(c9_store_blob_format ⟨[1, 2]⟩ (by decide) (by decide)).1,
   (c9_store_blob_format ⟨[1, 2]⟩ (by decide) (by decide)).2.1⟩

/-- Claim C9 counterexample: with `C = 2, K = 1` the stored blob of the empty
min chunk has 12 bytes (8-byte length prefix plus two 16-bit cells), not the
claimed `2 * C * K + 1 = 5`, and its first byte is the cell count `2`, not a
version tag `0x01`. -/
theorem c9_counterexample :
    chunk_store_bytes (MinTargetChunk.empty ⟨2, 2, 1⟩) =
      [2, 0, 0, 0, 0, 0, 0, 0, 255, 255, 255, 255] ∧
    (chunk_store_bytes (MinTargetChunk.empty ⟨2, 2, 1⟩)).length = 12 ∧
    2 * (2 * 1) + 1 = 5 ∧ (12 : Nat) ≠ 5 ∧
    (chunk_store_bytes (MinTargetChunk.empty ⟨2, 2, 1⟩)).head? = some 2 ∧
    (2 : Nat) ≠ 1 := by
  refine ⟨by rfl, by rfl, by rfl, by decide, by rfl, by decide⟩

/-- Claim C2: `MinTargetChunk::check_slashable` returns `SurroundsExisting`
with the stored attester record for the min target exactly when the
attestation's target exceeds `get_target(v, source)` (failing with
`MissingAttesterRecord` when no record for that target exists) and
`NotSlashable` otherwise; `MaxTargetChunk::check_slashable` symmetrically
returns `SurroundedByExisting` exactly when the target is below
`get_target(v, source)`. -/
theorem c2_check_slashable_spec (recs : AttesterRecords) (validator_index : Nat)
    (attestation : IndexedAttestation) (config : Config) :
    (∀ (chunk : Chunk) (min_target : Nat),
      chunk.get_target validator_index attestation.source config = .ok min_target →
      MinTargetChunk.check_slashable recs chunk validator_index attestation config =
        (if attestation.target > min_target then
          (match get_attestation_for_validator recs validator_index min_target with
           | some existing => .ok (.surroundsExisting existing)
           | none => .error (.missingAttesterRecord validator_index min_target))
         else .ok .notSlashable)) ∧
    (∀ (chunk : Chunk) (max_target : Nat),
      chunk.get_target validator_index attestation.source config = .ok max_target →
      MaxTargetChunk.check_slashable recs chunk validator_index attestation config =
        (if attestation.target < max_target then
          (match get_attestation_for_validator recs validator_index max_target with
           | some existing => .ok (.surroundedByExisting existing)
           | none => .error (.missingAttesterRecord validator_index max_target))
         else .ok .notSlashable)) := by
  constructor
  · intro chunk min_target hget
    simp only [MinTargetChunk.check_slashable, hget]
  · intro chunk max_target hget
    simp only [MaxTargetChunk.check_slashable, hget]

theorem c2_witness :
    MinTargetChunk.check_slashable [] ⟨[0, 0]⟩ 0 ⟨[0], 0, 1, 0⟩ ⟨4, 2, 1⟩ =
      .error (.missingAttesterRecord 0 0) ∧
    MaxTargetChunk.check_slashable [((0, 5), ⟨[0], 2, 5, 7⟩)] ⟨[5, 0]⟩ 0
      ⟨[0], 0, 1, 0⟩ ⟨4, 2, 1⟩ = .ok (.surroundedByExisting ⟨[0], 2, 5, 7⟩) := by
  constructor
  · exact ((c2_check_slashable_spec [] 0 ⟨[0], 0, 1, 0⟩ ⟨4, 2, 1⟩).1
      ⟨[0, 0]⟩ 0 (by rfl)).trans (by rfl)
  · exact ((c2_check_slashable_spec [((0, 5), ⟨[0], 2, 5, 7⟩)] 0 ⟨[0], 0, 1, 0⟩
      ⟨4, 2, 1⟩).2 ⟨[5, 0]⟩ 5 (by rfl)).trans (by rfl)

/-- Claim C10: refuted by the code — the claim asserts the MIN-array walk
never panics for attestations with source inside the window, but the cyclic
`chunk_index` wraps at multiples of `H`.  With `H = 4, C = 2, K = 1`,
`current_epoch = 6` (window floor 3) and the single in-window attestation
`(v = 0, source = 5, target = 6)`, the walk starts at epoch 4 (chunk 0,
since `4 mod 4 = 0`), writes there, decrements to epoch 3 (chunk 1), leaves
the chunk and `assert_ne!(chunk_index, 0)` fires: the whole batch panics. -/
theorem c10_assert_fires_in_window :
    update 64 ⟨[], []⟩ [] 0 [⟨[0], 5, 6, 0⟩] 6 ⟨4, 2, 1⟩ = .error .panicAssert ∧
    window_floor ⟨4, 2, 1⟩ 6 ≤ 5 ∧ 5 ≤ 6 := by
  exact ⟨by rfl, by decide, by decide⟩

/-- Claim C1: refuted by the code on a concrete batch — with
`H = 4, C = 2, K = 1`, `current_epoch = 6`, and the batch
`[a, b] = [(v0, 4, 6), (v0, 5, 5)]` where `a.source < b.source` and
`a.target > b.target` (a surrounds b, both sources inside the window and
both targets at most the current epoch), `update` does not return a list
containing an `AttesterSlashing` for the pair: during `b`'s MIN walk the
wrapped cursor leaves chunk 0 and `assert_ne!(chunk_index, 0)` fires, so the
whole batch panics and no slashings are produced.  The spec's detection
property is the clear intent; the walk's wrap handling is the slip. -/
theorem c1_surround_batch_panics :
    update 64 ⟨[], []⟩ [((0, 6), ⟨[0], 4, 6, 1⟩), ((0, 5), ⟨[0], 5, 5, 2⟩)] 0
      [⟨[0], 4, 6, 1⟩, ⟨[0], 5, 5, 2⟩] 6 ⟨4, 2, 1⟩ = .error .panicAssert ∧
    (4 : Nat) < 5 ∧ (5 : Nat) < 6 ∧ window_floor ⟨4, 2, 1⟩ 6 ≤ 4 := by
  exact ⟨by rfl, by decide, by decide, by decide⟩

/-- Claim C3 counterexample: with `H = 4, C = 2, K = 1` and
`current_epoch = 4` the window floor is 1; the single attestation
`(v = 0, source = 1, target = 2)` has its source epoch exactly at the floor,
yet the batch commits successfully after the MIN walk wrote a cell at epoch
`0`, strictly below the floor (the walk starts at `source - 1 = 0`, already
under the floor, and the `epoch == min_epoch` stop can no longer trigger). -/
theorem c3_counterexample :
    (update 64 ⟨[], []⟩ [] 0 [⟨[0], 1, 2, 0⟩] 4 ⟨4, 2, 1⟩).map
      UpdateResult.min_writes = .ok [⟨0, 0, 2⟩] ∧
    window_floor ⟨4, 2, 1⟩ 4 = 1 ∧ window_floor ⟨4, 2, 1⟩ 4 ≤ 1 ∧ (0 : Nat) < 1 := by
  exact ⟨by rfl, by rfl, by decide, by decide⟩

/-- Claim C4 counterexample: the walks never write the cell at the
attestation's own source epoch.  Ingesting the single attestation
`(v = 0, source = 0, target = 1)` at `current_epoch = 1`
(`H = 4, C = 2, K = 1`) succeeds with no slashing, but afterwards the
min-array cell at `(0, source)` still holds the `MAX_DISTANCE` sentinel
(reconstructed target `0 + 65535`, so `min_chunk[v, source] ≤ target - source`
fails: `65535 ≰ 1`) and the max-array cell still holds `0` (reconstructed
target `0`, so `target - source ≤ max_chunk[v, source]` fails: `1 ≰ 0`). -/
theorem c4_counterexample :
    (update 64 ⟨[], []⟩ [] 0 [⟨[0], 0, 1, 0⟩] 1 ⟨4, 2, 1⟩).map
        (fun r => (r.slashings,
          db_get_target minKind r.stores.min_targets 0 0 0 ⟨4, 2, 1⟩,
          db_get_target maxKind r.stores.max_targets 0 0 0 ⟨4, 2, 1⟩)) =
      .ok ([], .ok (0 + MAX_DISTANCE), .ok 0) ∧
    ¬ (0 + MAX_DISTANCE ≤ 1) ∧ ¬ ((1 : Nat) ≤ 0) := by
  exact ⟨by rfl, by decide, by decide⟩

/-- Claim C6 counterexample: replaying a batch that produced a slashing on
the first call does not yield an empty list on the second call.  With
`H = 4, C = 2, K = 1`, `current_epoch = 3`, batch
`[a, b] = [(v0, 1, 3), (v0, 2, 2)]` (a surrounds b) and both records present,
the first `update` returns exactly one slashing, and the second — run
against the first call's stores — returns two more (the MIN pass now sees
`a` surrounding the stored `b`, and the MAX pass again sees `b` surrounded
by the stored `a`). -/
theorem c6_counterexample :
    ((update 64 ⟨[], []⟩ [((0, 3), ⟨[0], 1, 3, 10⟩), ((0, 2), ⟨[0], 2, 2, 11⟩)] 0
        [⟨[0], 1, 3, 10⟩, ⟨[0], 2, 2, 11⟩] 3 ⟨4, 2, 1⟩).bind
      (fun r1 =>
        (update 64 r1.stores [((0, 3), ⟨[0], 1, 3, 10⟩), ((0, 2), ⟨[0], 2, 2, 11⟩)] 0
          [⟨[0], 1, 3, 10⟩, ⟨[0], 2, 2, 11⟩] 3 ⟨4, 2, 1⟩).map
        (fun r2 => (r1.slashings.length, r2.slashings.length))) = .ok (1, 2)) ∧
    (2 : Nat) ≠ 0 := by
  exact ⟨by rfl, by decide⟩

theorem get_chunk_for_update_snd (kind : TargetArrayKind) (db : ChunkDB)
    (cache : ChunkCache) (vci ci : Nat) (config : Config) :
    (get_chunk_for_update kind db cache vci ci config).2 =
      cache_view kind db cache vci ci config := by
  unfold get_chunk_for_update cache_view
  cases hc : cache.get ci
  · cases hdb : db.get (vci, ci) <;> rfl
  · rfl

theorem get_chunk_for_update_fst_view (kind : TargetArrayKind) (db : ChunkDB)
    (cache : ChunkCache) (vci ci ci' : Nat) (config : Config) :
    cache_view kind db (get_chunk_for_update kind db cache vci ci config).1
      vci ci' config = cache_view kind db cache vci ci' config := by
  unfold get_chunk_for_update
  cases hc : cache.get ci
  · show cache_view kind db (cache.put ci _) vci ci' config = _
    unfold cache_view
    rw [cache_get_put]
    by_cases h : ci = ci'
    · subst h
      rw [if_pos rfl, hc]
    · rw [if_neg h]
  · rfl

/-- Claim C5: when `check_slashable` reports anything but `NotSlashable`,
`apply_attestation_for_validator` returns that status immediately: the
update walk is skipped (the write trace is empty) and the logical array
state — every chunk as seen through the cache over the store — is exactly
what it was before the attestation (the cache may have materialized the
checked chunk, with unchanged contents). -/
theorem c5_early_return_skips_update (kind : TargetArrayKind) (fuel : Nat)
    (db : ChunkDB) (recs : AttesterRecords) (cache : ChunkCache)
    (vci v : Nat) (att : IndexedAttestation) (ce : Nat) (config : Config)
    (cache1 : ChunkCache) (st : SlashingStatus) (evs : List WriteEv)
    (h : apply_attestation_for_validator kind fuel db recs cache vci v att ce config =
      .ok (cache1, st, evs))
    (hst : st ≠ .notSlashable) :
    evs = [] ∧ ∀ ci, cache_view kind db cache1 vci ci config =
      cache_view kind db cache vci ci config := by
  simp only [apply_attestation_for_validator] at h
  rcases hg : get_chunk_for_update kind db cache vci
      (config.chunk_index att.source) config with ⟨cacheA, chunkA⟩
  rw [hg] at h
  have hview : ∀ ci, cache_view kind db cacheA vci ci config =
      cache_view kind db cache vci ci config := by
    intro ci
    have hfv := get_chunk_for_update_fst_view kind db cache vci
      (config.chunk_index att.source) ci config
    rw [hg] at hfv
    exact hfv
  split at h
  · exact Except.noConfusion h
  · rename_i st0 heq
    split at h
    · rename_i hs0
      split at h
      · have hst0 : st0 = st := congrArg (fun t => t.2.1) (Except.ok.inj h)
        exact absurd (hst0 ▸ hs0) hst
      · split at h
        · exact Except.noConfusion h
        · rename_i p heq2
          have hst0 : SlashingStatus.notSlashable = st :=
            congrArg (fun t => t.2.1) (Except.ok.inj h)
          exact absurd hst0.symm hst
    · have heq3 := Except.ok.inj h
      have hc1 : cacheA = cache1 := congrArg Prod.fst heq3
      have hevs : ([] : List WriteEv) = evs := congrArg (fun t => t.2.2) heq3
      exact ⟨hevs.symm, fun ci => by rw [← hc1]; exact hview ci⟩

theorem chunk_index_div_mod (config : Config) (hC : 0 < config.chunk_size)
    (hdvd : config.chunk_size ∣ config.history_length) (e : Nat) :
    config.chunk_index e =
      (e / config.chunk_size) % (config.history_length / config.chunk_size) := by
  obtain ⟨m, hm⟩ := hdvd
  rw [Config.chunk_index, hm, Nat.mod_mul, Nat.mul_div_cancel_left _ hC,
    Nat.add_mul_div_left _ _ hC, Nat.div_eq_of_lt (Nat.mod_lt _ hC), Nat.zero_add]

theorem chunk_index_eq_of_div_eq (config : Config) (hC : 0 < config.chunk_size)
    (hdvd : config.chunk_size ∣ config.history_length) (e e' : Nat)
    (h : e / config.chunk_size = e' / config.chunk_size) :
    config.chunk_index e = config.chunk_index e' := by
  rw [chunk_index_div_mod config hC hdvd, chunk_index_div_mod config hC hdvd, h]

theorem min_update_loop_epochs (config : Config) (ci v t me : Nat) :
    ∀ (fuel : Nat) (chunk : Chunk) (start : Nat) (c' : Chunk) (evs : List WriteEv)
      (kg : Bool),
      MinTargetChunk.update_loop config ci v t me fuel chunk start = .ok (c', evs, kg) →
      me ≤ start →
      (∀ ev ∈ evs, me ≤ ev.epoch ∧ ev.epoch ≤ start) ∧
      (kg = true → ∃ b, me ≤ b ∧ b ≤ start ∧ config.chunk_index b ≠ ci) := by
  intro fuel
  induction fuel with
  | zero => intro chunk start c' evs kg h; cases h
  | succ n ih =>
    intro chunk start c' evs kg h hme
    rw [MinTargetChunk.update_loop] at h
    by_cases hci : config.chunk_index start = ci
    · rw [if_pos hci] at h
      cases hget : chunk.get_target v start config with
      | error e => rw [hget] at h; simp only [] at h; cases h
      | ok tgt =>
        rw [hget] at h
        simp only [] at h
        by_cases hlt : t < tgt
        · rw [if_pos hlt] at h
          cases hset : chunk.set_target v start t config with
          | error e => rw [hset] at h; simp only [] at h; cases h
          | ok chunk1 =>
            rw [hset] at h
            simp only [] at h
            by_cases hstop : start = me
            · rw [if_pos hstop] at h
              have heq := Except.ok.inj h
              have hevs : [(⟨v, start, t⟩ : WriteEv)] = evs :=
                congrArg (fun p => p.2.1) heq
              have hkg : false = kg := congrArg (fun p => p.2.2) heq
              constructor
              · intro ev hev
                rw [← hevs] at hev
                rcases List.mem_singleton.1 hev with rfl
                exact ⟨hme, le_refl _⟩
              · intro hk
                rw [← hkg] at hk
                cases hk
            · rw [if_neg hstop] at h
              cases hrec : MinTargetChunk.update_loop config ci v t me n chunk1
                  (start - 1) with
              | error e => rw [hrec] at h; simp only [] at h; cases h
              | ok p =>
                rcases p with ⟨c2, evs2, kg2⟩
                rw [hrec] at h
                simp only [] at h
                have heq := Except.ok.inj h
                have hevs : (⟨v, start, t⟩ : WriteEv) :: evs2 = evs :=
                  congrArg (fun p => p.2.1) heq
                have hkg : kg2 = kg := congrArg (fun p => p.2.2) heq
                have hme1 : me ≤ start - 1 := by omega
                obtain ⟨hb1, hb2⟩ := ih chunk1 (start - 1) c2 evs2 kg2 hrec hme1
                constructor
                · intro ev hev
                  rw [← hevs] at hev
                  rcases List.mem_cons.1 hev with rfl | hmem
                  · exact ⟨hme, le_refl _⟩
                  · obtain ⟨h1, h2⟩ := hb1 ev hmem
                    exact ⟨h1, by omega⟩
                · intro hk
                  obtain ⟨b, hb⟩ := hb2 (hkg.trans hk)
                  exact ⟨b, hb.1, by omega, hb.2.2⟩
        · rw [if_neg hlt] at h
          have heq := Except.ok.inj h
          have hevs : ([] : List WriteEv) = evs := congrArg (fun p => p.2.1) heq
          have hkg : false = kg := congrArg (fun p => p.2.2) heq
          refine ⟨fun ev hev => absurd hev (by rw [← hevs]; simp), fun hk => ?_⟩
          rw [← hkg] at hk
          cases hk
    · rw [if_neg hci] at h
      by_cases hc0 : ci = 0
      · rw [if_pos hc0] at h
        cases h
      · rw [if_neg hc0] at h
        have heq := Except.ok.inj h
        have hevs : ([] : List WriteEv) = evs := congrArg (fun p => p.2.1) heq
        refine ⟨fun ev hev => absurd hev (by rw [← hevs]; simp), fun _ => ?_⟩
        exact ⟨start, hme, le_refl _, hci⟩

theorem max_update_loop_epochs (config : Config) (ci v t ce : Nat) :
    ∀ (fuel : Nat) (chunk : Chunk) (start : Nat) (c' : Chunk) (evs : List WriteEv)
      (kg : Bool),
      MaxTargetChunk.update_loop config ci v t ce fuel chunk start = .ok (c', evs, kg) →
      ∀ ev ∈ evs, start ≤ ev.epoch := by
  intro fuel
  induction fuel with
  | zero => intro chunk start c' evs kg h; cases h
  | succ n ih =>
    intro chunk start c' evs kg h
    rw [MaxTargetChunk.update_loop] at h
    by_cases hci : config.chunk_index start = ci
    · rw [if_pos hci] at h
      cases hget : chunk.get_target v start config with
      | error e => rw [hget] at h; simp only [] at h; cases h
      | ok tgt =>
        rw [hget] at h
        simp only [] at h
        by_cases hlt : t > tgt
        · rw [if_pos hlt] at h
          cases hset : chunk.set_target v start t config with
          | error e => rw [hset] at h; simp only [] at h; cases h
          | ok chunk1 =>
            rw [hset] at h
            simp only [] at h
            by_cases hstop : start = ce
            · rw [if_pos hstop] at h
              have hevs : [(⟨v, start, t⟩ : WriteEv)] = evs :=
                congrArg (fun p => p.2.1) (Except.ok.inj h)
              intro ev hev
              rw [← hevs] at hev
              rcases List.mem_singleton.1 hev with rfl
              exact le_refl _
            · rw [if_neg hstop] at h
              cases hrec : MaxTargetChunk.update_loop config ci v t ce n chunk1
                  (start + 1) with
              | error e => rw [hrec] at h; simp only [] at h; cases h
              | ok p =>
                rcases p with ⟨c2, evs2, kg2⟩
                rw [hrec] at h
                simp only [] at h
                have hevs : (⟨v, start, t⟩ : WriteEv) :: evs2 = evs :=
                  congrArg (fun p => p.2.1) (Except.ok.inj h)
                intro ev hev
                rw [← hevs] at hev
                rcases List.mem_cons.1 hev with rfl | hmem
                · exact le_refl _
                · exact le_trans (by omega) (ih chunk1 (start + 1) c2 evs2 kg2 hrec ev hmem)
        · rw [if_neg hlt] at h
          have hevs : ([] : List WriteEv) = evs :=
            congrArg (fun p => p.2.1) (Except.ok.inj h)
          intro ev hev
          exact absurd hev (by rw [← hevs]; simp)
    · rw [if_neg hci] at h
      have hevs : ([] : List WriteEv) = evs :=
        congrArg (fun p => p.2.1) (Except.ok.inj h)
      intro ev hev
      exact absurd hev (by rw [← hevs]; simp)

theorem div_eq_of_between (b s C : Nat) (hC : 0 < C) (h1 : s / C * C ≤ b)
    (h2 : b ≤ s) : b / C = s / C := by
  refine le_antisymm (Nat.div_le_div_right h2) ?_
  have h3 : s / C * C / C = s / C := Nat.mul_div_cancel _ hC
  calc s / C = s / C * C / C := h3.symm
    _ ≤ b / C := Nat.div_le_div_right h1

theorem mod_pred (a m : Nat) (hm : 0 < m) (h : a % m ≠ 0) :
    (a - 1) % m = a % m - 1 := by
  have hd := Nat.div_add_mod a m
  have hlt := Nat.mod_lt a hm
  have h1 : a - 1 = m * (a / m) + (a % m - 1) := by omega
  rw [h1, Nat.mul_add_mod, Nat.mod_eq_of_lt (by omega)]

theorem mul_pred_div (a C : Nat) (hC : 0 < C) (ha : 1 ≤ a) :
    (a * C - 1) / C = a - 1 := by
  have h2 : (a - 1) * C = a * C - C := Nat.sub_one_mul _ _
  have h3 : C ≤ a * C := Nat.le_mul_of_pos_left C ha
  have h1 : a * C - 1 = C * (a - 1) + (C - 1) := by
    rw [Nat.mul_comm C (a - 1)]
    omega
  rw [h1, Nat.mul_add_div hC, Nat.div_eq_of_lt (by omega), Nat.add_zero]

theorem floor_pred_div (s C : Nat) (hC : 0 < C) (h : 1 ≤ s / C) :
    (s / C * C - 1) / C = s / C - 1 :=
  mul_pred_div (s / C) C hC h

theorem chunk_index_floor_pred (config : Config) (hC : 0 < config.chunk_size)
    (hH : 0 < config.history_length)
    (hdvd : config.chunk_size ∣ config.history_length) (s : Nat)
    (hne : config.chunk_index s ≠ 0) :
    config.chunk_index (s / config.chunk_size * config.chunk_size - 1) =
      config.chunk_index s - 1 := by
  have hm : 0 < config.history_length / config.chunk_size :=
    Nat.div_pos (Nat.le_of_dvd hH hdvd) hC
  rw [chunk_index_div_mod config hC hdvd] at hne ⊢
  rw [chunk_index_div_mod config hC hdvd]
  have hdiv1 : 1 ≤ s / config.chunk_size := by
    by_contra hcon
    have h0 : s / config.chunk_size = 0 := Nat.lt_one_iff.1 (Nat.not_le.1 hcon)
    rw [h0] at hne
    exact hne (Nat.zero_mod _)
  rw [floor_pred_div _ _ hC hdiv1, mod_pred _ _ hm hne]

theorem apply_loop_min_epochs (db : ChunkDB) (vci v t ce : Nat) (config : Config)
    (hC : 0 < config.chunk_size) (hH : 0 < config.history_length)
    (hdvd : config.chunk_size ∣ config.history_length) (wfuel : Nat) :
    ∀ (fuel : Nat) (cache : ChunkCache) (ci start : Nat) (cache' : ChunkCache)
      (evs : List WriteEv),
      apply_attestation_loop minKind db vci v t ce config wfuel fuel cache ci start =
        .ok (cache', evs) →
      ce - (config.history_length - 1) ≤ start →
      ci = config.chunk_index start →
      ∀ ev ∈ evs, ce - (config.history_length - 1) ≤ ev.epoch := by
  intro fuel
  induction fuel with
  | zero => intro cache ci start cache' evs h; cases h
  | succ n ih =>
    intro cache ci start cache' evs h hme hci
    rw [apply_attestation_loop] at h
    rcases hg : get_chunk_for_update minKind db cache vci ci config with ⟨cacheA, chunkA⟩
    rw [hg] at h
    rw [show minKind.chunk_update = MinTargetChunk.update from rfl] at h
    simp only [MinTargetChunk.update] at h
    cases hwalk : MinTargetChunk.update_loop config ci v t
        (ce - (config.history_length - 1)) wfuel chunkA start with
    | error e => rw [hwalk] at h; simp only [] at h; cases h
    | ok p =>
      rcases p with ⟨c1, evs1, kg⟩
      rw [hwalk] at h
      simp only [] at h
      obtain ⟨hbound, hexit⟩ := min_update_loop_epochs config ci v t _ wfuel chunkA
        start c1 evs1 kg hwalk hme
      cases kg with
      | false =>
        have heq := Except.ok.inj h
        have hevs : evs1 = evs := congrArg (fun p => p.2) heq
        intro ev hev
        rw [← hevs] at hev
        exact (hbound ev hev).1
      | true =>
        rw [show minKind.next_chunk_index_and_start_epoch =
          MinTargetChunk.next_chunk_index_and_start_epoch from rfl] at h
        simp only [MinTargetChunk.next_chunk_index_and_start_epoch] at h
        by_cases hc0 : ci = 0
        · rw [if_pos hc0] at h
          simp only [] at h
          cases h
        · rw [if_neg hc0] at h
          simp only [] at h
          cases hrec : apply_attestation_loop minKind db vci v t ce config wfuel n
              (cacheA.put ci c1) (ci - 1)
              (start / config.chunk_size * config.chunk_size - 1) with
          | error e => rw [hrec] at h; simp only [] at h; cases h
          | ok q =>
            rcases q with ⟨cache3, evs2⟩
            rw [hrec] at h
            simp only [] at h
            have heq := Except.ok.inj h
            have hevs : evs1 ++ evs2 = evs := congrArg (fun p => p.2) heq
            obtain ⟨b, hb1, hb2, hb3⟩ := hexit rfl
            have hbfloor : b < start / config.chunk_size * config.chunk_size := by
              by_contra hcon
              refine hb3 ?_
              rw [hci]
              exact chunk_index_eq_of_div_eq config hC hdvd b start
                (div_eq_of_between b start _ hC (by omega) hb2)
            have hme2 : ce - (config.history_length - 1) ≤
                start / config.chunk_size * config.chunk_size - 1 := by omega
            have hne : config.chunk_index start ≠ 0 := by
              rw [← hci]
              exact hc0
            have hci2 : ci - 1 = config.chunk_index
                (start / config.chunk_size * config.chunk_size - 1) := by
              rw [chunk_index_floor_pred config hC hH hdvd start hne, ← hci]
            intro ev hev
            rw [← hevs] at hev
            rcases List.mem_append.1 hev with hmem | hmem
            · exact (hbound ev hmem).1
            · exact ih (cacheA.put ci c1) (ci - 1) _ cache3 evs2 hrec hme2 hci2 ev hmem

theorem lt_div_succ_mul (start C : Nat) (hC : 0 < C) : start < (start / C + 1) * C := by
  have h2 := Nat.div_add_mod start C
  have h3 := Nat.mod_lt start hC
  rw [Nat.succ_mul]
  rw [Nat.mul_comm C (start / C)] at h2
  omega

theorem apply_loop_max_epochs (db : ChunkDB) (vci v t ce : Nat) (config : Config)
    (hC : 0 < config.chunk_size) (wfuel : Nat) :
    ∀ (fuel : Nat) (cache : ChunkCache) (ci start : Nat) (cache' : ChunkCache)
      (evs : List WriteEv),
      apply_attestation_loop maxKind db vci v t ce config wfuel fuel cache ci start =
        .ok (cache', evs) →
      ∀ ev ∈ evs, start ≤ ev.epoch := by
  intro fuel
  induction fuel with
  | zero => intro cache ci start cache' evs h; cases h
  | succ n ih =>
    intro cache ci start cache' evs h
    rw [apply_attestation_loop] at h
    rcases hg : get_chunk_for_update maxKind db cache vci ci config with ⟨cacheA, chunkA⟩
    rw [hg] at h
    rw [show maxKind.chunk_update = MaxTargetChunk.update from rfl] at h
    simp only [MaxTargetChunk.update] at h
    cases hwalk : MaxTargetChunk.update_loop config ci v t ce wfuel chunkA start with
    | error e => rw [hwalk] at h; simp only [] at h; cases h
    | ok p =>
      rcases p with ⟨c1, evs1, kg⟩
      rw [hwalk] at h
      simp only [] at h
      have hbound := max_update_loop_epochs config ci v t ce wfuel chunkA
        start c1 evs1 kg hwalk
      cases kg with
      | false =>
        have hevs : evs1 = evs := congrArg (fun p => p.2) (Except.ok.inj h)
        intro ev hev
        rw [← hevs] at hev
        exact hbound ev hev
      | true =>
        rw [show maxKind.next_chunk_index_and_start_epoch =
          MaxTargetChunk.next_chunk_index_and_start_epoch from rfl] at h
        simp only [MaxTargetChunk.next_chunk_index_and_start_epoch] at h
        cases hrec : apply_attestation_loop maxKind db vci v t ce config wfuel n
            (cacheA.put ci c1) (ci + 1)
            ((start / config.chunk_size + 1) * config.chunk_size) with
        | error e => rw [hrec] at h; simp only [] at h; cases h
        | ok q =>
          rcases q with ⟨cache3, evs2⟩
          rw [hrec] at h
          simp only [] at h
          have hevs : evs1 ++ evs2 = evs := congrArg (fun p => p.2) (Except.ok.inj h)
          have hlt := lt_div_succ_mul start config.chunk_size hC
          intro ev hev
          rw [← hevs] at hev
          rcases List.mem_append.1 hev with hmem | hmem
          · exact hbound ev hmem
          · exact le_trans (by omega)
              (ih (cacheA.put ci c1) (ci + 1) _ cache3 evs2 hrec ev hmem)

theorem window_floor_eq_min_epoch (config : Config) (hH : 0 < config.history_length)
    (ce : Nat) : window_floor config ce = ce - (config.history_length - 1) := by
  unfold window_floor
  omega

theorem apply_min_epochs (fuel : Nat) (db : ChunkDB) (recs : AttesterRecords)
    (cache : ChunkCache) (vci v : Nat) (a : IndexedAttestation) (ce : Nat)
    (config : Config) (hC : 0 < config.chunk_size) (hH : 0 < config.history_length)
    (hdvd : config.chunk_size ∣ config.history_length)
    (cache' : ChunkCache) (st : SlashingStatus) (evs : List WriteEv)
    (h : apply_attestation_for_validator minKind fuel db recs cache vci v a ce config =
      .ok (cache', st, evs))
    (hsrc : window_floor config ce < a.source) :
    ∀ ev ∈ evs, window_floor config ce ≤ ev.epoch := by
  simp only [apply_attestation_for_validator] at h
  rcases hg : get_chunk_for_update minKind db cache vci
      (config.chunk_index a.source) config with ⟨cacheA, chunkA⟩
  rw [hg] at h
  split at h
  · exact Except.noConfusion h
  · rename_i st0 heq
    split at h
    · rename_i hs0
      rw [show minKind.first_start_epoch = MinTargetChunk.first_start_epoch from rfl] at h
      simp only [MinTargetChunk.first_start_epoch] at h
      have hpos : a.source > 0 := by
        have := window_floor config ce
        omega
      rw [if_pos hpos] at h
      simp only [] at h
      cases hloop : apply_attestation_loop minKind db vci v a.target ce config fuel
          fuel cacheA (config.chunk_index (a.source - 1)) (a.source - 1) with
      | error e => rw [hloop] at h; simp only [] at h; cases h
      | ok p =>
        rcases p with ⟨cache2, evs2⟩
        rw [hloop] at h
        simp only [] at h
        have hevs : evs2 = evs := congrArg (fun t => t.2.2) (Except.ok.inj h)
        have hfl := window_floor_eq_min_epoch config hH ce
        intro ev hev
        rw [← hevs] at hev
        rw [hfl]
        refine apply_loop_min_epochs db vci v a.target ce config hC hH hdvd fuel
          fuel cacheA (config.chunk_index (a.source - 1)) (a.source - 1)
          cache2 evs2 hloop ?_ rfl ev hev
        rw [← hfl]
        omega
    · have hevs : ([] : List WriteEv) = evs :=
        congrArg (fun t => t.2.2) (Except.ok.inj h)
      intro ev hev
      exact absurd hev (by rw [← hevs]; simp)

theorem apply_max_epochs (fuel : Nat) (db : ChunkDB) (recs : AttesterRecords)
    (cache : ChunkCache) (vci v : Nat) (a : IndexedAttestation) (ce : Nat)
    (config : Config) (hC : 0 < config.chunk_size)
    (cache' : ChunkCache) (st : SlashingStatus) (evs : List WriteEv)
    (h : apply_attestation_for_validator maxKind fuel db recs cache vci v a ce config =
      .ok (cache', st, evs)) :
    ∀ ev ∈ evs, a.source < ev.epoch := by
  simp only [apply_attestation_for_validator] at h
  rcases hg : get_chunk_for_update maxKind db cache vci
      (config.chunk_index a.source) config with ⟨cacheA, chunkA⟩
  rw [hg] at h
  split at h
  · exact Except.noConfusion h
  · rename_i st0 heq
    split at h
    · rename_i hs0
      rw [show maxKind.first_start_epoch = MaxTargetChunk.first_start_epoch from rfl] at h
      simp only [MaxTargetChunk.first_start_epoch] at h
      by_cases hlt : a.source < ce
      · rw [if_pos hlt] at h
        simp only [] at h
        cases hloop : apply_attestation_loop maxKind db vci v a.target ce config fuel
            fuel cacheA (config.chunk_index (a.source + 1)) (a.source + 1) with
        | error e => rw [hloop] at h; simp only [] at h; cases h
        | ok p =>
          rcases p with ⟨cache2, evs2⟩
          rw [hloop] at h
          simp only [] at h
          have hevs : evs2 = evs := congrArg (fun t => t.2.2) (Except.ok.inj h)
          intro ev hev
          rw [← hevs] at hev
          have := apply_loop_max_epochs db vci v a.target ce config hC fuel
            fuel cacheA (config.chunk_index (a.source + 1)) (a.source + 1)
            cache2 evs2 hloop ev hev
          omega
      · rw [if_neg hlt] at h
        simp only [] at h
        have hevs : ([] : List WriteEv) = evs :=
          congrArg (fun t => t.2.2) (Except.ok.inj h)
        intro ev hev
        exact absurd hev (by rw [← hevs]; simp)
    · have hevs : ([] : List WriteEv) = evs :=
        congrArg (fun t => t.2.2) (Except.ok.inj h)
      intro ev hev
      exact absurd hev (by rw [← hevs]; simp)

theorem update_array_validators_evs (kind : TargetArrayKind) (fuel : Nat)
    (db : ChunkDB) (recs : AttesterRecords) (vci : Nat) (a : IndexedAttestation)
    (ce : Nat) (config : Config) (Q : WriteEv → Prop)
    (happly : ∀ cache v cache' st evs,
      apply_attestation_for_validator kind fuel db recs cache vci v a ce config =
        .ok (cache', st, evs) → ∀ ev ∈ evs, Q ev) :
    ∀ (vs : List Nat) (cache : ChunkCache) cache' sls sts evs,
      update_array_validators kind fuel db recs vci a ce config vs cache =
        .ok (cache', sls, sts, evs) →
      ∀ ev ∈ evs, Q ev := by
  intro vs
  induction vs with
  | nil =>
    intro cache cache' sls sts evs h
    have hevs : ([] : List WriteEv) = evs :=
      congrArg (fun t => t.2.2.2) (Except.ok.inj h)
    intro ev hev
    exact absurd hev (by rw [← hevs]; simp)
  | cons v rest ih =>
    intro cache cache' sls sts evs h
    rw [update_array_validators] at h
    cases happ : apply_attestation_for_validator kind fuel db recs cache vci v a
        ce config with
    | error e => rw [happ] at h; simp only [] at h; cases h
    | ok p =>
      rcases p with ⟨cache1, st1, evs1⟩
      rw [happ] at h
      simp only [] at h
      cases hrec : update_array_validators kind fuel db recs vci a ce config
          rest cache1 with
      | error e => rw [hrec] at h; simp only [] at h; cases h
      | ok q =>
        rcases q with ⟨cache2, sls2, sts2, evs2⟩
        rw [hrec] at h
        simp only [] at h
        have hevs : evs1 ++ evs2 = evs :=
          congrArg (fun t => t.2.2.2) (Except.ok.inj h)
        intro ev hev
        rw [← hevs] at hev
        rcases List.mem_append.1 hev with hmem | hmem
        · exact happly cache v cache1 st1 evs1 happ ev hmem
        · exact ih cache1 cache2 sls2 sts2 evs2 hrec ev hmem

theorem update_array_atts_evs (kind : TargetArrayKind) (fuel : Nat)
    (db : ChunkDB) (recs : AttesterRecords) (vci ce : Nat) (config : Config)
    (Pre : IndexedAttestation → Prop) (Q : WriteEv → Prop)
    (happly : ∀ cache v a cache' st evs, Pre a →
      apply_attestation_for_validator kind fuel db recs cache vci v a ce config =
        .ok (cache', st, evs) → ∀ ev ∈ evs, Q ev) :
    ∀ (atts : List IndexedAttestation) (cache : ChunkCache) cache' sls sts evs,
      (∀ a ∈ atts, Pre a) →
      update_array_atts kind fuel db recs vci ce config atts cache =
        .ok (cache', sls, sts, evs) →
      ∀ ev ∈ evs, Q ev := by
  intro atts
  induction atts with
  | nil =>
    intro cache cache' sls sts evs _ h
    have hevs : ([] : List WriteEv) = evs :=
      congrArg (fun t => t.2.2.2) (Except.ok.inj h)
    intro ev hev
    exact absurd hev (by rw [← hevs]; simp)
  | cons a rest ih =>
    intro cache cache' sls sts evs hpre h
    rw [update_array_atts] at h
    cases hv : update_array_validators kind fuel db recs vci a ce config
        (attesting_validators_for_chunk config a vci) cache with
    | error e => rw [hv] at h; simp only [] at h; cases h
    | ok p =>
      rcases p with ⟨cache1, sls1, sts1, evs1⟩
      rw [hv] at h
      simp only [] at h
      cases hrec : update_array_atts kind fuel db recs vci ce config rest cache1 with
      | error e => rw [hrec] at h; simp only [] at h; cases h
      | ok q =>
        rcases q with ⟨cache2, sls2, sts2, evs2⟩
        rw [hrec] at h
        simp only [] at h
        have hevs : evs1 ++ evs2 = evs :=
          congrArg (fun t => t.2.2.2) (Except.ok.inj h)
        intro ev hev
        rw [← hevs] at hev
        rcases List.mem_append.1 hev with hmem | hmem
        · exact update_array_validators_evs kind fuel db recs vci a ce config Q
            (fun cache v cache' st evs happ =>
              happly cache v a cache' st evs (hpre a (List.mem_cons_self a rest)) happ)
            _ cache cache1 sls1 sts1 evs1 hv ev hmem
        · exact ih cache1 cache2 sls2 sts2 evs2
            (fun x hx => hpre x (List.mem_cons_of_mem a hx)) hrec ev hmem

theorem update_array_groups_evs (kind : TargetArrayKind) (fuel : Nat)
    (db : ChunkDB) (recs : AttesterRecords) (vci ce : Nat) (config : Config)
    (Pre : IndexedAttestation → Prop) (Q : WriteEv → Prop)
    (happly : ∀ cache v a cache' st evs, Pre a →
      apply_attestation_for_validator kind fuel db recs cache vci v a ce config =
        .ok (cache', st, evs) → ∀ ev ∈ evs, Q ev) :
    ∀ (groups : List (Nat × List IndexedAttestation)) (cache : ChunkCache)
      cache' sls sts evs,
      (∀ g ∈ groups, ∀ a ∈ g.2, Pre a) →
      update_array_groups kind fuel db recs vci ce config groups cache =
        .ok (cache', sls, sts, evs) →
      ∀ ev ∈ evs, Q ev := by
  intro groups
  induction groups with
  | nil =>
    intro cache cache' sls sts evs _ h
    have hevs : ([] : List WriteEv) = evs :=
      congrArg (fun t => t.2.2.2) (Except.ok.inj h)
    intro ev hev
    exact absurd hev (by rw [← hevs]; simp)
  | cons g rest ih =>
    intro cache cache' sls sts evs hpre h
    rcases g with ⟨gk, atts⟩
    rw [update_array_groups] at h
    cases ha : update_array_atts kind fuel db recs vci ce config atts cache with
    | error e => rw [ha] at h; simp only [] at h; cases h
    | ok p =>
      rcases p with ⟨cache1, sls1, sts1, evs1⟩
      rw [ha] at h
      simp only [] at h
      cases hrec : update_array_groups kind fuel db recs vci ce config rest cache1 with
      | error e => rw [hrec] at h; simp only [] at h; cases h
      | ok q =>
        rcases q with ⟨cache2, sls2, sts2, evs2⟩
        rw [hrec] at h
        simp only [] at h
        have hevs : evs1 ++ evs2 = evs :=
          congrArg (fun t => t.2.2.2) (Except.ok.inj h)
        intro ev hev
        rw [← hevs] at hev
        rcases List.mem_append.1 hev with hmem | hmem
        · exact update_array_atts_evs kind fuel db recs vci ce config Pre Q happly
            atts cache cache1 sls1 sts1 evs1
            (fun a hx => hpre (gk, atts) (List.mem_cons_self _ rest) a hx) ha ev hmem
        · exact ih cache1 cache2 sls2 sts2 evs2
            (fun x hx => hpre x (List.mem_cons_of_mem _ hx)) hrec ev hmem

theorem group_insert_mem (S : List IndexedAttestation) (a : IndexedAttestation)
    (ha : a ∈ S) :
    ∀ (m : List (Nat × List IndexedAttestation)) (k : Nat),
      (∀ g ∈ m, ∀ x ∈ g.2, x ∈ S) →
      ∀ g ∈ group_insert k a m, ∀ x ∈ g.2, x ∈ S := by
  intro m
  induction m with
  | nil =>
    intro k _ g hg x hx
    rw [group_insert] at hg
    rcases List.mem_singleton.1 hg with rfl
    rcases List.mem_singleton.1 hx with rfl
    exact ha
  | cons hd tl ih =>
    intro k hall g hg x hx
    rcases hd with ⟨k0, atts0⟩
    rw [group_insert] at hg
    by_cases h1 : k < k0
    · rw [if_pos h1] at hg
      rcases List.mem_cons.1 hg with rfl | hmem
      · rcases List.mem_singleton.1 hx with rfl
        exact ha
      · exact hall g hmem x hx
    · rw [if_neg h1] at hg
      by_cases h2 : k = k0
      · rw [if_pos h2] at hg
        rcases List.mem_cons.1 hg with rfl | hmem
        · rcases List.mem_append.1 hx with hx1 | hx1
          · exact hall (k0, atts0) (List.mem_cons_self _ _) x hx1
          · rcases List.mem_singleton.1 hx1 with rfl
            exact ha
        · exact hall g (List.mem_cons_of_mem _ hmem) x hx
      · rw [if_neg h2] at hg
        rcases List.mem_cons.1 hg with rfl | hmem
        · exact hall (k0, atts0) (List.mem_cons_self _ _) x hx
        · exact ih k (fun g2 hg2 => hall g2 (List.mem_cons_of_mem _ hg2)) g hmem x hx

theorem group_by_chunk_mem (config : Config) (batch : List IndexedAttestation) :
    ∀ g ∈ group_by_chunk config batch, ∀ a ∈ g.2, a ∈ batch := by
  have hgen : ∀ (l : List IndexedAttestation) (acc : List (Nat × List IndexedAttestation)),
      (∀ x ∈ l, x ∈ batch) →
      (∀ g ∈ acc, ∀ x ∈ g.2, x ∈ batch) →
      ∀ g ∈ l.foldl (fun m a => group_insert (config.chunk_index a.source) a m) acc,
        ∀ x ∈ g.2, x ∈ batch := by
    intro l
    induction l with
    | nil => intro acc _ hacc g hg x hx; exact hacc g hg x hx
    | cons a rest ih =>
      intro acc hl hacc
      rw [List.foldl_cons]
      exact ih _ (fun x hx => hl x (List.mem_cons_of_mem a hx))
        (group_insert_mem batch a (hl a (List.mem_cons_self a rest)) acc _ hacc)
  exact hgen batch [] (fun x hx => hx) (fun g hg => absurd hg (List.not_mem_nil g))

/-- Claim C3 (amended): for a batch processed at `current_epoch` with every
attestation's source epoch STRICTLY ABOVE the window floor
`max(0, ce - H + 1)`, no cell of any min-target or max-target chunk is
written at an epoch below the floor (the MIN walk starts at `source - 1`,
still at or above the floor, and stops there unconditionally; the MAX walk
only writes above the source).  When a source sits exactly at a positive
floor the guarantee fails: the MIN walk then starts below the floor and
writes there (see the counterexample). -/
theorem c3_window_floor_writes (fuel : Nat) (stores : Stores)
    (recs : AttesterRecords) (vci : Nat) (batch : List IndexedAttestation)
    (ce : Nat) (config : Config) (hC : 0 < config.chunk_size)
    (hH : 0 < config.history_length)
    (hdvd : config.chunk_size ∣ config.history_length) (r : UpdateResult)
    (hsrc : ∀ a ∈ batch, window_floor config ce < a.source)
    (h : update fuel stores recs vci batch ce config = .ok r) :
    (∀ ev ∈ r.min_writes, window_floor config ce ≤ ev.epoch) ∧
    (∀ ev ∈ r.max_writes, window_floor config ce ≤ ev.epoch) := by
  rw [update] at h
  cases hmin : update_array minKind fuel stores.min_targets recs vci
      (group_by_chunk config batch) ce config with
  | error e => rw [hmin] at h; simp only [] at h; cases h
  | ok p =>
    rcases p with ⟨mindb, sls1, sts1, evs1⟩
    rw [hmin] at h
    simp only [] at h
    cases hmax : update_array maxKind fuel stores.max_targets recs vci
        (group_by_chunk config batch) ce config with
    | error e => rw [hmax] at h; simp only [] at h; cases h
    | ok q =>
      rcases q with ⟨maxdb, sls2, sts2, evs2⟩
      rw [hmax] at h
      simp only [] at h
      have hr := Except.ok.inj h
      have hminw : evs1 = r.min_writes := congrArg UpdateResult.min_writes hr
      have hmaxw : evs2 = r.max_writes := congrArg UpdateResult.max_writes hr
      rw [update_array] at hmin hmax
      have hpre : ∀ g ∈ group_by_chunk config batch, ∀ a ∈ g.2,
          window_floor config ce < a.source := by
        intro g hg a ha
        exact hsrc a (group_by_chunk_mem config batch g hg a ha)
      constructor
      · rw [← hminw]
        cases hming : update_array_groups minKind fuel stores.min_targets recs vci
            ce config (group_by_chunk config batch) [] with
        | error e => rw [hming] at hmin; simp only [] at hmin; cases hmin
        | ok pp =>
          rcases pp with ⟨cacheF, slsF, stsF, evsF⟩
          rw [hming] at hmin
          simp only [] at hmin
          have hevs : evsF = evs1 := congrArg (fun t => t.2.2.2) (Except.ok.inj hmin)
          rw [← hevs]
          exact update_array_groups_evs minKind fuel stores.min_targets recs vci ce
            config (fun a => window_floor config ce < a.source)
            (fun ev => window_floor config ce ≤ ev.epoch)
            (fun cache v a cache' st evs hp happ =>
              apply_min_epochs fuel stores.min_targets recs cache vci v a ce config
                hC hH hdvd cache' st evs happ hp)
            (group_by_chunk config batch) [] cacheF slsF stsF evsF hpre hming
      · rw [← hmaxw]
        cases hmaxg : update_array_groups maxKind fuel stores.max_targets recs vci
            ce config (group_by_chunk config batch) [] with
        | error e => rw [hmaxg] at hmax; simp only [] at hmax; cases hmax
        | ok pp =>
          rcases pp with ⟨cacheF, slsF, stsF, evsF⟩
          rw [hmaxg] at hmax
          simp only [] at hmax
          have hevs : evsF = evs2 := congrArg (fun t => t.2.2.2) (Except.ok.inj hmax)
          rw [← hevs]
          exact update_array_groups_evs maxKind fuel stores.max_targets recs vci ce
            config (fun a => window_floor config ce < a.source)
            (fun ev => window_floor config ce ≤ ev.epoch)
            (fun cache v a cache' st evs hp happ ev hev => by
              have := apply_max_epochs fuel stores.max_targets recs cache vci v a ce
                config hC cache' st evs happ ev hev
              omega)
            (group_by_chunk config batch) [] cacheF slsF stsF evsF hpre hmaxg

theorem c3_witness :
    (∀ ev ∈ ([⟨0, 1, 3⟩, ⟨0, 0, 3⟩] : List WriteEv),
      window_floor ⟨4, 2, 1⟩ 3 ≤ ev.epoch) ∧
    (∀ ev ∈ ([] : List WriteEv), window_floor ⟨4, 2, 1⟩ 3 ≤ ev.epoch) := by
  refine c3_window_floor_writes 64 ⟨[], []⟩ [] 0 [⟨[0], 2, 3, 0⟩] 3 ⟨4, 2, 1⟩
    (by decide) (by decide) (by decide)
    ⟨⟨[((0, 0), ⟨[3, 2]⟩), ((0, 1), ⟨[65535, 65535]⟩)], [((0, 1), ⟨[0, 0]⟩)]⟩,
     [], [((0, ⟨[0], 2, 3, 0⟩), .notSlashable)], [((0, ⟨[0], 2, 3, 0⟩), .notSlashable)],
     [⟨0, 1, 3⟩, ⟨0, 0, 3⟩], []⟩ ?_ ?_
  · intro a ha
    rcases List.mem_singleton.1 ha with rfl
    decide
  · rfl

theorem db_get_put (db : ChunkDB) (key key' : Nat × Nat) (c : Chunk) :
    (db.put key c).get key' = if key = key' then some c else db.get key' := by
  induction db with
  | nil => simp [ChunkDB.put, ChunkDB.get]
  | cons hd tl ih =>
    obtain ⟨k0, c0⟩ := hd
    simp only [ChunkDB.put]
    by_cases h0 : k0 = key
    · subst h0
      rw [if_pos rfl]
      simp only [ChunkDB.get]
      by_cases h : k0 = key' <;> simp [h]
    · rw [if_neg h0]
      simp only [ChunkDB.get]
      by_cases h : k0 = key'
      · rw [if_pos h, if_neg (fun hc => h0 (h.trans hc.symm)), if_pos h]
      · rw [if_neg h, if_neg h, ih]

theorem cache_view_put (kind : TargetArrayKind) (db : ChunkDB) (cache : ChunkCache)
    (vci ci ci' : Nat) (c : Chunk) (config : Config) :
    cache_view kind db (cache.put ci c) vci ci' config =
      if ci = ci' then c else cache_view kind db cache vci ci' config := by
  unfold cache_view
  rw [cache_get_put]
  by_cases h : ci = ci' <;> simp [h]

theorem set_target_ok (chunk : Chunk) (v e t : Nat) (config : Config) (c' : Chunk)
    (h : chunk.set_target v e t config = .ok c') :
    ∃ d0, chunk.data.get? (config.cell_of v e) = some d0 ∧ e ≤ t ∧
      t - e < MAX_DISTANCE ∧
      c' = ⟨chunk.data.set (config.cell_of v e) (t - e)⟩ := by
  simp only [Chunk.set_target, Config.cell_of] at h ⊢
  cases hget : chunk.data.get? (config.cell_index (config.validator_offset v)
      (config.chunk_offset e)) with
  | none =>
    rw [hget] at h
    exact Except.noConfusion h
  | some d0 =>
    rw [hget, epoch_distance_eq] at h
    by_cases h1 : t < e
    · rw [if_pos h1] at h
      exact Except.noConfusion h
    · rw [if_neg h1] at h
      by_cases h2 : t - e < MAX_DISTANCE
      · rw [if_pos h2] at h
        exact ⟨d0, rfl, by omega, h2, (Except.ok.inj h).symm⟩
      · rw [if_neg h2] at h
        exact Except.noConfusion h

theorem get_target_ok (chunk : Chunk) (v e : Nat) (config : Config) (m : Nat)
    (h : chunk.get_target v e config = .ok m) :
    ∃ d0, chunk.data.get? (config.cell_of v e) = some d0 ∧ m = e + d0 := by
  simp only [Chunk.get_target, Config.cell_of] at h ⊢
  split_ifs at h with h1
  · cases hget : chunk.data.get? (config.cell_index (config.validator_offset v)
        (config.chunk_offset e)) with
    | none =>
      rw [hget] at h
      exact Except.noConfusion h
    | some d0 =>
      rw [hget] at h
      exact ⟨d0, rfl, (Except.ok.inj h).symm⟩

theorem min_update_loop_cells (config : Config) (ci v t me : Nat) :
    ∀ (fuel : Nat) (chunk : Chunk) (start : Nat) (c' : Chunk) (evs : List WriteEv)
      (kg : Bool),
      MinTargetChunk.update_loop config ci v t me fuel chunk start = .ok (c', evs, kg) →
      c'.data.length = chunk.data.length ∧
      ∀ i, c'.data.getD i 0 ≤ chunk.data.getD i 0 := by
  intro fuel
  induction fuel with
  | zero => intro chunk start c' evs kg h; cases h
  | succ n ih =>
    intro chunk start c' evs kg h
    rw [MinTargetChunk.update_loop] at h
    by_cases hci : config.chunk_index start = ci
    · rw [if_pos hci] at h
      cases hget : chunk.get_target v start config with
      | error e => rw [hget] at h; simp only [] at h; cases h
      | ok tgt =>
        rw [hget] at h
        simp only [] at h
        by_cases hlt : t < tgt
        · rw [if_pos hlt] at h
          cases hset : chunk.set_target v start t config with
          | error e => rw [hset] at h; simp only [] at h; cases h
          | ok chunk1 =>
            rw [hset] at h
            simp only [] at h
            obtain ⟨d0, hd0, hle, hmaxd, hc1⟩ := set_target_ok chunk v start t config
              chunk1 hset
            obtain ⟨d0', hd0', htgt⟩ := get_target_ok chunk v start config tgt hget
            have hdd : d0' = d0 := by
              rw [hd0] at hd0'
              exact (Option.some.inj hd0').symm
            have hidx : config.cell_of v start < chunk.data.length := by
              rcases List.get?_eq_some.1 hd0 with ⟨hh, -⟩
              exact hh
            have hstep : chunk1.data.length = chunk.data.length ∧
                ∀ i, chunk1.data.getD i 0 ≤ chunk.data.getD i 0 := by
              rw [hc1]
              refine ⟨List.length_set _ _ _, fun i => ?_⟩
              by_cases hi : i = config.cell_of v start
              · subst hi
                rw [List.getD_eq_get?, List.getD_eq_get?,
                  List.get?_set_eq_of_lt _ hidx, hd0]
                simp only [Option.getD_some]
                omega
              · rw [List.getD_eq_get?, List.getD_eq_get?,
                  List.get?_set_ne _ _ (fun hc => hi hc.symm)]
            by_cases hstop : start = me
            · rw [if_pos hstop] at h
              have hc' : chunk1 = c' := congrArg (fun p => p.1) (Except.ok.inj h)
              rw [← hc']
              exact hstep
            · rw [if_neg hstop] at h
              cases hrec : MinTargetChunk.update_loop config ci v t me n chunk1
                  (start - 1) with
              | error e => rw [hrec] at h; simp only [] at h; cases h
              | ok p =>
                rcases p with ⟨c2, evs2, kg2⟩
                rw [hrec] at h
                simp only [] at h
                have hc' : c2 = c' := congrArg (fun p => p.1) (Except.ok.inj h)
                obtain ⟨hl2, hle2⟩ := ih chunk1 (start - 1) c2 evs2 kg2 hrec
                rw [← hc']
                exact ⟨hl2.trans hstep.1, fun i => (hle2 i).trans (hstep.2 i)⟩
        · rw [if_neg hlt] at h
          have hc' : chunk = c' := congrArg (fun p => p.1) (Except.ok.inj h)
          rw [← hc']
          exact ⟨rfl, fun i => le_refl _⟩
    · rw [if_neg hci] at h
      by_cases hc0 : ci = 0
      · rw [if_pos hc0] at h
        cases h
      · rw [if_neg hc0] at h
        have hc' : chunk = c' := congrArg (fun p => p.1) (Except.ok.inj h)
        rw [← hc']
        exact ⟨rfl, fun i => le_refl _⟩

theorem max_update_loop_cells (config : Config) (ci v t ce : Nat) :
    ∀ (fuel : Nat) (chunk : Chunk) (start : Nat) (c' : Chunk) (evs : List WriteEv)
      (kg : Bool),
      MaxTargetChunk.update_loop config ci v t ce fuel chunk start = .ok (c', evs, kg) →
      c'.data.length = chunk.data.length ∧
      ∀ i, chunk.data.getD i 0 ≤ c'.data.getD i 0 := by
  intro fuel
  induction fuel with
  | zero => intro chunk start c' evs kg h; cases h
  | succ n ih =>
    intro chunk start c' evs kg h
    rw [MaxTargetChunk.update_loop] at h
    by_cases hci : config.chunk_index start = ci
    · rw [if_pos hci] at h
      cases hget : chunk.get_target v start config with
      | error e => rw [hget] at h; simp only [] at h; cases h
      | ok tgt =>
        rw [hget] at h
        simp only [] at h
        by_cases hlt : t > tgt
        · rw [if_pos hlt] at h
          cases hset : chunk.set_target v start t config with
          | error e => rw [hset] at h; simp only [] at h; cases h
          | ok chunk1 =>
            rw [hset] at h
            simp only [] at h
            obtain ⟨d0, hd0, hle, hmaxd, hc1⟩ := set_target_ok chunk v start t config
              chunk1 hset
            obtain ⟨d0', hd0', htgt⟩ := get_target_ok chunk v start config tgt hget
            have hdd : d0' = d0 := by
              rw [hd0] at hd0'
              exact (Option.some.inj hd0').symm
            have hidx : config.cell_of v start < chunk.data.length := by
              rcases List.get?_eq_some.1 hd0 with ⟨hh, -⟩
              exact hh
            have hstep : chunk1.data.length = chunk.data.length ∧
                ∀ i, chunk.data.getD i 0 ≤ chunk1.data.getD i 0 := by
              rw [hc1]
              refine ⟨List.length_set _ _ _, fun i => ?_⟩
              by_cases hi : i = config.cell_of v start
              · subst hi
                rw [List.getD_eq_get?, List.getD_eq_get?,
                  List.get?_set_eq_of_lt _ hidx, hd0]
                simp only [Option.getD_some]
                omega
              · rw [List.getD_eq_get?, List.getD_eq_get?,
                  List.get?_set_ne _ _ (fun hc => hi hc.symm)]
            by_cases hstop : start = ce
            · rw [if_pos hstop] at h
              have hc' : chunk1 = c' := congrArg (fun p => p.1) (Except.ok.inj h)
              rw [← hc']
              exact hstep
            · rw [if_neg hstop] at h
              cases hrec : MaxTargetChunk.update_loop config ci v t ce n chunk1
                  (start + 1) with
              | error e => rw [hrec] at h; simp only [] at h; cases h
              | ok p =>
                rcases p with ⟨c2, evs2, kg2⟩
                rw [hrec] at h
                simp only [] at h
                have hc' : c2 = c' := congrArg (fun p => p.1) (Except.ok.inj h)
                obtain ⟨hl2, hle2⟩ := ih chunk1 (start + 1) c2 evs2 kg2 hrec
                rw [← hc']
                exact ⟨hl2.trans hstep.1, fun i => (hstep.2 i).trans (hle2 i)⟩
        · rw [if_neg hlt] at h
          have hc' : chunk = c' := congrArg (fun p => p.1) (Except.ok.inj h)
          rw [← hc']
          exact ⟨rfl, fun i => le_refl _⟩
    · rw [if_neg hci] at h
      have hc' : chunk = c' := congrArg (fun p => p.1) (Except.ok.inj h)
      rw [← hc']
      exact ⟨rfl, fun i => le_refl _⟩

theorem min_update_loop_first (config : Config) (ci v t me : Nat) (fuel : Nat)
    (chunk : Chunk) (start : Nat) (c' : Chunk) (evs : List WriteEv) (kg : Bool)
    (h : MinTargetChunk.update_loop config ci v t me fuel chunk start = .ok (c', evs, kg))
    (hci : config.chunk_index start = ci) :
    start + c'.data.getD (config.cell_of v start) 0 ≤ t := by
  cases fuel with
  | zero => cases h
  | succ n =>
    rw [MinTargetChunk.update_loop, if_pos hci] at h
    cases hget : chunk.get_target v start config with
    | error e => rw [hget] at h; exact Except.noConfusion h
    | ok tgt =>
      rw [hget] at h
      simp only [] at h
      obtain ⟨d0, hd0, htgt⟩ := get_target_ok chunk v start config tgt hget
      by_cases hlt : t < tgt
      · rw [if_pos hlt] at h
        cases hset : chunk.set_target v start t config with
        | error e => rw [hset] at h; exact Except.noConfusion h
        | ok chunk1 =>
          rw [hset] at h
          simp only [] at h
          obtain ⟨d0', hd0', hle, hmaxd, hc1⟩ := set_target_ok chunk v start t config
            chunk1 hset
          have hidx : config.cell_of v start < chunk.data.length := by
            rcases List.get?_eq_some.1 hd0 with ⟨hh, -⟩
            exact hh
          have hc1cell : chunk1.data.getD (config.cell_of v start) 0 = t - start := by
            rw [hc1, List.getD_eq_get?, List.get?_set_eq_of_lt _ hidx]
            rfl
          by_cases hstop : start = me
          · rw [if_pos hstop] at h
            have hcc : chunk1 = c' := congrArg (fun p => p.1) (Except.ok.inj h)
            rw [← hcc, hc1cell]
            omega
          · rw [if_neg hstop] at h
            cases hrec : MinTargetChunk.update_loop config ci v t me n chunk1
                (start - 1) with
            | error e => rw [hrec] at h; exact Except.noConfusion h
            | ok p =>
              rcases p with ⟨c2, evs2, kg2⟩
              rw [hrec] at h
              simp only [] at h
              have hcc : c2 = c' := congrArg (fun p => p.1) (Except.ok.inj h)
              have hle2 := (min_update_loop_cells config ci v t me n chunk1
                (start - 1) c2 evs2 kg2 hrec).2 (config.cell_of v start)
              rw [← hcc]
              rw [hc1cell] at hle2
              omega
      · rw [if_neg hlt] at h
        have hcc : chunk = c' := congrArg (fun p => p.1) (Except.ok.inj h)
        rw [← hcc, List.getD_eq_get?, hd0]
        simp only [Option.getD_some]
        omega

theorem max_update_loop_first (config : Config) (ci v t ce : Nat) (fuel : Nat)
    (chunk : Chunk) (start : Nat) (c' : Chunk) (evs : List WriteEv) (kg : Bool)
    (h : MaxTargetChunk.update_loop config ci v t ce fuel chunk start = .ok (c', evs, kg))
    (hci : config.chunk_index start = ci) :
    t ≤ start + c'.data.getD (config.cell_of v start) 0 := by
  cases fuel with
  | zero => cases h
  | succ n =>
    rw [MaxTargetChunk.update_loop, if_pos hci] at h
    cases hget : chunk.get_target v start config with
    | error e => rw [hget] at h; exact Except.noConfusion h
    | ok tgt =>
      rw [hget] at h
      simp only [] at h
      obtain ⟨d0, hd0, htgt⟩ := get_target_ok chunk v start config tgt hget
      by_cases hlt : t > tgt
      · rw [if_pos hlt] at h
        cases hset : chunk.set_target v start t config with
        | error e => rw [hset] at h; exact Except.noConfusion h
        | ok chunk1 =>
          rw [hset] at h
          simp only [] at h
          obtain ⟨d0', hd0', hle, hmaxd, hc1⟩ := set_target_ok chunk v start t config
            chunk1 hset
          have hidx : config.cell_of v start < chunk.data.length := by
            rcases List.get?_eq_some.1 hd0 with ⟨hh, -⟩
            exact hh
          have hc1cell : chunk1.data.getD (config.cell_of v start) 0 = t - start := by
            rw [hc1, List.getD_eq_get?, List.get?_set_eq_of_lt _ hidx]
            rfl
          by_cases hstop : start = ce
          · rw [if_pos hstop] at h
            have hcc : chunk1 = c' := congrArg (fun p => p.1) (Except.ok.inj h)
            rw [← hcc, hc1cell]
            omega
          · rw [if_neg hstop] at h
            cases hrec : MaxTargetChunk.update_loop config ci v t ce n chunk1
                (start + 1) with
            | error e => rw [hrec] at h; exact Except.noConfusion h
            | ok p =>
              rcases p with ⟨c2, evs2, kg2⟩
              rw [hrec] at h
              simp only [] at h
              have hcc : c2 = c' := congrArg (fun p => p.1) (Except.ok.inj h)
              have hle2 := (max_update_loop_cells config ci v t ce n chunk1
                (start + 1) c2 evs2 kg2 hrec).2 (config.cell_of v start)
              rw [← hcc]
              rw [hc1cell] at hle2
              omega
      · rw [if_neg hlt] at h
        have hcc : chunk = c' := congrArg (fun p => p.1) (Except.ok.inj h)
        rw [← hcc, List.getD_eq_get?, hd0]
        simp only [Option.getD_some]
        omega

theorem apply_loop_min_view (db : ChunkDB) (vci v t ce : Nat) (config : Config)
    (wfuel : Nat) :
    ∀ (fuel : Nat) (cache : ChunkCache) (ci start : Nat) (cache' : ChunkCache)
      (evs : List WriteEv),
      apply_attestation_loop minKind db vci v t ce config wfuel fuel cache ci start =
        .ok (cache', evs) →
      ∀ ci' idx, view_cell minKind db cache' vci ci' idx config ≤
        view_cell minKind db cache vci ci' idx config := by
  intro fuel
  induction fuel with
  | zero => intro cache ci start cache' evs h; cases h
  | succ n ih =>
    intro cache ci start cache' evs h
    rw [apply_attestation_loop] at h
    rcases hg : get_chunk_for_update minKind db cache vci ci config with ⟨cacheA, chunkA⟩
    rw [hg] at h
    rw [show minKind.chunk_update = MinTargetChunk.update from rfl] at h
    simp only [MinTargetChunk.update] at h
    have hsnd := get_chunk_for_update_snd minKind db cache vci ci config
    rw [hg] at hsnd
    simp only [] at hsnd
    have hAview : ∀ ci' idx, view_cell minKind db cacheA vci ci' idx config =
        view_cell minKind db cache vci ci' idx config := by
      intro ci' idx
      unfold view_cell
      have := get_chunk_for_update_fst_view minKind db cache vci ci ci' config
      rw [hg] at this
      rw [this]
    cases hwalk : MinTargetChunk.update_loop config ci v t
        (ce - (config.history_length - 1)) wfuel chunkA start with
    | error e => rw [hwalk] at h; exact Except.noConfusion h
    | ok p =>
      rcases p with ⟨c1, evs1, kg⟩
      rw [hwalk] at h
      simp only [] at h
      have hcells := (min_update_loop_cells config ci v t _ wfuel chunkA
        start c1 evs1 kg hwalk).2
      have hput : ∀ ci' idx, view_cell minKind db (cacheA.put ci c1) vci ci' idx config ≤
          view_cell minKind db cache vci ci' idx config := by
        intro ci' idx
        unfold view_cell
        rw [cache_view_put]
        by_cases hcc : ci = ci'
        · rw [if_pos hcc, ← hcc]
          have := hAview ci idx
          unfold view_cell at this
          rw [← this]
          calc c1.data.getD idx 0 ≤ chunkA.data.getD idx 0 := hcells idx
            _ = (cache_view minKind db cacheA vci ci config).data.getD idx 0 := by
                have hv := get_chunk_for_update_fst_view minKind db cache vci ci ci config
                rw [hg] at hv
                rw [hsnd, hv]
        · rw [if_neg hcc]
          have := hAview ci' idx
          unfold view_cell at this
          rw [this]
      cases kg with
      | false =>
        have hcc : cacheA.put ci c1 = cache' := congrArg (fun p => p.1) (Except.ok.inj h)
        intro ci' idx
        rw [← hcc]
        exact hput ci' idx
      | true =>
        rw [show minKind.next_chunk_index_and_start_epoch =
          MinTargetChunk.next_chunk_index_and_start_epoch from rfl] at h
        simp only [MinTargetChunk.next_chunk_index_and_start_epoch] at h
        by_cases hc0 : ci = 0
        · rw [if_pos hc0] at h
          simp only [] at h
          exact Except.noConfusion h
        · rw [if_neg hc0] at h
          simp only [] at h
          cases hrec : apply_attestation_loop minKind db vci v t ce config wfuel n
              (cacheA.put ci c1) (ci - 1)
              (start / config.chunk_size * config.chunk_size - 1) with
          | error e => rw [hrec] at h; exact Except.noConfusion h
          | ok q =>
            rcases q with ⟨cache3, evs2⟩
            rw [hrec] at h
            simp only [] at h
            have hcc : cache3 = cache' := congrArg (fun p => p.1) (Except.ok.inj h)
            intro ci' idx
            rw [← hcc]
            exact le_trans (ih (cacheA.put ci c1) (ci - 1) _ cache3 evs2 hrec ci' idx)
              (hput ci' idx)

theorem apply_loop_max_view (db : ChunkDB) (vci v t ce : Nat) (config : Config)
    (wfuel : Nat) :
    ∀ (fuel : Nat) (cache : ChunkCache) (ci start : Nat) (cache' : ChunkCache)
      (evs : List WriteEv),
      apply_attestation_loop maxKind db vci v t ce config wfuel fuel cache ci start =
        .ok (cache', evs) →
      ∀ ci' idx, view_cell maxKind db cache vci ci' idx config ≤
        view_cell maxKind db cache' vci ci' idx config := by
  intro fuel
  induction fuel with
  | zero => intro cache ci start cache' evs h; cases h
  | succ n ih =>
    intro cache ci start cache' evs h
    rw [apply_attestation_loop] at h
    rcases hg : get_chunk_for_update maxKind db cache vci ci config with ⟨cacheA, chunkA⟩
    rw [hg] at h
    rw [show maxKind.chunk_update = MaxTargetChunk.update from rfl] at h
    simp only [MaxTargetChunk.update] at h
    have hsnd := get_chunk_for_update_snd maxKind db cache vci ci config
    rw [hg] at hsnd
    simp only [] at hsnd
    have hAview : ∀ ci' idx, view_cell maxKind db cacheA vci ci' idx config =
        view_cell maxKind db cache vci ci' idx config := by
      intro ci' idx
      unfold view_cell
      have := get_chunk_for_update_fst_view maxKind db cache vci ci ci' config
      rw [hg] at this
      rw [this]
    cases hwalk : MaxTargetChunk.update_loop config ci v t ce wfuel chunkA start with
    | error e => rw [hwalk] at h; exact Except.noConfusion h
    | ok p =>
      rcases p with ⟨c1, evs1, kg⟩
      rw [hwalk] at h
      simp only [] at h
      have hcells := (max_update_loop_cells config ci v t ce wfuel chunkA
        start c1 evs1 kg hwalk).2
      have hput : ∀ ci' idx, view_cell maxKind db cache vci ci' idx config ≤
          view_cell maxKind db (cacheA.put ci c1) vci ci' idx config := by
        intro ci' idx
        unfold view_cell
        rw [cache_view_put]
        by_cases hcc : ci = ci'
        · rw [if_pos hcc, ← hcc]
          have := hAview ci idx
          unfold view_cell at this
          rw [← this]
          calc (cache_view maxKind db cacheA vci ci config).data.getD idx 0
              = chunkA.data.getD idx 0 := by
                have hv := get_chunk_for_update_fst_view maxKind db cache vci ci ci config
                rw [hg] at hv
                rw [hsnd, hv]
            _ ≤ c1.data.getD idx 0 := hcells idx
        · rw [if_neg hcc]
          have := hAview ci' idx
          unfold view_cell at this
          rw [this]
      cases kg with
      | false =>
        have hcc : cacheA.put ci c1 = cache' := congrArg (fun p => p.1) (Except.ok.inj h)
        intro ci' idx
        rw [← hcc]
        exact hput ci' idx
      | true =>
        rw [show maxKind.next_chunk_index_and_start_epoch =
          MaxTargetChunk.next_chunk_index_and_start_epoch from rfl] at h
        simp only [MaxTargetChunk.next_chunk_index_and_start_epoch] at h
        cases hrec : apply_attestation_loop maxKind db vci v t ce config wfuel n
            (cacheA.put ci c1) (ci + 1)
            ((start / config.chunk_size + 1) * config.chunk_size) with
        | error e => rw [hrec] at h; exact Except.noConfusion h
        | ok q =>
          rcases q with ⟨cache3, evs2⟩
          rw [hrec] at h
          simp only [] at h
          have hcc : cache3 = cache' := congrArg (fun p => p.1) (Except.ok.inj h)
          intro ci' idx
          rw [← hcc]
          exact le_trans (hput ci' idx)
            (ih (cacheA.put ci c1) (ci + 1) _ cache3 evs2 hrec ci' idx)

theorem apply_loop_min_first (db : ChunkDB) (vci v t ce : Nat) (config : Config)
    (wfuel fuel : Nat) (cache : ChunkCache) (start : Nat) (cache' : ChunkCache)
    (evs : List WriteEv)
    (h : apply_attestation_loop minKind db vci v t ce config wfuel fuel cache
      (config.chunk_index start) start = .ok (cache', evs)) :
    start + view_cell minKind db cache' vci (config.chunk_index start)
      (config.cell_of v start) config ≤ t := by
  cases fuel with
  | zero => cases h
  | succ n =>
    rw [apply_attestation_loop] at h
    rcases hg : get_chunk_for_update minKind db cache vci
        (config.chunk_index start) config with ⟨cacheA, chunkA⟩
    rw [hg] at h
    rw [show minKind.chunk_update = MinTargetChunk.update from rfl] at h
    simp only [MinTargetChunk.update] at h
    cases hwalk : MinTargetChunk.update_loop config (config.chunk_index start) v t
        (ce - (config.history_length - 1)) wfuel chunkA start with
    | error e => rw [hwalk] at h; exact Except.noConfusion h
    | ok p =>
      rcases p with ⟨c1, evs1, kg⟩
      rw [hwalk] at h
      simp only [] at h
      have hfirst := min_update_loop_first config (config.chunk_index start) v t _
        wfuel chunkA start c1 evs1 kg hwalk rfl
      have hputcell : view_cell minKind db (cacheA.put (config.chunk_index start) c1)
          vci (config.chunk_index start) (config.cell_of v start) config =
          c1.data.getD (config.cell_of v start) 0 := by
        unfold view_cell
        rw [cache_view_put, if_pos rfl]
      cases kg with
      | false =>
        have hcc : cacheA.put (config.chunk_index start) c1 = cache' :=
          congrArg (fun p => p.1) (Except.ok.inj h)
        rw [← hcc, hputcell]
        exact hfirst
      | true =>
        rw [show minKind.next_chunk_index_and_start_epoch =
          MinTargetChunk.next_chunk_index_and_start_epoch from rfl] at h
        simp only [MinTargetChunk.next_chunk_index_and_start_epoch] at h
        by_cases hc0 : config.chunk_index start = 0
        · rw [if_pos hc0] at h
          simp only [] at h
          exact Except.noConfusion h
        · rw [if_neg hc0] at h
          simp only [] at h
          cases hrec : apply_attestation_loop minKind db vci v t ce config wfuel n
              (cacheA.put (config.chunk_index start) c1) (config.chunk_index start - 1)
              (start / config.chunk_size * config.chunk_size - 1) with
          | error e => rw [hrec] at h; exact Except.noConfusion h
          | ok q =>
            rcases q with ⟨cache3, evs2⟩
            rw [hrec] at h
            simp only [] at h
            have hcc : cache3 = cache' := congrArg (fun p => p.1) (Except.ok.inj h)
            have hmono := apply_loop_min_view db vci v t ce config wfuel n
              (cacheA.put (config.chunk_index start) c1) (config.chunk_index start - 1)
              _ cache3 evs2 hrec (config.chunk_index start) (config.cell_of v start)
            rw [hputcell] at hmono
            rw [← hcc]
            omega

theorem apply_loop_max_first (db : ChunkDB) (vci v t ce : Nat) (config : Config)
    (wfuel fuel : Nat) (cache : ChunkCache) (start : Nat) (cache' : ChunkCache)
    (evs : List WriteEv)
    (h : apply_attestation_loop maxKind db vci v t ce config wfuel fuel cache
      (config.chunk_index start) start = .ok (cache', evs)) :
    t ≤ start + view_cell maxKind db cache' vci (config.chunk_index start)
      (config.cell_of v start) config := by
  cases fuel with
  | zero => cases h
  | succ n =>
    rw [apply_attestation_loop] at h
    rcases hg : get_chunk_for_update maxKind db cache vci
        (config.chunk_index start) config with ⟨cacheA, chunkA⟩
    rw [hg] at h
    rw [show maxKind.chunk_update = MaxTargetChunk.update from rfl] at h
    simp only [MaxTargetChunk.update] at h
    cases hwalk : MaxTargetChunk.update_loop config (config.chunk_index start) v t
        ce wfuel chunkA start with
    | error e => rw [hwalk] at h; exact Except.noConfusion h
    | ok p =>
      rcases p with ⟨c1, evs1, kg⟩
      rw [hwalk] at h
      simp only [] at h
      have hfirst := max_update_loop_first config (config.chunk_index start) v t ce
        wfuel chunkA start c1 evs1 kg hwalk rfl
      have hputcell : view_cell maxKind db (cacheA.put (config.chunk_index start) c1)
          vci (config.chunk_index start) (config.cell_of v start) config =
          c1.data.getD (config.cell_of v start) 0 := by
        unfold view_cell
        rw [cache_view_put, if_pos rfl]
      cases kg with
      | false =>
        have hcc : cacheA.put (config.chunk_index start) c1 = cache' :=
          congrArg (fun p => p.1) (Except.ok.inj h)
        rw [← hcc, hputcell]
        exact hfirst
      | true =>
        rw [show maxKind.next_chunk_index_and_start_epoch =
          MaxTargetChunk.next_chunk_index_and_start_epoch from rfl] at h
        simp only [MaxTargetChunk.next_chunk_index_and_start_epoch] at h
        cases hrec : apply_attestation_loop maxKind db vci v t ce config wfuel n
            (cacheA.put (config.chunk_index start) c1) (config.chunk_index start + 1)
            ((start / config.chunk_size + 1) * config.chunk_size) with
        | error e => rw [hrec] at h; exact Except.noConfusion h
        | ok q =>
          rcases q with ⟨cache3, evs2⟩
          rw [hrec] at h
          simp only [] at h
          have hcc : cache3 = cache' := congrArg (fun p => p.1) (Except.ok.inj h)
          have hmono := apply_loop_max_view db vci v t ce config wfuel n
            (cacheA.put (config.chunk_index start) c1) (config.chunk_index start + 1)
            _ cache3 evs2 hrec (config.chunk_index start) (config.cell_of v start)
          rw [hputcell] at hmono
          rw [← hcc]
          omega

theorem apply_min_first (fuel : Nat) (db : ChunkDB) (recs : AttesterRecords)
    (cache : ChunkCache) (vci v : Nat) (a : IndexedAttestation) (ce : Nat)
    (config : Config) (cache' : ChunkCache) (st : SlashingStatus) (evs : List WriteEv)
    (h : apply_attestation_for_validator minKind fuel db recs cache vci v a ce config =
      .ok (cache', st, evs))
    (hst : st = .notSlashable) (hpos : 0 < a.source) :
    (a.source - 1) + view_cell minKind db cache' vci
      (config.chunk_index (a.source - 1)) (config.cell_of v (a.source - 1)) config ≤
      a.target := by
  simp only [apply_attestation_for_validator] at h
  rcases hg : get_chunk_for_update minKind db cache vci
      (config.chunk_index a.source) config with ⟨cacheA, chunkA⟩
  rw [hg] at h
  split at h
  · exact Except.noConfusion h
  · rename_i st0 heq
    split at h
    · rename_i hs0
      rw [show minKind.first_start_epoch = MinTargetChunk.first_start_epoch from rfl] at h
      simp only [MinTargetChunk.first_start_epoch] at h
      rw [if_pos hpos] at h
      simp only [] at h
      cases hloop : apply_attestation_loop minKind db vci v a.target ce config fuel
          fuel cacheA (config.chunk_index (a.source - 1)) (a.source - 1) with
      | error e => rw [hloop] at h; exact Except.noConfusion h
      | ok p =>
        rcases p with ⟨cache2, evs2⟩
        rw [hloop] at h
        simp only [] at h
        have hcc : cache2 = cache' := congrArg (fun t => t.1) (Except.ok.inj h)
        rw [← hcc]
        exact apply_loop_min_first db vci v a.target ce config fuel fuel cacheA
          (a.source - 1) cache2 evs2 hloop
    · rename_i hs0
      have hstv : st0 = st := congrArg (fun t => t.2.1) (Except.ok.inj h)
      exact absurd (hstv.trans hst) hs0

theorem apply_max_first (fuel : Nat) (db : ChunkDB) (recs : AttesterRecords)
    (cache : ChunkCache) (vci v : Nat) (a : IndexedAttestation) (ce : Nat)
    (config : Config) (cache' : ChunkCache) (st : SlashingStatus) (evs : List WriteEv)
    (h : apply_attestation_for_validator maxKind fuel db recs cache vci v a ce config =
      .ok (cache', st, evs))
    (hst : st = .notSlashable) (hlt : a.source < ce) :
    a.target ≤ (a.source + 1) + view_cell maxKind db cache' vci
      (config.chunk_index (a.source + 1)) (config.cell_of v (a.source + 1)) config := by
  simp only [apply_attestation_for_validator] at h
  rcases hg : get_chunk_for_update maxKind db cache vci
      (config.chunk_index a.source) config with ⟨cacheA, chunkA⟩
  rw [hg] at h
  split at h
  · exact Except.noConfusion h
  · rename_i st0 heq
    split at h
    · rename_i hs0
      rw [show maxKind.first_start_epoch = MaxTargetChunk.first_start_epoch from rfl] at h
      simp only [MaxTargetChunk.first_start_epoch] at h
      rw [if_pos hlt] at h
      simp only [] at h
      cases hloop : apply_attestation_loop maxKind db vci v a.target ce config fuel
          fuel cacheA (config.chunk_index (a.source + 1)) (a.source + 1) with
      | error e => rw [hloop] at h; exact Except.noConfusion h
      | ok p =>
        rcases p with ⟨cache2, evs2⟩
        rw [hloop] at h
        simp only [] at h
        have hcc : cache2 = cache' := congrArg (fun t => t.1) (Except.ok.inj h)
        rw [← hcc]
        exact apply_loop_max_first db vci v a.target ce config fuel fuel cacheA
          (a.source + 1) cache2 evs2 hloop
    · rename_i hs0
      have hstv : st0 = st := congrArg (fun t => t.2.1) (Except.ok.inj h)
      exact absurd (hstv.trans hst) hs0

theorem apply_min_view (fuel : Nat) (db : ChunkDB) (recs : AttesterRecords)
    (cache : ChunkCache) (vci v : Nat) (a : IndexedAttestation) (ce : Nat)
    (config : Config) (cache' : ChunkCache) (st : SlashingStatus) (evs : List WriteEv)
    (h : apply_attestation_for_validator minKind fuel db recs cache vci v a ce config =
      .ok (cache', st, evs)) :
    ∀ ci idx, view_cell minKind db cache' vci ci idx config ≤
      view_cell minKind db cache vci ci idx config := by
  simp only [apply_attestation_for_validator] at h
  rcases hg : get_chunk_for_update minKind db cache vci
      (config.chunk_index a.source) config with ⟨cacheA, chunkA⟩
  rw [hg] at h
  have hAview : ∀ ci idx, view_cell minKind db cacheA vci ci idx config =
      view_cell minKind db cache vci ci idx config := by
    intro ci idx
    unfold view_cell
    have := get_chunk_for_update_fst_view minKind db cache vci
      (config.chunk_index a.source) ci config
    rw [hg] at this
    rw [this]
  split at h
  · exact Except.noConfusion h
  · rename_i st0 heq
    split at h
    · rename_i hs0
      split at h
      · have hcc : cacheA = cache' := congrArg (fun t => t.1) (Except.ok.inj h)
        intro ci idx
        rw [← hcc]
        exact le_of_eq (hAview ci idx)
      · rename_i start0 hfse
        cases hloop : apply_attestation_loop minKind db vci v a.target ce config fuel
            fuel cacheA (config.chunk_index start0) start0 with
        | error e => rw [hloop] at h; exact Except.noConfusion h
        | ok p =>
          rcases p with ⟨cache2, evs2⟩
          rw [hloop] at h
          simp only [] at h
          have hcc : cache2 = cache' := congrArg (fun t => t.1) (Except.ok.inj h)
          intro ci idx
          rw [← hcc]
          exact le_trans (apply_loop_min_view db vci v a.target ce config fuel fuel
            cacheA (config.chunk_index start0) start0 cache2 evs2 hloop ci idx)
            (le_of_eq (hAview ci idx))
    · have hcc : cacheA = cache' := congrArg (fun t => t.1) (Except.ok.inj h)
      intro ci idx
      rw [← hcc]
      exact le_of_eq (hAview ci idx)

theorem apply_max_view (fuel : Nat) (db : ChunkDB) (recs : AttesterRecords)
    (cache : ChunkCache) (vci v : Nat) (a : IndexedAttestation) (ce : Nat)
    (config : Config) (cache' : ChunkCache) (st : SlashingStatus) (evs : List WriteEv)
    (h : apply_attestation_for_validator maxKind fuel db recs cache vci v a ce config =
      .ok (cache', st, evs)) :
    ∀ ci idx, view_cell maxKind db cache vci ci idx config ≤
      view_cell maxKind db cache' vci ci idx config := by
  simp only [apply_attestation_for_validator] at h
  rcases hg : get_chunk_for_update maxKind db cache vci
      (config.chunk_index a.source) config with ⟨cacheA, chunkA⟩
  rw [hg] at h
  have hAview : ∀ ci idx, view_cell maxKind db cacheA vci ci idx config =
      view_cell maxKind db cache vci ci idx config := by
    intro ci idx
    unfold view_cell
    have := get_chunk_for_update_fst_view maxKind db cache vci
      (config.chunk_index a.source) ci config
    rw [hg] at this
    rw [this]
  split at h
  · exact Except.noConfusion h
  · rename_i st0 heq
    split at h
    · rename_i hs0
      split at h
      · have hcc : cacheA = cache' := congrArg (fun t => t.1) (Except.ok.inj h)
        intro ci idx
        rw [← hcc]
        exact le_of_eq (hAview ci idx).symm
      · rename_i start0 hfse
        cases hloop : apply_attestation_loop maxKind db vci v a.target ce config fuel
            fuel cacheA (config.chunk_index start0) start0 with
        | error e => rw [hloop] at h; exact Except.noConfusion h
        | ok p =>
          rcases p with ⟨cache2, evs2⟩
          rw [hloop] at h
          simp only [] at h
          have hcc : cache2 = cache' := congrArg (fun t => t.1) (Except.ok.inj h)
          intro ci idx
          rw [← hcc]
          exact le_trans (le_of_eq (hAview ci idx).symm)
            (apply_loop_max_view db vci v a.target ce config fuel fuel
              cacheA (config.chunk_index start0) start0 cache2 evs2 hloop ci idx)
    · have hcc : cacheA = cache' := congrArg (fun t => t.1) (Except.ok.inj h)
      intro ci idx
      rw [← hcc]
      exact le_of_eq (hAview ci idx).symm

theorem ChunkCache.mem_put (cache : ChunkCache) (k : Nat) (c : Chunk) :
    ∀ p ∈ cache.put k c, p = (k, c) ∨ p ∈ cache := by
  induction cache with
  | nil =>
    intro p hp
    rw [ChunkCache.put] at hp
    exact Or.inl (List.mem_singleton.1 hp)
  | cons hd tl ih =>
    intro p hp
    obtain ⟨k0, c0⟩ := hd
    rw [ChunkCache.put] at hp
    by_cases h1 : k < k0
    · rw [if_pos h1] at hp
      rcases List.mem_cons.1 hp with rfl | hmem
      · exact Or.inl rfl
      · exact Or.inr hmem
    · rw [if_neg h1] at hp
      by_cases h2 : k = k0
      · rw [if_pos h2] at hp
        rcases List.mem_cons.1 hp with rfl | hmem
        · exact Or.inl rfl
        · exact Or.inr (List.mem_cons_of_mem _ hmem)
      · rw [if_neg h2] at hp
        rcases List.mem_cons.1 hp with rfl | hmem
        · exact Or.inr (List.mem_cons_self _ _)
        · rcases ih p hmem with h | h
          · exact Or.inl h
          · exact Or.inr (List.mem_cons_of_mem _ h)

theorem put_pairwise (cache : ChunkCache) (k : Nat) (c : Chunk)
    (h : List.Pairwise (fun p q => p.1 < q.1) cache) :
    List.Pairwise (fun p q => p.1 < q.1) (cache.put k c) := by
  induction cache with
  | nil =>
    rw [ChunkCache.put]
    exact List.pairwise_singleton _ _
  | cons hd tl ih =>
    obtain ⟨k0, c0⟩ := hd
    obtain ⟨h0, h1⟩ := List.pairwise_cons.1 h
    rw [ChunkCache.put]
    by_cases hlt : k < k0
    · rw [if_pos hlt]
      refine List.pairwise_cons.2 ⟨fun p hp => ?_, h⟩
      rcases List.mem_cons.1 hp with rfl | hmem
      · exact hlt
      · exact Nat.lt_trans hlt (h0 p hmem)
    · rw [if_neg hlt]
      by_cases heq : k = k0
      · rw [if_pos heq]
        refine List.pairwise_cons.2 ⟨fun p hp => ?_, h1⟩
        have := h0 p hp
        show k < p.1
        omega
      · rw [if_neg heq]
        refine List.pairwise_cons.2 ⟨fun p hp => ?_, ih h1⟩
        rcases ChunkCache.mem_put tl k c p hp with rfl | hmem
        · show k0 < k
          omega
        · exact h0 p hmem

theorem get_chunk_pairwise (kind : TargetArrayKind) (db : ChunkDB) (cache : ChunkCache)
    (vci ci : Nat) (config : Config)
    (h : List.Pairwise (fun p q => p.1 < q.1) cache) :
    List.Pairwise (fun p q => p.1 < q.1)
      (get_chunk_for_update kind db cache vci ci config).1 := by
  unfold get_chunk_for_update
  cases hc : cache.get ci
  · show List.Pairwise _ (cache.put ci _)
    exact put_pairwise _ _ _ h
  · exact h

theorem apply_loop_pairwise (kind : TargetArrayKind) (db : ChunkDB)
    (vci v t ce : Nat) (config : Config) (wfuel : Nat) :
    ∀ (fuel : Nat) (cache : ChunkCache) (ci start : Nat) (cache' : ChunkCache)
      (evs : List WriteEv),
      apply_attestation_loop kind db vci v t ce config wfuel fuel cache ci start =
        .ok (cache', evs) →
      List.Pairwise (fun p q => p.1 < q.1) cache →
      List.Pairwise (fun p q => p.1 < q.1) cache' := by
  intro fuel
  induction fuel with
  | zero => intro cache ci start cache' evs h; cases h
  | succ n ih =>
    intro cache ci start cache' evs h hs
    rw [apply_attestation_loop] at h
    rcases hg : get_chunk_for_update kind db cache vci ci config with ⟨cacheA, chunkA⟩
    rw [hg] at h
    simp only [] at h
    have hsA : List.Pairwise (fun p q => p.1 < q.1) cacheA := by
      have := get_chunk_pairwise kind db cache vci ci config hs
      rw [hg] at this
      exact this
    cases hu : kind.chunk_update wfuel chunkA ci v start t ce config with
    | error e => rw [hu] at h; exact Except.noConfusion h
    | ok p =>
      rcases p with ⟨chunk1, evs1, kg⟩
      rw [hu] at h
      simp only [] at h
      have hs2 : List.Pairwise (fun p q => p.1 < q.1) (cacheA.put ci chunk1) :=
        put_pairwise cacheA ci chunk1 hsA
      cases kg with
      | false =>
        have hcc : cacheA.put ci chunk1 = cache' :=
          congrArg (fun p => p.1) (Except.ok.inj h)
        rw [← hcc]
        exact hs2
      | true =>
        cases hnx : kind.next_chunk_index_and_start_epoch ci start config with
        | error e => rw [hnx] at h; exact Except.noConfusion h
        | ok q =>
          rcases q with ⟨nci, nse⟩
          rw [hnx] at h
          simp only [] at h
          cases hrec : apply_attestation_loop kind db vci v t ce config wfuel n
              (cacheA.put ci chunk1) nci nse with
          | error e => rw [hrec] at h; exact Except.noConfusion h
          | ok r =>
            rcases r with ⟨cache3, evs2⟩
            rw [hrec] at h
            simp only [] at h
            have hcc : cache3 = cache' := congrArg (fun p => p.1) (Except.ok.inj h)
            rw [← hcc]
            exact ih (cacheA.put ci chunk1) nci nse cache3 evs2 hrec hs2

theorem apply_pairwise (kind : TargetArrayKind) (fuel : Nat) (db : ChunkDB)
    (recs : AttesterRecords) (cache : ChunkCache) (vci v : Nat)
    (a : IndexedAttestation) (ce : Nat) (config : Config) (cache' : ChunkCache)
    (st : SlashingStatus) (evs : List WriteEv)
    (h : apply_attestation_for_validator kind fuel db recs cache vci v a ce config =
      .ok (cache', st, evs))
    (hs : List.Pairwise (fun p q => p.1 < q.1) cache) :
    List.Pairwise (fun p q => p.1 < q.1) cache' := by
  simp only [apply_attestation_for_validator] at h
  rcases hg : get_chunk_for_update kind db cache vci
      (config.chunk_index a.source) config with ⟨cacheA, chunkA⟩
  rw [hg] at h
  have hsA : List.Pairwise (fun p q => p.1 < q.1) cacheA := by
    have := get_chunk_pairwise kind db cache vci (config.chunk_index a.source) config hs
    rw [hg] at this
    exact this
  split at h
  · exact Except.noConfusion h
  · rename_i st0 heq
    split at h
    · rename_i hs0
      split at h
      · have hcc : cacheA = cache' := congrArg (fun t => t.1) (Except.ok.inj h)
        rw [← hcc]; exact hsA
      · rename_i start0 hfse
        cases hloop : apply_attestation_loop kind db vci v a.target ce config fuel
            fuel cacheA (config.chunk_index start0) start0 with
        | error e => rw [hloop] at h; exact Except.noConfusion h
        | ok p =>
          rcases p with ⟨cache2, evs2⟩
          rw [hloop] at h
          simp only [] at h
          have hcc : cache2 = cache' := congrArg (fun t => t.1) (Except.ok.inj h)
          rw [← hcc]
          exact apply_loop_pairwise kind db vci v a.target ce config fuel fuel cacheA
            (config.chunk_index start0) start0 cache2 evs2 hloop hsA
    · have hcc : cacheA = cache' := congrArg (fun t => t.1) (Except.ok.inj h)
      rw [← hcc]; exact hsA

theorem cache_get_none_of_lt (key : Nat) :
    ∀ (cache : ChunkCache), (∀ p ∈ cache, key < p.1) → cache.get key = none := by
  intro cache
  induction cache with
  | nil => intro _; rfl
  | cons hd tl ih =>
    intro hall
    obtain ⟨k0, c0⟩ := hd
    rw [ChunkCache.get]
    have hk0 : key < k0 := hall (k0, c0) (List.mem_cons_self _ _)
    rw [if_neg (by omega)]
    exact ih (fun p hp => hall p (List.mem_cons_of_mem _ hp))

theorem flush_get (vci : Nat) :
    ∀ (cache : ChunkCache) (db : ChunkDB) (ci : Nat),
      List.Pairwise (fun p q => p.1 < q.1) cache →
      (flush_chunks vci db cache).get (vci, ci) =
        match cache.get ci with
        | some c => some c
        | none => db.get (vci, ci) := by
  intro cache
  induction cache with
  | nil => intro db ci _; rfl
  | cons hd tl ih =>
    intro db ci hs
    obtain ⟨k0, c0⟩ := hd
    obtain ⟨h0, h1⟩ := List.pairwise_cons.1 hs
    rw [flush_chunks, ih (db.put (vci, k0) c0) ci h1, ChunkCache.get]
    by_cases hk : k0 = ci
    · subst hk
      rw [if_pos rfl]
      have htl : ChunkCache.get tl k0 = none :=
        cache_get_none_of_lt k0 tl (fun p hp => h0 p hp)
      rw [htl]
      show (ChunkDB.put db (vci, k0) c0).get (vci, k0) = some c0
      rw [db_get_put, if_pos rfl]
    · rw [if_neg hk]
      cases htl : ChunkCache.get tl ci with
      | some c => rfl
      | none =>
        show (db.put (vci, k0) c0).get (vci, ci) = db.get (vci, ci)
        rw [db_get_put, if_neg (by simp [hk])]

theorem update_array_validators_pres (kind : TargetArrayKind) (fuel : Nat)
    (db : ChunkDB) (recs : AttesterRecords) (vci : Nat) (a : IndexedAttestation)
    (ce : Nat) (config : Config) (P : ChunkCache → Prop)
    (hpres : ∀ cache v cache' st evs,
      apply_attestation_for_validator kind fuel db recs cache vci v a ce config =
        .ok (cache', st, evs) → P cache → P cache') :
    ∀ (vs : List Nat) (cache : ChunkCache) cache' sls sts evs,
      update_array_validators kind fuel db recs vci a ce config vs cache =
        .ok (cache', sls, sts, evs) →
      P cache → P cache' := by
  intro vs
  induction vs with
  | nil =>
    intro cache cache' sls sts evs h hp
    have hcc : cache = cache' := congrArg (fun t => t.1) (Except.ok.inj h)
    rw [← hcc]; exact hp
  | cons v rest ih =>
    intro cache cache' sls sts evs h hp
    rw [update_array_validators] at h
    cases happ : apply_attestation_for_validator kind fuel db recs cache vci v a
        ce config with
    | error e => rw [happ] at h; simp only [] at h; cases h
    | ok p =>
      rcases p with ⟨cache1, st1, evs1⟩
      rw [happ] at h
      simp only [] at h
      cases hrec : update_array_validators kind fuel db recs vci a ce config
          rest cache1 with
      | error e => rw [hrec] at h; simp only [] at h; cases h
      | ok q =>
        rcases q with ⟨cache2, sls2, sts2, evs2⟩
        rw [hrec] at h
        simp only [] at h
        have hcc : cache2 = cache' := congrArg (fun t => t.1) (Except.ok.inj h)
        rw [← hcc]
        exact ih cache1 cache2 sls2 sts2 evs2 hrec
          (hpres cache v cache1 st1 evs1 happ hp)

theorem update_array_atts_pres (kind : TargetArrayKind) (fuel : Nat)
    (db : ChunkDB) (recs : AttesterRecords) (vci ce : Nat) (config : Config)
    (P : ChunkCache → Prop)
    (hpres : ∀ cache v a cache' st evs,
      apply_attestation_for_validator kind fuel db recs cache vci v a ce config =
        .ok (cache', st, evs) → P cache → P cache') :
    ∀ (atts : List IndexedAttestation) (cache : ChunkCache) cache' sls sts evs,
      update_array_atts kind fuel db recs vci ce config atts cache =
        .ok (cache', sls, sts, evs) →
      P cache → P cache' := by
  intro atts
  induction atts with
  | nil =>
    intro cache cache' sls sts evs h hp
    have hcc : cache = cache' := congrArg (fun t => t.1) (Except.ok.inj h)
    rw [← hcc]; exact hp
  | cons a rest ih =>
    intro cache cache' sls sts evs h hp
    rw [update_array_atts] at h
    cases hv : update_array_validators kind fuel db recs vci a ce config
        (attesting_validators_for_chunk config a vci) cache with
    | error e => rw [hv] at h; simp only [] at h; cases h
    | ok p =>
      rcases p with ⟨cache1, sls1, sts1, evs1⟩
      rw [hv] at h
      simp only [] at h
      cases hrec : update_array_atts kind fuel db recs vci ce config rest cache1 with
      | error e => rw [hrec] at h; simp only [] at h; cases h
      | ok q =>
        rcases q with ⟨cache2, sls2, sts2, evs2⟩
        rw [hrec] at h
        simp only [] at h
        have hcc : cache2 = cache' := congrArg (fun t => t.1) (Except.ok.inj h)
        rw [← hcc]
        refine ih cache1 cache2 sls2 sts2 evs2 hrec ?_
        exact update_array_validators_pres kind fuel db recs vci a ce config P
          (fun cache v cache' st evs happ => hpres cache v a cache' st evs happ)
          _ cache cache1 sls1 sts1 evs1 hv hp

theorem update_array_groups_pres (kind : TargetArrayKind) (fuel : Nat)
    (db : ChunkDB) (recs : AttesterRecords) (vci ce : Nat) (config : Config)
    (P : ChunkCache → Prop)
    (hpres : ∀ cache v a cache' st evs,
      apply_attestation_for_validator kind fuel db recs cache vci v a ce config =
        .ok (cache', st, evs) → P cache → P cache') :
    ∀ (groups : List (Nat × List IndexedAttestation)) (cache : ChunkCache)
      cache' sls sts evs,
      update_array_groups kind fuel db recs vci ce config groups cache =
        .ok (cache', sls, sts, evs) →
      P cache → P cache' := by
  intro groups
  induction groups with
  | nil =>
    intro cache cache' sls sts evs h hp
    have hcc : cache = cache' := congrArg (fun t => t.1) (Except.ok.inj h)
    rw [← hcc]; exact hp
  | cons g rest ih =>
    intro cache cache' sls sts evs h hp
    rcases g with ⟨gk, atts⟩
    rw [update_array_groups] at h
    cases ha : update_array_atts kind fuel db recs vci ce config atts cache with
    | error e => rw [ha] at h; simp only [] at h; cases h
    | ok p =>
      rcases p with ⟨cache1, sls1, sts1, evs1⟩
      rw [ha] at h
      simp only [] at h
      cases hrec : update_array_groups kind fuel db recs vci ce config rest cache1 with
      | error e => rw [hrec] at h; simp only [] at h; cases h
      | ok q =>
        rcases q with ⟨cache2, sls2, sts2, evs2⟩
        rw [hrec] at h
        simp only [] at h
        have hcc : cache2 = cache' := congrArg (fun t => t.1) (Except.ok.inj h)
        rw [← hcc]
        refine ih cache1 cache2 sls2 sts2 evs2 hrec ?_
        exact update_array_atts_pres kind fuel db recs vci ce config P hpres
          atts cache cache1 sls1 sts1 evs1 ha hp

theorem update_array_validators_estab (kind : TargetArrayKind) (fuel : Nat)
    (db : ChunkDB) (recs : AttesterRecords) (vci : Nat) (a : IndexedAttestation)
    (ce : Nat) (config : Config) (v0 : Nat) (a0 : IndexedAttestation)
    (P : ChunkCache → Prop)
    (hest : ∀ cache cache' evs,
      apply_attestation_for_validator kind fuel db recs cache vci v0 a0 ce config =
        .ok (cache', .notSlashable, evs) → P cache')
    (hpres : ∀ cache v cache' st evs,
      apply_attestation_for_validator kind fuel db recs cache vci v a ce config =
        .ok (cache', st, evs) → P cache → P cache') :
    ∀ (vs : List Nat) (cache : ChunkCache) cache' sls sts evs,
      update_array_validators kind fuel db recs vci a ce config vs cache =
        .ok (cache', sls, sts, evs) →
      ((v0, a0), SlashingStatus.notSlashable) ∈ sts →
      P cache' := by
  intro vs
  induction vs with
  | nil =>
    intro cache cache' sls sts evs h hmem
    have hsts : ([] : StatusTrace) = sts :=
      congrArg (fun t => t.2.2.1) (Except.ok.inj h)
    rw [← hsts] at hmem
    exact absurd hmem (List.not_mem_nil _)
  | cons v rest ih =>
    intro cache cache' sls sts evs h hmem
    rw [update_array_validators] at h
    cases happ : apply_attestation_for_validator kind fuel db recs cache vci v a
        ce config with
    | error e => rw [happ] at h; simp only [] at h; cases h
    | ok p =>
      rcases p with ⟨cache1, st1, evs1⟩
      rw [happ] at h
      simp only [] at h
      cases hrec : update_array_validators kind fuel db recs vci a ce config
          rest cache1 with
      | error e => rw [hrec] at h; simp only [] at h; cases h
      | ok q =>
        rcases q with ⟨cache2, sls2, sts2, evs2⟩
        rw [hrec] at h
        simp only [] at h
        have hcc : cache2 = cache' := congrArg (fun t => t.1) (Except.ok.inj h)
        have hsts : ((v, a), st1) :: sts2 = sts :=
          congrArg (fun t => t.2.2.1) (Except.ok.inj h)
        rw [← hsts] at hmem
        rcases List.mem_cons.1 hmem with heq | hmem2
        · have hv : v0 = v := congrArg (fun p => p.1.1) heq
          have hA : a0 = a := congrArg (fun p => p.1.2) heq
          have hst : SlashingStatus.notSlashable = st1 := congrArg (fun p => p.2) heq
          rw [← hcc]
          refine update_array_validators_pres kind fuel db recs vci a ce config P hpres
            rest cache1 cache2 sls2 sts2 evs2 hrec ?_
          refine hest cache cache1 evs1 ?_
          rw [hv, hA, hst]
          exact happ
        · rw [← hcc]
          exact ih cache1 cache2 sls2 sts2 evs2 hrec hmem2

theorem update_array_atts_estab (kind : TargetArrayKind) (fuel : Nat)
    (db : ChunkDB) (recs : AttesterRecords) (vci ce : Nat) (config : Config)
    (v0 : Nat) (a0 : IndexedAttestation) (P : ChunkCache → Prop)
    (hest : ∀ cache cache' evs,
      apply_attestation_for_validator kind fuel db recs cache vci v0 a0 ce config =
        .ok (cache', .notSlashable, evs) → P cache')
    (hpres : ∀ cache v a cache' st evs,
      apply_attestation_for_validator kind fuel db recs cache vci v a ce config =
        .ok (cache', st, evs) → P cache → P cache') :
    ∀ (atts : List IndexedAttestation) (cache : ChunkCache) cache' sls sts evs,
      update_array_atts kind fuel db recs vci ce config atts cache =
        .ok (cache', sls, sts, evs) →
      ((v0, a0), SlashingStatus.notSlashable) ∈ sts →
      P cache' := by
  intro atts
  induction atts with
  | nil =>
    intro cache cache' sls sts evs h hmem
    have hsts : ([] : StatusTrace) = sts :=
      congrArg (fun t => t.2.2.1) (Except.ok.inj h)
    rw [← hsts] at hmem
    exact absurd hmem (List.not_mem_nil _)
  | cons a rest ih =>
    intro cache cache' sls sts evs h hmem
    rw [update_array_atts] at h
    cases hv : update_array_validators kind fuel db recs vci a ce config
        (attesting_validators_for_chunk config a vci) cache with
    | error e => rw [hv] at h; simp only [] at h; cases h
    | ok p =>
      rcases p with ⟨cache1, sls1, sts1, evs1⟩
      rw [hv] at h
      simp only [] at h
      cases hrec : update_array_atts kind fuel db recs vci ce config rest cache1 with
      | error e => rw [hrec] at h; simp only [] at h; cases h
      | ok q =>
        rcases q with ⟨cache2, sls2, sts2, evs2⟩
        rw [hrec] at h
        simp only [] at h
        have hcc : cache2 = cache' := congrArg (fun t => t.1) (Except.ok.inj h)
        have hsts : sts1 ++ sts2 = sts :=
          congrArg (fun t => t.2.2.1) (Except.ok.inj h)
        rw [← hsts] at hmem
        rcases List.mem_append.1 hmem with hmem1 | hmem2
        · rw [← hcc]
          refine update_array_atts_pres kind fuel db recs vci ce config P hpres
            rest cache1 cache2 sls2 sts2 evs2 hrec ?_
          exact update_array_validators_estab kind fuel db recs vci a ce config
            v0 a0 P hest
            (fun cache v cache' st evs happ => hpres cache v a cache' st evs happ)
            _ cache cache1 sls1 sts1 evs1 hv hmem1
        · rw [← hcc]
          exact ih cache1 cache2 sls2 sts2 evs2 hrec hmem2

theorem update_array_groups_estab (kind : TargetArrayKind) (fuel : Nat)
    (db : ChunkDB) (recs : AttesterRecords) (vci ce : Nat) (config : Config)
    (v0 : Nat) (a0 : IndexedAttestation) (P : ChunkCache → Prop)
    (hest : ∀ cache cache' evs,
      apply_attestation_for_validator kind fuel db recs cache vci v0 a0 ce config =
        .ok (cache', .notSlashable, evs) → P cache')
    (hpres : ∀ cache v a cache' st evs,
      apply_attestation_for_validator kind fuel db recs cache vci v a ce config =
        .ok (cache', st, evs) → P cache → P cache') :
    ∀ (groups : List (Nat × List IndexedAttestation)) (cache : ChunkCache)
      cache' sls sts evs,
      update_array_groups kind fuel db recs vci ce config groups cache =
        .ok (cache', sls, sts, evs) →
      ((v0, a0), SlashingStatus.notSlashable) ∈ sts →
      P cache' := by
  intro groups
  induction groups with
  | nil =>
    intro cache cache' sls sts evs h hmem
    have hsts : ([] : StatusTrace) = sts :=
      congrArg (fun t => t.2.2.1) (Except.ok.inj h)
    rw [← hsts] at hmem
    exact absurd hmem (List.not_mem_nil _)
  | cons g rest ih =>
    intro cache cache' sls sts evs h hmem
    rcases g with ⟨gk, atts⟩
    rw [update_array_groups] at h
    cases ha : update_array_atts kind fuel db recs vci ce config atts cache with
    | error e => rw [ha] at h; simp only [] at h; cases h
    | ok p =>
      rcases p with ⟨cache1, sls1, sts1, evs1⟩
      rw [ha] at h
      simp only [] at h
      cases hrec : update_array_groups kind fuel db recs vci ce config rest cache1 with
      | error e => rw [hrec] at h; simp only [] at h; cases h
      | ok q =>
        rcases q with ⟨cache2, sls2, sts2, evs2⟩
        rw [hrec] at h
        simp only [] at h
        have hcc : cache2 = cache' := congrArg (fun t => t.1) (Except.ok.inj h)
        have hsts : sts1 ++ sts2 = sts :=
          congrArg (fun t => t.2.2.1) (Except.ok.inj h)
        rw [← hsts] at hmem
        rcases List.mem_append.1 hmem with hmem1 | hmem2
        · rw [← hcc]
          refine update_array_groups_pres kind fuel db recs vci ce config P hpres
            rest cache1 cache2 sls2 sts2 evs2 hrec ?_
          exact update_array_atts_estab kind fuel db recs vci ce config v0 a0 P
            hest hpres atts cache cache1 sls1 sts1 evs1 ha hmem1
        · rw [← hcc]
          exact ih cache1 cache2 sls2 sts2 evs2 hrec hmem2

theorem db_get_target_flush (kind : TargetArrayKind) (db : ChunkDB)
    (cache : ChunkCache) (vci v e : Nat) (config : Config)
    (hpw : List.Pairwise (fun p q => p.1 < q.1) cache) :
    db_get_target kind (flush_chunks vci db cache) vci v e config =
      (cache_view kind db cache vci (config.chunk_index e) config).get_target
        v e config := by
  simp only [db_get_target]
  rw [flush_get vci cache db (config.chunk_index e) hpw]
  unfold cache_view
  cases hc : ChunkCache.get cache (config.chunk_index e) with
  | some c => rfl
  | none =>
    cases hdb : db.get (vci, config.chunk_index e) <;> rfl

/-- Claim C4 (amended): the code never writes the cell at the attestation's
own source epoch (the MIN walk writes strictly below it, the MAX walk
strictly above it), so the claimed sandwich
`min_chunk[v, source] ≤ target − source ≤ max_chunk[v, source]` fails on
freshly initialized cells (see the counterexample).  What the committed
store does guarantee, for every attestation `a` of the batch whose
recorded status in both passes is `NotSlashable` and whose source is
neither 0 nor the current epoch: reading the min-target array one epoch
below the source yields a target at most `a.target`, and reading the
max-target array one epoch above the source yields a target at least
`a.target` — the off-by-one sandwich actually maintained by the walks. -/
theorem c4_ingested_bounds (fuel : Nat) (stores : Stores) (recs : AttesterRecords)
    (vci : Nat) (batch : List IndexedAttestation) (ce : Nat) (config : Config)
    (r : UpdateResult) (v : Nat) (a : IndexedAttestation)
    (h : update fuel stores recs vci batch ce config = .ok r)
    (hmin : ((v, a), SlashingStatus.notSlashable) ∈ r.min_statuses)
    (hmax : ((v, a), SlashingStatus.notSlashable) ∈ r.max_statuses)
    (hpos : 0 < a.source) (hlt : a.source < ce) :
    (∀ m, db_get_target minKind r.stores.min_targets vci v (a.source - 1) config =
      .ok m → m ≤ a.target) ∧
    (∀ m, db_get_target maxKind r.stores.max_targets vci v (a.source + 1) config =
      .ok m → a.target ≤ m) := by
  rw [update] at h
  cases hminua : update_array minKind fuel stores.min_targets recs vci
      (group_by_chunk config batch) ce config with
  | error e => rw [hminua] at h; simp only [] at h; cases h
  | ok p =>
    rcases p with ⟨mindb, sls1, msts, mevs⟩
    rw [hminua] at h
    simp only [] at h
    cases hmaxua : update_array maxKind fuel stores.max_targets recs vci
        (group_by_chunk config batch) ce config with
    | error e => rw [hmaxua] at h; simp only [] at h; cases h
    | ok q =>
      rcases q with ⟨maxdb, sls2, xsts, xevs⟩
      rw [hmaxua] at h
      simp only [] at h
      have hr := Except.ok.inj h
      have hrmindb : mindb = r.stores.min_targets :=
        congrArg (fun u => u.stores.min_targets) hr
      have hrmaxdb : maxdb = r.stores.max_targets :=
        congrArg (fun u => u.stores.max_targets) hr
      have hrmsts : msts = r.min_statuses := congrArg UpdateResult.min_statuses hr
      have hrxsts : xsts = r.max_statuses := congrArg UpdateResult.max_statuses hr
      rw [← hrmsts] at hmin
      rw [← hrxsts] at hmax
      rw [update_array] at hminua hmaxua
      constructor
      · cases hming : update_array_groups minKind fuel stores.min_targets recs vci
            ce config (group_by_chunk config batch) [] with
        | error e => rw [hming] at hminua; simp only [] at hminua; cases hminua
        | ok pp =>
          rcases pp with ⟨cacheF, slsF, stsF, evsF⟩
          rw [hming] at hminua
          simp only [] at hminua
          have hdbF : flush_chunks vci stores.min_targets cacheF = mindb :=
            congrArg (fun t => t.1) (Except.ok.inj hminua)
          have hstsF : stsF = msts :=
            congrArg (fun t => t.2.2.1) (Except.ok.inj hminua)
          have hP : a.source - 1 + view_cell minKind stores.min_targets cacheF vci
              (config.chunk_index (a.source - 1)) (config.cell_of v (a.source - 1))
              config ≤ a.target := by
            refine update_array_groups_estab minKind fuel stores.min_targets recs vci
              ce config v a
              (fun cache => a.source - 1 + view_cell minKind stores.min_targets cache
                vci (config.chunk_index (a.source - 1))
                (config.cell_of v (a.source - 1)) config ≤ a.target)
              (fun cache cache' evs happ =>
                apply_min_first fuel stores.min_targets recs cache vci v a ce config
                  cache' .notSlashable evs happ rfl hpos)
              (fun cache v' a' cache' st evs happ hp => by
                have := apply_min_view fuel stores.min_targets recs cache vci v' a' ce
                  config cache' st evs happ (config.chunk_index (a.source - 1))
                  (config.cell_of v (a.source - 1))
                omega)
              (group_by_chunk config batch) [] cacheF slsF stsF evsF hming ?_
            rw [hstsF]
            exact hmin
          have hpw : List.Pairwise (fun p q => p.1 < q.1) cacheF :=
            update_array_groups_pres minKind fuel stores.min_targets recs vci ce
              config (fun cache => List.Pairwise (fun p q => p.1 < q.1) cache)
              (fun cache v' a' cache' st evs happ hp =>
                apply_pairwise minKind fuel stores.min_targets recs cache vci v' a'
                  ce config cache' st evs happ hp)
              (group_by_chunk config batch) [] cacheF slsF stsF evsF hming
              List.Pairwise.nil
          intro m hm
          rw [← hrmindb, ← hdbF] at hm
          rw [db_get_target_flush minKind stores.min_targets cacheF vci v
            (a.source - 1) config hpw] at hm
          obtain ⟨d0, hd0, hm2⟩ := get_target_ok _ v (a.source - 1) config m hm
          have hview : view_cell minKind stores.min_targets cacheF vci
              (config.chunk_index (a.source - 1)) (config.cell_of v (a.source - 1))
              config = d0 := by
            unfold view_cell
            rw [List.getD_eq_get?, hd0]
            rfl
          omega
      · cases hmaxg : update_array_groups maxKind fuel stores.max_targets recs vci
            ce config (group_by_chunk config batch) [] with
        | error e => rw [hmaxg] at hmaxua; simp only [] at hmaxua; cases hmaxua
        | ok pp =>
          rcases pp with ⟨cacheF, slsF, stsF, evsF⟩
          rw [hmaxg] at hmaxua
          simp only [] at hmaxua
          have hdbF : flush_chunks vci stores.max_targets cacheF = maxdb :=
            congrArg (fun t => t.1) (Except.ok.inj hmaxua)
          have hstsF : stsF = xsts :=
            congrArg (fun t => t.2.2.1) (Except.ok.inj hmaxua)
          have hP : a.target ≤ a.source + 1 + view_cell maxKind stores.max_targets
              cacheF vci (config.chunk_index (a.source + 1))
              (config.cell_of v (a.source + 1)) config := by
            refine update_array_groups_estab maxKind fuel stores.max_targets recs vci
              ce config v a
              (fun cache => a.target ≤ a.source + 1 + view_cell maxKind
                stores.max_targets cache vci (config.chunk_index (a.source + 1))
                (config.cell_of v (a.source + 1)) config)
              (fun cache cache' evs happ =>
                apply_max_first fuel stores.max_targets recs cache vci v a ce config
                  cache' .notSlashable evs happ rfl hlt)
              (fun cache v' a' cache' st evs happ hp => by
                have := apply_max_view fuel stores.max_targets recs cache vci v' a' ce
                  config cache' st evs happ (config.chunk_index (a.source + 1))
                  (config.cell_of v (a.source + 1))
                omega)
              (group_by_chunk config batch) [] cacheF slsF stsF evsF hmaxg ?_
            rw [hstsF]
            exact hmax
          have hpw : List.Pairwise (fun p q => p.1 < q.1) cacheF :=
            update_array_groups_pres maxKind fuel stores.max_targets recs vci ce
              config (fun cache => List.Pairwise (fun p q => p.1 < q.1) cache)
              (fun cache v' a' cache' st evs happ hp =>
                apply_pairwise maxKind fuel stores.max_targets recs cache vci v' a'
                  ce config cache' st evs happ hp)
              (group_by_chunk config batch) [] cacheF slsF stsF evsF hmaxg
              List.Pairwise.nil
          intro m hm
          rw [← hrmaxdb, ← hdbF] at hm
          rw [db_get_target_flush maxKind stores.max_targets cacheF vci v
            (a.source + 1) config hpw] at hm
          obtain ⟨d0, hd0, hm2⟩ := get_target_ok _ v (a.source + 1) config m hm
          have hview : view_cell maxKind stores.max_targets cacheF vci
              (config.chunk_index (a.source + 1)) (config.cell_of v (a.source + 1))
              config = d0 := by
            unfold view_cell
            rw [List.getD_eq_get?, hd0]
            rfl
          omega

theorem c4_witness :
    db_get_target minKind
      ([((0, 0), ⟨[3, 2]⟩), ((0, 1), ⟨[65535, 65535]⟩)] : ChunkDB)
      0 0 1 ⟨4, 2, 1⟩ = .ok 3 ∧
    db_get_target maxKind ([((0, 1), ⟨[0, 0]⟩)] : ChunkDB) 0 0 3 ⟨4, 2, 1⟩ = .ok 3 ∧
    (3 : Nat) ≤ 3 ∧ (3 : Nat) ≤ 3 := by
  have h := c4_ingested_bounds 64 ⟨[], []⟩ [] 0 [⟨[0], 2, 3, 0⟩] 3 ⟨4, 2, 1⟩
    ⟨⟨[((0, 0), ⟨[3, 2]⟩), ((0, 1), ⟨[65535, 65535]⟩)], [((0, 1), ⟨[0, 0]⟩)]⟩,
     [], [((0, ⟨[0], 2, 3, 0⟩), .notSlashable)], [((0, ⟨[0], 2, 3, 0⟩), .notSlashable)],
     [⟨0, 1, 3⟩, ⟨0, 0, 3⟩], []⟩ 0 ⟨[0], 2, 3, 0⟩ (by rfl)
    (List.mem_singleton.2 rfl) (List.mem_singleton.2 rfl) (by decide) (by decide)
  exact ⟨by rfl, by rfl, h.1 3 (by rfl), h.2 3 (by rfl)⟩

theorem epoch_unique_in_window (config : Config) (hC : 0 < config.chunk_size)
    (hH : 0 < config.history_length)
    (hdvd : config.chunk_size ∣ config.history_length) (ce e b : Nat)
    (h1 : ce + 1 - config.history_length ≤ e) (h2 : e ≤ ce)
    (h3 : ce + 1 - config.history_length ≤ b) (h4 : b ≤ ce)
    (hci : config.chunk_index e = config.chunk_index b)
    (hco : e % config.chunk_size = b % config.chunk_size) :
    e = b := by
  have hce : e % config.history_length % config.chunk_size = e % config.chunk_size :=
    Nat.mod_mod_of_dvd e hdvd
  have hcb : b % config.history_length % config.chunk_size = b % config.chunk_size :=
    Nat.mod_mod_of_dvd b hdvd
  simp only [Config.chunk_index] at hci
  have hmodH : e % config.history_length = b % config.history_length := by
    calc e % config.history_length
        = config.chunk_size * (e % config.history_length / config.chunk_size) +
          e % config.history_length % config.chunk_size :=
          (Nat.div_add_mod _ _).symm
      _ = config.chunk_size * (b % config.history_length / config.chunk_size) +
          b % config.history_length % config.chunk_size := by
          rw [hci, hce, hco, hcb]
      _ = b % config.history_length := Nat.div_add_mod _ _
  rcases Nat.le_total e b with hle | hle
  · have hd : config.history_length ∣ b - e := (Nat.modEq_iff_dvd' hle).1 hmodH
    have hz : b - e = 0 := Nat.eq_zero_of_dvd_of_lt hd (by omega)
    omega
  · have hd : config.history_length ∣ e - b := (Nat.modEq_iff_dvd' hle).1 hmodH.symm
    have hz : e - b = 0 := Nat.eq_zero_of_dvd_of_lt hd (by omega)
    omega

theorem cell_of_mod_eq (config : Config) (v v' e e' : Nat)
    (h : config.cell_of v e = config.cell_of v' e') :
    e % config.chunk_size = e' % config.chunk_size := by
  simp only [Config.cell_of, Config.cell_index, Config.validator_offset,
    Config.chunk_offset] at h
  have h2 := congrArg (fun x => x % config.chunk_size) h
  simp only [] at h2
  rw [Nat.mul_add_mod', Nat.mul_add_mod',
    Nat.mod_mod_of_dvd e (dvd_refl config.chunk_size),
    Nat.mod_mod_of_dvd e' (dvd_refl config.chunk_size)] at h2
  exact h2

theorem replicate_getD (x d : Nat) :
    ∀ (n i : Nat), i < n → (List.replicate n x).getD i d = x := by
  intro n
  induction n with
  | zero => intro i hi; omega
  | succ m ih =>
    intro i hi
    cases i with
    | zero => rfl
    | succ j =>
      show (List.replicate m x).getD j d = x
      exact ih j (by omega)

theorem cell_of_lt (config : Config) (hC : 0 < config.chunk_size)
    (hK : 0 < config.validator_chunk_size) (v e : Nat) :
    config.cell_of v e < config.chunk_size * config.validator_chunk_size := by
  simp only [Config.cell_of, Config.cell_index, Config.validator_offset,
    Config.chunk_offset]
  have h1 : v % config.validator_chunk_size < config.validator_chunk_size :=
    Nat.mod_lt _ hK
  have h2 : e % config.chunk_size < config.chunk_size := Nat.mod_lt _ hC
  have h3 : v % config.validator_chunk_size * config.chunk_size +
      e % config.chunk_size <
      (v % config.validator_chunk_size + 1) * config.chunk_size := by
    rw [Nat.succ_mul]
    omega
  have h4 : (v % config.validator_chunk_size + 1) * config.chunk_size ≤
      config.validator_chunk_size * config.chunk_size :=
    Nat.mul_le_mul_right _ (by omega)
  calc v % config.validator_chunk_size * config.chunk_size + e % config.chunk_size
      < (v % config.validator_chunk_size + 1) * config.chunk_size := h3
    _ ≤ config.validator_chunk_size * config.chunk_size := h4
    _ = config.chunk_size * config.validator_chunk_size := Nat.mul_comm _ _

theorem min_update_loop_writes (config : Config) (ci v t me : Nat) :
    ∀ (fuel : Nat) (chunk : Chunk) (start : Nat) (c' : Chunk) (evs : List WriteEv)
      (kg : Bool),
      MinTargetChunk.update_loop config ci v t me fuel chunk start = .ok (c', evs, kg) →
      me ≤ start →
      ∀ i, c'.data.getD i 0 = chunk.data.getD i 0 ∨
        ∃ e, me ≤ e ∧ e ≤ start ∧ config.chunk_index e = ci ∧
          i = config.cell_of v e ∧ e ≤ t ∧ c'.data.getD i 0 = t - e := by
  intro fuel
  induction fuel with
  | zero => intro chunk start c' evs kg h; cases h
  | succ n ih =>
    intro chunk start c' evs kg h hme i
    rw [MinTargetChunk.update_loop] at h
    by_cases hci : config.chunk_index start = ci
    · rw [if_pos hci] at h
      cases hget : chunk.get_target v start config with
      | error e => rw [hget] at h; simp only [] at h; cases h
      | ok tgt =>
        rw [hget] at h
        simp only [] at h
        by_cases hlt : t < tgt
        · rw [if_pos hlt] at h
          cases hset : chunk.set_target v start t config with
          | error e => rw [hset] at h; simp only [] at h; cases h
          | ok chunk1 =>
            rw [hset] at h
            simp only [] at h
            obtain ⟨d0, hd0, hle, hmaxd, hc1⟩ := set_target_ok chunk v start t config
              chunk1 hset
            have hidx : config.cell_of v start < chunk.data.length := by
              rcases List.get?_eq_some.1 hd0 with ⟨hh, -⟩
              exact hh
            have hcell : chunk1.data.getD (config.cell_of v start) 0 = t - start := by
              rw [hc1]
              rw [List.getD_eq_get?, List.get?_set_eq_of_lt _ hidx]
              rfl
            have hother : ∀ j, j ≠ config.cell_of v start →
                chunk1.data.getD j 0 = chunk.data.getD j 0 := by
              intro j hj
              rw [hc1]
              rw [List.getD_eq_get?, List.getD_eq_get?,
                List.get?_set_ne _ _ (fun hc => hj hc.symm)]
            by_cases hstop : start = me
            · rw [if_pos hstop] at h
              have hc' : chunk1 = c' := congrArg (fun p => p.1) (Except.ok.inj h)
              by_cases hj : i = config.cell_of v start
              · subst hj
                refine Or.inr ⟨start, hme, le_refl _, hci, rfl, hle, ?_⟩
                rw [← hc']
                exact hcell
              · refine Or.inl ?_
                rw [← hc']
                exact hother i hj
            · rw [if_neg hstop] at h
              cases hrec : MinTargetChunk.update_loop config ci v t me n chunk1
                  (start - 1) with
              | error e => rw [hrec] at h; simp only [] at h; cases h
              | ok p =>
                rcases p with ⟨c2, evs2, kg2⟩
                rw [hrec] at h
                simp only [] at h
                have hc' : c2 = c' := congrArg (fun p => p.1) (Except.ok.inj h)
                rcases ih chunk1 (start - 1) c2 evs2 kg2 hrec (by omega) i with hl | hr
                · by_cases hj : i = config.cell_of v start
                  · subst hj
                    refine Or.inr ⟨start, hme, le_refl _, hci, rfl, hle, ?_⟩
                    rw [← hc', hl]
                    exact hcell
                  · refine Or.inl ?_
                    rw [← hc', hl]
                    exact hother i hj
                · obtain ⟨e, he1, he2, he3, he4, he5, he6⟩ := hr
                  refine Or.inr ⟨e, he1, by omega, he3, he4, he5, ?_⟩
                  rw [← hc']
                  exact he6
        · rw [if_neg hlt] at h
          have hc' : chunk = c' := congrArg (fun p => p.1) (Except.ok.inj h)
          refine Or.inl ?_
          rw [← hc']
    · rw [if_neg hci] at h
      by_cases hc0 : ci = 0
      · rw [if_pos hc0] at h
        cases h
      · rw [if_neg hc0] at h
        have hc' : chunk = c' := congrArg (fun p => p.1) (Except.ok.inj h)
        refine Or.inl ?_
        rw [← hc']

theorem max_update_loop_writes (config : Config) (ci v t ce : Nat) :
    ∀ (fuel : Nat) (chunk : Chunk) (start : Nat) (c' : Chunk) (evs : List WriteEv)
      (kg : Bool),
      MaxTargetChunk.update_loop config ci v t ce fuel chunk start = .ok (c', evs, kg) →
      ∀ i, c'.data.getD i 0 = chunk.data.getD i 0 ∨
        ∃ e, start ≤ e ∧ config.chunk_index e = ci ∧
          i = config.cell_of v e ∧ e ≤ t ∧ c'.data.getD i 0 = t - e := by
  intro fuel
  induction fuel with
  | zero => intro chunk start c' evs kg h; cases h
  | succ n ih =>
    intro chunk start c' evs kg h i
    rw [MaxTargetChunk.update_loop] at h
    by_cases hci : config.chunk_index start = ci
    · rw [if_pos hci] at h
      cases hget : chunk.get_target v start config with
      | error e => rw [hget] at h; simp only [] at h; cases h
      | ok tgt =>
        rw [hget] at h
        simp only [] at h
        by_cases hlt : t > tgt
        · rw [if_pos hlt] at h
          cases hset : chunk.set_target v start t config with
          | error e => rw [hset] at h; simp only [] at h; cases h
          | ok chunk1 =>
            rw [hset] at h
            simp only [] at h
            obtain ⟨d0, hd0, hle, hmaxd, hc1⟩ := set_target_ok chunk v start t config
              chunk1 hset
            have hidx : config.cell_of v start < chunk.data.length := by
              rcases List.get?_eq_some.1 hd0 with ⟨hh, -⟩
              exact hh
            have hcell : chunk1.data.getD (config.cell_of v start) 0 = t - start := by
              rw [hc1]
              rw [List.getD_eq_get?, List.get?_set_eq_of_lt _ hidx]
              rfl
            have hother : ∀ j, j ≠ config.cell_of v start →
                chunk1.data.getD j 0 = chunk.data.getD j 0 := by
              intro j hj
              rw [hc1]
              rw [List.getD_eq_get?, List.getD_eq_get?,
                List.get?_set_ne _ _ (fun hc => hj hc.symm)]
            by_cases hstop : start = ce
            · rw [if_pos hstop] at h
              have hc' : chunk1 = c' := congrArg (fun p => p.1) (Except.ok.inj h)
              by_cases hj : i = config.cell_of v start
              · subst hj
                refine Or.inr ⟨start, le_refl _, hci, rfl, hle, ?_⟩
                rw [← hc']
                exact hcell
              · refine Or.inl ?_
                rw [← hc']
                exact hother i hj
            · rw [if_neg hstop] at h
              cases hrec : MaxTargetChunk.update_loop config ci v t ce n chunk1
                  (start + 1) with
              | error e => rw [hrec] at h; simp only [] at h; cases h
              | ok p =>
                rcases p with ⟨c2, evs2, kg2⟩
                rw [hrec] at h
                simp only [] at h
                have hc' : c2 = c' := congrArg (fun p => p.1) (Except.ok.inj h)
                rcases ih chunk1 (start + 1) c2 evs2 kg2 hrec i with hl | hr
                · by_cases hj : i = config.cell_of v start
                  · subst hj
                    refine Or.inr ⟨start, le_refl _, hci, rfl, hle, ?_⟩
                    rw [← hc', hl]
                    exact hcell
                  · refine Or.inl ?_
                    rw [← hc', hl]
                    exact hother i hj
                · obtain ⟨e, he1, he3, he4, he5, he6⟩ := hr
                  refine Or.inr ⟨e, by omega, he3, he4, he5, ?_⟩
                  rw [← hc']
                  exact he6
        · rw [if_neg hlt] at h
          have hc' : chunk = c' := congrArg (fun p => p.1) (Except.ok.inj h)
          refine Or.inl ?_
          rw [← hc']
    · rw [if_neg hci] at h
      have hc' : chunk = c' := congrArg (fun p => p.1) (Except.ok.inj h)
      refine Or.inl ?_
      rw [← hc']

theorem apply_loop_min_writes (db : ChunkDB) (vci v t ce : Nat) (config : Config)
    (hC : 0 < config.chunk_size) (hH : 0 < config.history_length)
    (hdvd : config.chunk_size ∣ config.history_length) (wfuel : Nat) :
    ∀ (fuel : Nat) (cache : ChunkCache) (ci start : Nat) (cache' : ChunkCache)
      (evs : List WriteEv),
      apply_attestation_loop minKind db vci v t ce config wfuel fuel cache ci start =
        .ok (cache', evs) →
      ce - (config.history_length - 1) ≤ start →
      ci = config.chunk_index start →
      ∀ ci' idx,
        view_cell minKind db cache' vci ci' idx config =
          view_cell minKind db cache vci ci' idx config ∨
        ∃ e, ce - (config.history_length - 1) ≤ e ∧ e ≤ start ∧
          config.chunk_index e = ci' ∧ idx = config.cell_of v e ∧ e ≤ t ∧
          view_cell minKind db cache' vci ci' idx config = t - e := by
  intro fuel
  induction fuel with
  | zero => intro cache ci start cache' evs h; cases h
  | succ n ih =>
    intro cache ci start cache' evs h hme hci ci' idx
    rw [apply_attestation_loop] at h
    rcases hg : get_chunk_for_update minKind db cache vci ci config with ⟨cacheA, chunkA⟩
    rw [hg] at h
    rw [show minKind.chunk_update = MinTargetChunk.update from rfl] at h
    simp only [MinTargetChunk.update] at h
    have hsnd := get_chunk_for_update_snd minKind db cache vci ci config
    rw [hg] at hsnd
    simp only [] at hsnd
    have hchv : ∀ idx2, chunkA.data.getD idx2 0 =
        view_cell minKind db cache vci ci idx2 config := by
      intro idx2
      unfold view_cell
      rw [hsnd]
    cases hwalk : MinTargetChunk.update_loop config ci v t
        (ce - (config.history_length - 1)) wfuel chunkA start with
    | error e => rw [hwalk] at h; simp only [] at h; cases h
    | ok p =>
      rcases p with ⟨c1, evs1, kg⟩
      rw [hwalk] at h
      simp only [] at h
      have hwr := min_update_loop_writes config ci v t _ wfuel chunkA start c1 evs1
        kg hwalk hme
      have hview2 : ∀ idx2,
          view_cell minKind db (cacheA.put ci c1) vci ci' idx2 config =
          if ci = ci' then c1.data.getD idx2 0
          else view_cell minKind db cache vci ci' idx2 config := by
        intro idx2
        have h5 := get_chunk_for_update_fst_view minKind db cache vci ci ci' config
        rw [hg] at h5
        simp only [] at h5
        unfold view_cell
        rw [cache_view_put]
        by_cases hcc : ci = ci'
        · rw [if_pos hcc, if_pos hcc]
        · rw [if_neg hcc, if_neg hcc, h5]
      cases kg with
      | false =>
        have hcc : cacheA.put ci c1 = cache' :=
          congrArg (fun p => p.1) (Except.ok.inj h)
        rw [← hcc, hview2]
        by_cases hcieq : ci = ci'
        · rw [if_pos hcieq]
          rcases hwr idx with hl | hr
          · rw [hl, hchv, hcieq]
            exact Or.inl rfl
          · obtain ⟨e, he1, he2, he3, he4, he5, he6⟩ := hr
            exact Or.inr ⟨e, he1, he2, by rw [he3, hcieq], he4, he5, he6⟩
        · rw [if_neg hcieq]
          exact Or.inl rfl
      | true =>
        rw [show minKind.next_chunk_index_and_start_epoch =
          MinTargetChunk.next_chunk_index_and_start_epoch from rfl] at h
        simp only [MinTargetChunk.next_chunk_index_and_start_epoch] at h
        by_cases hc0 : ci = 0
        · rw [if_pos hc0] at h
          simp only [] at h
          cases h
        · rw [if_neg hc0] at h
          simp only [] at h
          cases hrec : apply_attestation_loop minKind db vci v t ce config wfuel n
              (cacheA.put ci c1) (ci - 1)
              (start / config.chunk_size * config.chunk_size - 1) with
          | error e => rw [hrec] at h; simp only [] at h; cases h
          | ok q =>
            rcases q with ⟨cache3, evs2⟩
            rw [hrec] at h
            simp only [] at h
            have hcc : cache3 = cache' := congrArg (fun p => p.1) (Except.ok.inj h)
            obtain ⟨hbound, hexit⟩ := min_update_loop_epochs config ci v t _ wfuel
              chunkA start c1 evs1 true hwalk hme
            obtain ⟨b, hb1, hb2, hb3⟩ := hexit rfl
            have hbfloor : b < start / config.chunk_size * config.chunk_size := by
              by_contra hcon
              refine hb3 ?_
              rw [hci]
              exact chunk_index_eq_of_div_eq config hC hdvd b start
                (div_eq_of_between b start _ hC (by omega) hb2)
            have hme2 : ce - (config.history_length - 1) ≤
                start / config.chunk_size * config.chunk_size - 1 := by omega
            have hne : config.chunk_index start ≠ 0 := by
              rw [← hci]
              exact hc0
            have hci2 : ci - 1 = config.chunk_index
                (start / config.chunk_size * config.chunk_size - 1) := by
              rw [chunk_index_floor_pred config hC hH hdvd start hne, ← hci]
            have hmul := Nat.div_mul_le_self start config.chunk_size
            rcases ih (cacheA.put ci c1) (ci - 1)
                (start / config.chunk_size * config.chunk_size - 1) cache3 evs2 hrec
                hme2 hci2 ci' idx with hl | hr
            · rw [← hcc, hl, hview2]
              by_cases hcieq : ci = ci'
              · rw [if_pos hcieq]
                rcases hwr idx with hl2 | hr2
                · rw [hl2, hchv, hcieq]
                  exact Or.inl rfl
                · obtain ⟨e, he1, he2, he3, he4, he5, he6⟩ := hr2
                  exact Or.inr ⟨e, he1, he2, by rw [he3, hcieq], he4, he5, he6⟩
              · rw [if_neg hcieq]
                exact Or.inl rfl
            · obtain ⟨e, he1, he2, he3, he4, he5, he6⟩ := hr
              refine Or.inr ⟨e, he1, by omega, he3, he4, he5, ?_⟩
              rw [← hcc]
              exact he6

theorem apply_loop_max_writes (db : ChunkDB) (vci v t ce : Nat) (config : Config)
    (hC : 0 < config.chunk_size) (wfuel : Nat) :
    ∀ (fuel : Nat) (cache : ChunkCache) (ci start : Nat) (cache' : ChunkCache)
      (evs : List WriteEv),
      apply_attestation_loop maxKind db vci v t ce config wfuel fuel cache ci start =
        .ok (cache', evs) →
      ∀ ci' idx,
        view_cell maxKind db cache' vci ci' idx config =
          view_cell maxKind db cache vci ci' idx config ∨
        ∃ e, start ≤ e ∧ config.chunk_index e = ci' ∧ idx = config.cell_of v e ∧
          e ≤ t ∧ view_cell maxKind db cache' vci ci' idx config = t - e := by
  intro fuel
  induction fuel with
  | zero => intro cache ci start cache' evs h; cases h
  | succ n ih =>
    intro cache ci start cache' evs h ci' idx
    rw [apply_attestation_loop] at h
    rcases hg : get_chunk_for_update maxKind db cache vci ci config with ⟨cacheA, chunkA⟩
    rw [hg] at h
    rw [show maxKind.chunk_update = MaxTargetChunk.update from rfl] at h
    simp only [MaxTargetChunk.update] at h
    have hsnd := get_chunk_for_update_snd maxKind db cache vci ci config
    rw [hg] at hsnd
    simp only [] at hsnd
    have hchv : ∀ idx2, chunkA.data.getD idx2 0 =
        view_cell maxKind db cache vci ci idx2 config := by
      intro idx2
      unfold view_cell
      rw [hsnd]
    cases hwalk : MaxTargetChunk.update_loop config ci v t ce wfuel chunkA start with
    | error e => rw [hwalk] at h; simp only [] at h; cases h
    | ok p =>
      rcases p with ⟨c1, evs1, kg⟩
      rw [hwalk] at h
      simp only [] at h
      have hwr := max_update_loop_writes config ci v t ce wfuel chunkA start c1 evs1
        kg hwalk
      have hview2 : ∀ idx2,
          view_cell maxKind db (cacheA.put ci c1) vci ci' idx2 config =
          if ci = ci' then c1.data.getD idx2 0
          else view_cell maxKind db cache vci ci' idx2 config := by
        intro idx2
        have h5 := get_chunk_for_update_fst_view maxKind db cache vci ci ci' config
        rw [hg] at h5
        simp only [] at h5
        unfold view_cell
        rw [cache_view_put]
        by_cases hcc : ci = ci'
        · rw [if_pos hcc, if_pos hcc]
        · rw [if_neg hcc, if_neg hcc, h5]
      cases kg with
      | false =>
        have hcc : cacheA.put ci c1 = cache' :=
          congrArg (fun p => p.1) (Except.ok.inj h)
        rw [← hcc, hview2]
        by_cases hcieq : ci = ci'
        · rw [if_pos hcieq]
          rcases hwr idx with hl | hr
          · rw [hl, hchv, hcieq]
            exact Or.inl rfl
          · obtain ⟨e, he1, he3, he4, he5, he6⟩ := hr
            exact Or.inr ⟨e, he1, by rw [he3, hcieq], he4, he5, he6⟩
        · rw [if_neg hcieq]
          exact Or.inl rfl
      | true =>
        rw [show maxKind.next_chunk_index_and_start_epoch =
          MaxTargetChunk.next_chunk_index_and_start_epoch from rfl] at h
        simp only [MaxTargetChunk.next_chunk_index_and_start_epoch] at h
        cases hrec : apply_attestation_loop maxKind db vci v t ce config wfuel n
            (cacheA.put ci c1) (ci + 1)
            ((start / config.chunk_size + 1) * config.chunk_size) with
        | error e => rw [hrec] at h; simp only [] at h; cases h
        | ok q =>
          rcases q with ⟨cache3, evs2⟩
          rw [hrec] at h
          simp only [] at h
          have hcc : cache3 = cache' := congrArg (fun p => p.1) (Except.ok.inj h)
          have hlt := lt_div_succ_mul start config.chunk_size hC
          rcases ih (cacheA.put ci c1) (ci + 1)
              ((start / config.chunk_size + 1) * config.chunk_size) cache3 evs2 hrec
              ci' idx with hl | hr
          · rw [← hcc, hl, hview2]
            by_cases hcieq : ci = ci'
            · rw [if_pos hcieq]
              rcases hwr idx with hl2 | hr2
              · rw [hl2, hchv, hcieq]
                exact Or.inl rfl
              · obtain ⟨e, he1, he3, he4, he5, he6⟩ := hr2
                exact Or.inr ⟨e, he1, by rw [he3, hcieq], he4, he5, he6⟩
            · rw [if_neg hcieq]
              exact Or.inl rfl
          · obtain ⟨e, he1, he3, he4, he5, he6⟩ := hr
            refine Or.inr ⟨e, by omega, he3, he4, he5, ?_⟩
            rw [← hcc]
            exact he6

theorem apply_min_writes (fuel : Nat) (db : ChunkDB) (recs : AttesterRecords)
    (cache : ChunkCache) (vci v : Nat) (a : IndexedAttestation) (ce : Nat)
    (config : Config) (hC : 0 < config.chunk_size) (hH : 0 < config.history_length)
    (hdvd : config.chunk_size ∣ config.history_length)
    (cache' : ChunkCache) (st : SlashingStatus) (evs : List WriteEv)
    (h : apply_attestation_for_validator minKind fuel db recs cache vci v a ce config =
      .ok (cache', st, evs))
    (hsrc : window_floor config ce < a.source) :
    ∀ ci idx,
      view_cell minKind db cache' vci ci idx config =
        view_cell minKind db cache vci ci idx config ∨
      ∃ e, window_floor config ce ≤ e ∧ e < a.source ∧ config.chunk_index e = ci ∧
        idx = config.cell_of v e ∧ e ≤ a.target ∧
        view_cell minKind db cache' vci ci idx config = a.target - e := by
  intro ci idx
  simp only [apply_attestation_for_validator] at h
  rcases hg : get_chunk_for_update minKind db cache vci
      (config.chunk_index a.source) config with ⟨cacheA, chunkA⟩
  rw [hg] at h
  have hAview : ∀ cj idx2, view_cell minKind db cacheA vci cj idx2 config =
      view_cell minKind db cache vci cj idx2 config := by
    intro cj idx2
    unfold view_cell
    have h5 := get_chunk_for_update_fst_view minKind db cache vci
      (config.chunk_index a.source) cj config
    rw [hg] at h5
    simp only [] at h5
    rw [h5]
  split at h
  · exact Except.noConfusion h
  · rename_i st0 heq
    split at h
    · rename_i hs0
      rw [show minKind.first_start_epoch = MinTargetChunk.first_start_epoch from rfl] at h
      simp only [MinTargetChunk.first_start_epoch] at h
      have hpos : 0 < a.source := by
        unfold window_floor at hsrc
        omega
      rw [if_pos hpos] at h
      simp only [] at h
      cases hloop : apply_attestation_loop minKind db vci v a.target ce config fuel
          fuel cacheA (config.chunk_index (a.source - 1)) (a.source - 1) with
      | error e => rw [hloop] at h; simp only [] at h; cases h
      | ok p =>
        rcases p with ⟨cache2, evs2⟩
        rw [hloop] at h
        simp only [] at h
        have hcc : cache2 = cache' := congrArg (fun t => t.1) (Except.ok.inj h)
        have hfl := window_floor_eq_min_epoch config hH ce
        have hme : ce - (config.history_length - 1) ≤ a.source - 1 := by
          rw [← hfl]
          omega
        rcases apply_loop_min_writes db vci v a.target ce config hC hH hdvd fuel fuel
            cacheA (config.chunk_index (a.source - 1)) (a.source - 1) cache2 evs2
            hloop hme rfl ci idx with hl | hr
        · rw [← hcc, hl, hAview]
          exact Or.inl rfl
        · obtain ⟨e, he1, he2, he3, he4, he5, he6⟩ := hr
          refine Or.inr ⟨e, by rw [hfl]; exact he1, by omega, he3, he4, he5, ?_⟩
          rw [← hcc]
          exact he6
    · have hcc : cacheA = cache' := congrArg (fun t => t.1) (Except.ok.inj h)
      rw [← hcc, hAview]
      exact Or.inl rfl

theorem apply_max_writes (fuel : Nat) (db : ChunkDB) (recs : AttesterRecords)
    (cache : ChunkCache) (vci v : Nat) (a : IndexedAttestation) (ce : Nat)
    (config : Config) (hC : 0 < config.chunk_size)
    (cache' : ChunkCache) (st : SlashingStatus) (evs : List WriteEv)
    (h : apply_attestation_for_validator maxKind fuel db recs cache vci v a ce config =
      .ok (cache', st, evs)) :
    ∀ ci idx,
      view_cell maxKind db cache' vci ci idx config =
        view_cell maxKind db cache vci ci idx config ∨
      ∃ e, a.source < e ∧ config.chunk_index e = ci ∧ idx = config.cell_of v e ∧
        e ≤ a.target ∧
        view_cell maxKind db cache' vci ci idx config = a.target - e := by
  intro ci idx
  simp only [apply_attestation_for_validator] at h
  rcases hg : get_chunk_for_update maxKind db cache vci
      (config.chunk_index a.source) config with ⟨cacheA, chunkA⟩
  rw [hg] at h
  have hAview : ∀ cj idx2, view_cell maxKind db cacheA vci cj idx2 config =
      view_cell maxKind db cache vci cj idx2 config := by
    intro cj idx2
    unfold view_cell
    have h5 := get_chunk_for_update_fst_view maxKind db cache vci
      (config.chunk_index a.source) cj config
    rw [hg] at h5
    simp only [] at h5
    rw [h5]
  split at h
  · exact Except.noConfusion h
  · rename_i st0 heq
    split at h
    · rename_i hs0
      rw [show maxKind.first_start_epoch = MaxTargetChunk.first_start_epoch from rfl] at h
      simp only [MaxTargetChunk.first_start_epoch] at h
      by_cases hlt : a.source < ce
      · rw [if_pos hlt] at h
        simp only [] at h
        cases hloop : apply_attestation_loop maxKind db vci v a.target ce config fuel
            fuel cacheA (config.chunk_index (a.source + 1)) (a.source + 1) with
        | error e => rw [hloop] at h; simp only [] at h; cases h
        | ok p =>
          rcases p with ⟨cache2, evs2⟩
          rw [hloop] at h
          simp only [] at h
          have hcc : cache2 = cache' := congrArg (fun t => t.1) (Except.ok.inj h)
          rcases apply_loop_max_writes db vci v a.target ce config hC fuel fuel
              cacheA (config.chunk_index (a.source + 1)) (a.source + 1) cache2 evs2
              hloop ci idx with hl | hr
          · rw [← hcc, hl, hAview]
            exact Or.inl rfl
          · obtain ⟨e, he1, he3, he4, he5, he6⟩ := hr
            refine Or.inr ⟨e, by omega, he3, he4, he5, ?_⟩
            rw [← hcc]
            exact he6
      · rw [if_neg hlt] at h
        simp only [] at h
        have hcc : cacheA = cache' := congrArg (fun t => t.1) (Except.ok.inj h)
        rw [← hcc, hAview]
        exact Or.inl rfl
    · have hcc : cacheA = cache' := congrArg (fun t => t.1) (Except.ok.inj h)
      rw [← hcc, hAview]
      exact Or.inl rfl

theorem apply_min_status (fuel : Nat) (db : ChunkDB) (recs : AttesterRecords)
    (cache : ChunkCache) (vci v : Nat) (a : IndexedAttestation) (ce : Nat)
    (config : Config) (cache' : ChunkCache) (st : SlashingStatus) (evs : List WriteEv)
    (h : apply_attestation_for_validator minKind fuel db recs cache vci v a ce config =
      .ok (cache', st, evs))
    (hinv : a.target ≤ a.source + view_cell minKind db cache vci
      (config.chunk_index a.source) (config.cell_of v a.source) config) :
    st = .notSlashable := by
  simp only [apply_attestation_for_validator] at h
  rcases hg : get_chunk_for_update minKind db cache vci
      (config.chunk_index a.source) config with ⟨cacheA, chunkA⟩
  rw [hg] at h
  have hsnd := get_chunk_for_update_snd minKind db cache vci
    (config.chunk_index a.source) config
  rw [hg] at hsnd
  simp only [] at hsnd
  split at h
  · exact Except.noConfusion h
  · rename_i st0 heq
    have hst0 : st0 = .notSlashable := by
      rw [show minKind.check_slashable = MinTargetChunk.check_slashable from rfl] at heq
      simp only [MinTargetChunk.check_slashable] at heq
      cases hgt : chunkA.get_target v a.source config with
      | error e => rw [hgt] at heq; exact Except.noConfusion heq
      | ok mt =>
        rw [hgt] at heq
        simp only [] at heq
        obtain ⟨d0, hd0, hmt⟩ := get_target_ok chunkA v a.source config mt hgt
        have hview : view_cell minKind db cache vci (config.chunk_index a.source)
            (config.cell_of v a.source) config = d0 := by
          unfold view_cell
          rw [← hsnd, List.getD_eq_get?, hd0]
          rfl
        have hnotgt : ¬ (a.target > mt) := by omega
        rw [if_neg hnotgt] at heq
        exact (Except.ok.inj heq).symm
    split at h
    · rename_i hs0
      split at h
      · have hstv : st0 = st := congrArg (fun t => t.2.1) (Except.ok.inj h)
        rw [← hstv]
        exact hst0
      · rename_i start0 hfse
        cases hloop : apply_attestation_loop minKind db vci v a.target ce config fuel
            fuel cacheA (config.chunk_index start0) start0 with
        | error e => rw [hloop] at h; exact Except.noConfusion h
        | ok p =>
          rcases p with ⟨cache2, evs2⟩
          rw [hloop] at h
          simp only [] at h
          exact (congrArg (fun t => t.2.1) (Except.ok.inj h)).symm
    · rename_i hs0
      exact absurd hst0 hs0

theorem apply_max_status (fuel : Nat) (db : ChunkDB) (recs : AttesterRecords)
    (cache : ChunkCache) (vci v : Nat) (a : IndexedAttestation) (ce : Nat)
    (config : Config) (cache' : ChunkCache) (st : SlashingStatus) (evs : List WriteEv)
    (h : apply_attestation_for_validator maxKind fuel db recs cache vci v a ce config =
      .ok (cache', st, evs))
    (hinv : a.source + view_cell maxKind db cache vci
      (config.chunk_index a.source) (config.cell_of v a.source) config ≤ a.target) :
    st = .notSlashable := by
  simp only [apply_attestation_for_validator] at h
  rcases hg : get_chunk_for_update maxKind db cache vci
      (config.chunk_index a.source) config with ⟨cacheA, chunkA⟩
  rw [hg] at h
  have hsnd := get_chunk_for_update_snd maxKind db cache vci
    (config.chunk_index a.source) config
  rw [hg] at hsnd
  simp only [] at hsnd
  split at h
  · exact Except.noConfusion h
  · rename_i st0 heq
    have hst0 : st0 = .notSlashable := by
      rw [show maxKind.check_slashable = MaxTargetChunk.check_slashable from rfl] at heq
      simp only [MaxTargetChunk.check_slashable] at heq
      cases hgt : chunkA.get_target v a.source config with
      | error e => rw [hgt] at heq; exact Except.noConfusion heq
      | ok mt =>
        rw [hgt] at heq
        simp only [] at heq
        obtain ⟨d0, hd0, hmt⟩ := get_target_ok chunkA v a.source config mt hgt
        have hview : view_cell maxKind db cache vci (config.chunk_index a.source)
            (config.cell_of v a.source) config = d0 := by
          unfold view_cell
          rw [← hsnd, List.getD_eq_get?, hd0]
          rfl
        have hnotlt : ¬ (a.target < mt) := by omega
        rw [if_neg hnotlt] at heq
        exact (Except.ok.inj heq).symm
    split at h
    · rename_i hs0
      split at h
      · have hstv : st0 = st := congrArg (fun t => t.2.1) (Except.ok.inj h)
        rw [← hstv]
        exact hst0
      · rename_i start0 hfse
        cases hloop : apply_attestation_loop maxKind db vci v a.target ce config fuel
            fuel cacheA (config.chunk_index start0) start0 with
        | error e => rw [hloop] at h; exact Except.noConfusion h
        | ok p =>
          rcases p with ⟨cache2, evs2⟩
          rw [hloop] at h
          simp only [] at h
          exact (congrArg (fun t => t.2.1) (Except.ok.inj h)).symm
    · rename_i hs0
      exact absurd hst0 hs0

theorem min_inv_pres (fuel : Nat) (db : ChunkDB) (recs : AttesterRecords)
    (vci ce : Nat) (config : Config) (batch : List IndexedAttestation)
    (hC : 0 < config.chunk_size) (hH : 0 < config.history_length)
    (hdvd : config.chunk_size ∣ config.history_length)
    (hwin : ∀ b ∈ batch, window_floor config ce < b.source ∧ b.source ≤ b.target ∧
      b.target ≤ ce)
    (hnos : ∀ x ∈ batch, ∀ y ∈ batch, ¬(x.source < y.source ∧ y.target < x.target))
    (cache : ChunkCache) (v' : Nat) (a' : IndexedAttestation) (ha' : a' ∈ batch)
    (cache' : ChunkCache) (st : SlashingStatus) (evs : List WriteEv)
    (h : apply_attestation_for_validator minKind fuel db recs cache vci v' a' ce
      config = .ok (cache', st, evs))
    (hp : MinInv db vci batch config cache) :
    MinInv db vci batch config cache' := by
  intro b hb v hv
  obtain ⟨hwb1, hwb2, hwb3⟩ := hwin b hb
  obtain ⟨hwa1, hwa2, hwa3⟩ := hwin a' ha'
  rcases apply_min_writes fuel db recs cache vci v' a' ce config hC hH hdvd
      cache' st evs h hwa1 (config.chunk_index b.source)
      (config.cell_of v b.source) with hl | hr
  · rw [hl]
    exact hp b hb v hv
  · obtain ⟨e, he1, he2, he3, he4, he5, he6⟩ := hr
    have hfl : window_floor config ce = ce + 1 - config.history_length := rfl
    have heb : e = b.source := by
      refine epoch_unique_in_window config hC hH hdvd ce e b.source ?_ ?_ ?_ ?_
        he3 ?_
      · rw [← hfl]
        exact he1
      · omega
      · rw [← hfl]
        omega
      · omega
      · exact (cell_of_mod_eq config v v' b.source e he4).symm
    subst heb
    have hno := hnos b hb a' ha'
    rw [he6]
    omega

theorem max_inv_pres (fuel : Nat) (db : ChunkDB) (recs : AttesterRecords)
    (vci ce : Nat) (config : Config) (batch : List IndexedAttestation)
    (hC : 0 < config.chunk_size) (hH : 0 < config.history_length)
    (hdvd : config.chunk_size ∣ config.history_length)
    (hwin : ∀ b ∈ batch, window_floor config ce < b.source ∧ b.source ≤ b.target ∧
      b.target ≤ ce)
    (hnos : ∀ x ∈ batch, ∀ y ∈ batch, ¬(x.source < y.source ∧ y.target < x.target))
    (cache : ChunkCache) (v' : Nat) (a' : IndexedAttestation) (ha' : a' ∈ batch)
    (cache' : ChunkCache) (st : SlashingStatus) (evs : List WriteEv)
    (h : apply_attestation_for_validator maxKind fuel db recs cache vci v' a' ce
      config = .ok (cache', st, evs))
    (hp : MaxInv db vci batch config cache) :
    MaxInv db vci batch config cache' := by
  intro b hb v hv
  obtain ⟨hwb1, hwb2, hwb3⟩ := hwin b hb
  obtain ⟨hwa1, hwa2, hwa3⟩ := hwin a' ha'
  rcases apply_max_writes fuel db recs cache vci v' a' ce config hC
      cache' st evs h (config.chunk_index b.source)
      (config.cell_of v b.source) with hl | hr
  · rw [hl]
    exact hp b hb v hv
  · obtain ⟨e, he1, he3, he4, he5, he6⟩ := hr
    have hfl : window_floor config ce = ce + 1 - config.history_length := rfl
    have heb : e = b.source := by
      refine epoch_unique_in_window config hC hH hdvd ce e b.source ?_ ?_ ?_ ?_
        he3 ?_
      · rw [← hfl]
        omega
      · omega
      · rw [← hfl]
        omega
      · omega
      · exact (cell_of_mod_eq config v v' b.source e he4).symm
    subst heb
    have hno := hnos a' ha' b hb
    rw [he6]
    omega

theorem min_inv_empty (vci ce : Nat) (config : Config)
    (batch : List IndexedAttestation) (hC : 0 < config.chunk_size)
    (hH : 0 < config.history_length) (hK : 0 < config.validator_chunk_size)
    (hHle : config.history_length ≤ MAX_DISTANCE)
    (hwin : ∀ b ∈ batch, window_floor config ce < b.source ∧ b.source ≤ b.target ∧
      b.target ≤ ce) :
    MinInv [] vci batch config [] := by
  intro b hb v hv
  obtain ⟨h1, h2, h3⟩ := hwin b hb
  have hview : view_cell minKind [] [] vci (config.chunk_index b.source)
      (config.cell_of v b.source) config = MAX_DISTANCE := by
    show (MinTargetChunk.empty config).data.getD (config.cell_of v b.source) 0 =
      MAX_DISTANCE
    unfold MinTargetChunk.empty
    exact replicate_getD _ _ _ _ (cell_of_lt config hC hK v b.source)
  rw [hview]
  unfold window_floor at h1
  unfold MAX_DISTANCE at hHle ⊢
  omega

theorem max_inv_empty (vci ce : Nat) (config : Config)
    (batch : List IndexedAttestation) (hC : 0 < config.chunk_size)
    (hK : 0 < config.validator_chunk_size)
    (hwin : ∀ b ∈ batch, window_floor config ce < b.source ∧ b.source ≤ b.target ∧
      b.target ≤ ce) :
    MaxInv [] vci batch config [] := by
  intro b hb v hv
  obtain ⟨h1, h2, h3⟩ := hwin b hb
  have hview : view_cell maxKind [] [] vci (config.chunk_index b.source)
      (config.cell_of v b.source) config = 0 := by
    show (MaxTargetChunk.empty config).data.getD (config.cell_of v b.source) 0 = 0
    unfold MaxTargetChunk.empty
    exact replicate_getD _ _ _ _ (cell_of_lt config hC hK v b.source)
  rw [hview]
  omega

theorem view_cell_flush (kind : TargetArrayKind) (db : ChunkDB) (cacheF : ChunkCache)
    (vci ci idx : Nat) (config : Config)
    (hpw : List.Pairwise (fun p q => p.1 < q.1) cacheF) :
    view_cell kind (flush_chunks vci db cacheF) [] vci ci idx config =
      view_cell kind db cacheF vci ci idx config := by
  show (match (flush_chunks vci db cacheF).get (vci, ci) with
    | some c => c
    | none => kind.empty config).data.getD idx 0 =
    view_cell kind db cacheF vci ci idx config
  rw [flush_get vci cacheF db ci hpw]
  unfold view_cell cache_view
  cases hc : ChunkCache.get cacheF ci with
  | some c => rfl
  | none => cases hdb : db.get (vci, ci) <;> rfl

theorem update_array_validators_noslash (kind : TargetArrayKind) (fuel : Nat)
    (db : ChunkDB) (recs : AttesterRecords) (vci : Nat) (a : IndexedAttestation)
    (ce : Nat) (config : Config) (P : ChunkCache → Prop)
    (hpres : ∀ cache v cache' st evs,
      apply_attestation_for_validator kind fuel db recs cache vci v a ce config =
        .ok (cache', st, evs) → P cache → P cache') :
    ∀ (vs : List Nat),
      (∀ cache v cache' st evs, v ∈ vs →
        apply_attestation_for_validator kind fuel db recs cache vci v a ce config =
          .ok (cache', st, evs) → P cache → st = SlashingStatus.notSlashable) →
      ∀ (cache : ChunkCache) cache' sls sts evs,
        update_array_validators kind fuel db recs vci a ce config vs cache =
          .ok (cache', sls, sts, evs) →
        P cache → P cache' ∧ sls = [] := by
  intro vs
  induction vs with
  | nil =>
    intro hstat cache cache' sls sts evs h hp
    have hcc : cache = cache' := congrArg (fun t => t.1) (Except.ok.inj h)
    have hsls : ([] : List AttesterSlashing) = sls :=
      congrArg (fun t => t.2.1) (Except.ok.inj h)
    exact ⟨hcc ▸ hp, hsls.symm⟩
  | cons v rest ih =>
    intro hstat cache cache' sls sts evs h hp
    rw [update_array_validators] at h
    cases happ : apply_attestation_for_validator kind fuel db recs cache vci v a
        ce config with
    | error e => rw [happ] at h; simp only [] at h; cases h
    | ok p =>
      rcases p with ⟨cache1, st1, evs1⟩
      rw [happ] at h
      simp only [] at h
      cases hrec : update_array_validators kind fuel db recs vci a ce config
          rest cache1 with
      | error e => rw [hrec] at h; simp only [] at h; cases h
      | ok q =>
        rcases q with ⟨cache2, sls2, sts2, evs2⟩
        rw [hrec] at h
        simp only [] at h
        have hst1 : st1 = SlashingStatus.notSlashable :=
          hstat cache v cache1 st1 evs1 (List.mem_cons_self _ _) happ hp
        have hp1 : P cache1 := hpres cache v cache1 st1 evs1 happ hp
        obtain ⟨hp2, hsls2⟩ := ih
          (fun cache v cache' st evs hm => hstat cache v cache' st evs
            (List.mem_cons_of_mem _ hm))
          cache1 cache2 sls2 sts2 evs2 hrec hp1
        have hcc : cache2 = cache' := congrArg (fun t => t.1) (Except.ok.inj h)
        have hsls : (st1.into_slashing a).toList ++ sls2 = sls :=
          congrArg (fun t => t.2.1) (Except.ok.inj h)
        refine ⟨hcc ▸ hp2, ?_⟩
        rw [← hsls, hst1, hsls2]
        rfl

theorem update_array_atts_noslash (kind : TargetArrayKind) (fuel : Nat)
    (db : ChunkDB) (recs : AttesterRecords) (vci ce : Nat) (config : Config)
    (P : ChunkCache → Prop) (Pre : IndexedAttestation → Prop)
    (hpres : ∀ cache v a cache' st evs, Pre a →
      apply_attestation_for_validator kind fuel db recs cache vci v a ce config =
        .ok (cache', st, evs) → P cache → P cache')
    (hstat : ∀ cache v a cache' st evs, Pre a → v ∈ a.attesting_indices →
      apply_attestation_for_validator kind fuel db recs cache vci v a ce config =
        .ok (cache', st, evs) → P cache → st = SlashingStatus.notSlashable) :
    ∀ (atts : List IndexedAttestation), (∀ a ∈ atts, Pre a) →
      ∀ (cache : ChunkCache) cache' sls sts evs,
        update_array_atts kind fuel db recs vci ce config atts cache =
          .ok (cache', sls, sts, evs) →
        P cache → P cache' ∧ sls = [] := by
  intro atts
  induction atts with
  | nil =>
    intro hpre cache cache' sls sts evs h hp
    have hcc : cache = cache' := congrArg (fun t => t.1) (Except.ok.inj h)
    have hsls : ([] : List AttesterSlashing) = sls :=
      congrArg (fun t => t.2.1) (Except.ok.inj h)
    exact ⟨hcc ▸ hp, hsls.symm⟩
  | cons a rest ih =>
    intro hpre cache cache' sls sts evs h hp
    rw [update_array_atts] at h
    cases hv : update_array_validators kind fuel db recs vci a ce config
        (attesting_validators_for_chunk config a vci) cache with
    | error e => rw [hv] at h; simp only [] at h; cases h
    | ok p =>
      rcases p with ⟨cache1, sls1, sts1, evs1⟩
      rw [hv] at h
      simp only [] at h
      cases hrec : update_array_atts kind fuel db recs vci ce config rest cache1 with
      | error e => rw [hrec] at h; simp only [] at h; cases h
      | ok q =>
        rcases q with ⟨cache2, sls2, sts2, evs2⟩
        rw [hrec] at h
        simp only [] at h
        have hpa : Pre a := hpre a (List.mem_cons_self _ _)
        obtain ⟨hp1, hsls1⟩ := update_array_validators_noslash kind fuel db recs vci
          a ce config P
          (fun cache v cache' st evs happ => hpres cache v a cache' st evs hpa happ)
          (attesting_validators_for_chunk config a vci)
          (fun cache v cache' st evs hm happ => hstat cache v a cache' st evs hpa
            (List.mem_filter.1 hm).1 happ)
          cache cache1 sls1 sts1 evs1 hv hp
        obtain ⟨hp2, hsls2⟩ := ih
          (fun x hx => hpre x (List.mem_cons_of_mem _ hx))
          cache1 cache2 sls2 sts2 evs2 hrec hp1
        have hcc : cache2 = cache' := congrArg (fun t => t.1) (Except.ok.inj h)
        have hsls : sls1 ++ sls2 = sls :=
          congrArg (fun t => t.2.1) (Except.ok.inj h)
        refine ⟨hcc ▸ hp2, ?_⟩
        rw [← hsls, hsls1, hsls2]
        rfl

theorem update_array_groups_noslash (kind : TargetArrayKind) (fuel : Nat)
    (db : ChunkDB) (recs : AttesterRecords) (vci ce : Nat) (config : Config)
    (P : ChunkCache → Prop) (Pre : IndexedAttestation → Prop)
    (hpres : ∀ cache v a cache' st evs, Pre a →
      apply_attestation_for_validator kind fuel db recs cache vci v a ce config =
        .ok (cache', st, evs) → P cache → P cache')
    (hstat : ∀ cache v a cache' st evs, Pre a → v ∈ a.attesting_indices →
      apply_attestation_for_validator kind fuel db recs cache vci v a ce config =
        .ok (cache', st, evs) → P cache → st = SlashingStatus.notSlashable) :
    ∀ (groups : List (Nat × List IndexedAttestation)),
      (∀ g ∈ groups, ∀ a ∈ g.2, Pre a) →
      ∀ (cache : ChunkCache) cache' sls sts evs,
        update_array_groups kind fuel db recs vci ce config groups cache =
          .ok (cache', sls, sts, evs) →
        P cache → P cache' ∧ sls = [] := by
  intro groups
  induction groups with
  | nil =>
    intro hpre cache cache' sls sts evs h hp
    have hcc : cache = cache' := congrArg (fun t => t.1) (Except.ok.inj h)
    have hsls : ([] : List AttesterSlashing) = sls :=
      congrArg (fun t => t.2.1) (Except.ok.inj h)
    exact ⟨hcc ▸ hp, hsls.symm⟩
  | cons g rest ih =>
    intro hpre cache cache' sls sts evs h hp
    rcases g with ⟨gk, atts⟩
    rw [update_array_groups] at h
    cases ha : update_array_atts kind fuel db recs vci ce config atts cache with
    | error e => rw [ha] at h; simp only [] at h; cases h
    | ok p =>
      rcases p with ⟨cache1, sls1, sts1, evs1⟩
      rw [ha] at h
      simp only [] at h
      cases hrec : update_array_groups kind fuel db recs vci ce config rest cache1 with
      | error e => rw [hrec] at h; simp only [] at h; cases h
      | ok q =>
        rcases q with ⟨cache2, sls2, sts2, evs2⟩
        rw [hrec] at h
        simp only [] at h
        obtain ⟨hp1, hsls1⟩ := update_array_atts_noslash kind fuel db recs vci ce
          config P Pre hpres hstat atts
          (fun x hx => hpre (gk, atts) (List.mem_cons_self _ _) x hx)
          cache cache1 sls1 sts1 evs1 ha hp
        obtain ⟨hp2, hsls2⟩ := ih
          (fun x hx => hpre x (List.mem_cons_of_mem _ hx))
          cache1 cache2 sls2 sts2 evs2 hrec hp1
        have hcc : cache2 = cache' := congrArg (fun t => t.1) (Except.ok.inj h)
        have hsls : sls1 ++ sls2 = sls :=
          congrArg (fun t => t.2.1) (Except.ok.inj h)
        refine ⟨hcc ▸ hp2, ?_⟩
        rw [← hsls, hsls1, hsls2]
        rfl

/-- Claim C6 (amended): replaying a batch is only slashing-free when the batch
itself is; when the batch contains a surround pair the second run reports
slashings again — even more than the first (see the counterexample).  What
does hold: starting from empty stores, for a batch whose source epochs lie
strictly above the window floor, with sources at most targets, targets at
most the current epoch, and no surround pair among the batch's attestations,
a first successful run produces no slashings, and a second successful run of
the same batch against the stores left by the first also produces none (the
cells the first run wrote record targets that make every re-checked
attestation `NotSlashable`). -/
theorem c6_rerun_no_slashings (fuel : Nat) (stores : Stores)
    (recs recs2 : AttesterRecords) (vci : Nat) (batch : List IndexedAttestation)
    (ce : Nat) (config : Config)
    (hmin0 : stores.min_targets = []) (hmax0 : stores.max_targets = [])
    (hC : 0 < config.chunk_size) (hH : 0 < config.history_length)
    (hK : 0 < config.validator_chunk_size)
    (hdvd : config.chunk_size ∣ config.history_length)
    (hHle : config.history_length ≤ MAX_DISTANCE)
    (hwin : ∀ a ∈ batch, window_floor config ce < a.source ∧ a.source ≤ a.target ∧
      a.target ≤ ce)
    (hnos : ∀ x ∈ batch, ∀ y ∈ batch, ¬(x.source < y.source ∧ y.target < x.target))
    (r1 r2 : UpdateResult)
    (h1 : update fuel stores recs vci batch ce config = .ok r1)
    (h2 : update fuel r1.stores recs2 vci batch ce config = .ok r2) :
    r1.slashings = [] ∧ r2.slashings = [] := by
  rw [update] at h1
  rw [hmin0, hmax0] at h1
  cases hmu1 : update_array minKind fuel [] recs vci (group_by_chunk config batch)
      ce config with
  | error e => rw [hmu1] at h1; simp only [] at h1; cases h1
  | ok p1 =>
  rcases p1 with ⟨mindb1, sls1m, sts1m, evs1m⟩
  rw [hmu1] at h1
  simp only [] at h1
  cases hxu1 : update_array maxKind fuel [] recs vci (group_by_chunk config batch)
      ce config with
  | error e => rw [hxu1] at h1; simp only [] at h1; cases h1
  | ok q1 =>
  rcases q1 with ⟨maxdb1, sls1x, sts1x, evs1x⟩
  rw [hxu1] at h1
  simp only [] at h1
  have hr1 := Except.ok.inj h1
  have hr1min : mindb1 = r1.stores.min_targets :=
    congrArg (fun u => u.stores.min_targets) hr1
  have hr1max : maxdb1 = r1.stores.max_targets :=
    congrArg (fun u => u.stores.max_targets) hr1
  have hr1slash : sls1m ++ sls1x = r1.slashings :=
    congrArg UpdateResult.slashings hr1
  rw [update_array] at hmu1 hxu1
  cases hg1m : update_array_groups minKind fuel [] recs vci ce config
      (group_by_chunk config batch) [] with
  | error e => rw [hg1m] at hmu1; simp only [] at hmu1; cases hmu1
  | ok pp1 =>
  rcases pp1 with ⟨cF1m, gs1m, gt1m, ge1m⟩
  rw [hg1m] at hmu1
  simp only [] at hmu1
  have hdb1m : flush_chunks vci [] cF1m = mindb1 :=
    congrArg (fun t => t.1) (Except.ok.inj hmu1)
  have hsl1m : gs1m = sls1m := congrArg (fun t => t.2.1) (Except.ok.inj hmu1)
  cases hg1x : update_array_groups maxKind fuel [] recs vci ce config
      (group_by_chunk config batch) [] with
  | error e => rw [hg1x] at hxu1; simp only [] at hxu1; cases hxu1
  | ok qq1 =>
  rcases qq1 with ⟨cF1x, gs1x, gt1x, ge1x⟩
  rw [hg1x] at hxu1
  simp only [] at hxu1
  have hdb1x : flush_chunks vci [] cF1x = maxdb1 :=
    congrArg (fun t => t.1) (Except.ok.inj hxu1)
  have hsl1x : gs1x = sls1x := congrArg (fun t => t.2.1) (Except.ok.inj hxu1)
  obtain ⟨hp1m, hz1m⟩ := update_array_groups_noslash minKind fuel [] recs vci ce
    config (MinInv [] vci batch config) (fun a => a ∈ batch)
    (fun cache v a cache' st evs hPre happ hp =>
      min_inv_pres fuel [] recs vci ce config batch hC hH hdvd hwin hnos
        cache v a hPre cache' st evs happ hp)
    (fun cache v a cache' st evs hPre hvmem happ hp =>
      apply_min_status fuel [] recs cache vci v a ce config cache' st evs happ
        (hp a hPre v hvmem))
    (group_by_chunk config batch) (group_by_chunk_mem config batch)
    [] cF1m gs1m gt1m ge1m hg1m
    (min_inv_empty vci ce config batch hC hH hK hHle hwin)
  obtain ⟨hp1x, hz1x⟩ := update_array_groups_noslash maxKind fuel [] recs vci ce
    config (MaxInv [] vci batch config) (fun a => a ∈ batch)
    (fun cache v a cache' st evs hPre happ hp =>
      max_inv_pres fuel [] recs vci ce config batch hC hH hdvd hwin hnos
        cache v a hPre cache' st evs happ hp)
    (fun cache v a cache' st evs hPre hvmem happ hp =>
      apply_max_status fuel [] recs cache vci v a ce config cache' st evs happ
        (hp a hPre v hvmem))
    (group_by_chunk config batch) (group_by_chunk_mem config batch)
    [] cF1x gs1x gt1x ge1x hg1x
    (max_inv_empty vci ce config batch hC hK hwin)
  have hpw1m : List.Pairwise (fun p q => p.1 < q.1) cF1m :=
    update_array_groups_pres minKind fuel [] recs vci ce config
      (fun cache => List.Pairwise (fun p q => p.1 < q.1) cache)
      (fun cache v' a' cache' st evs happ hp =>
        apply_pairwise minKind fuel [] recs cache vci v' a' ce config cache' st evs
          happ hp)
      (group_by_chunk config batch) [] cF1m gs1m gt1m ge1m hg1m List.Pairwise.nil
  have hpw1x : List.Pairwise (fun p q => p.1 < q.1) cF1x :=
    update_array_groups_pres maxKind fuel [] recs vci ce config
      (fun cache => List.Pairwise (fun p q => p.1 < q.1) cache)
      (fun cache v' a' cache' st evs happ hp =>
        apply_pairwise maxKind fuel [] recs cache vci v' a' ce config cache' st evs
          happ hp)
      (group_by_chunk config batch) [] cF1x gs1x gt1x ge1x hg1x List.Pairwise.nil
  have hslm : sls1m = [] := hsl1m ▸ hz1m
  have hslx : sls1x = [] := hsl1x ▸ hz1x
  refine ⟨by rw [← hr1slash, hslm, hslx]; rfl, ?_⟩
  rw [update] at h2
  cases hmu2 : update_array minKind fuel r1.stores.min_targets recs2 vci
      (group_by_chunk config batch) ce config with
  | error e => rw [hmu2] at h2; simp only [] at h2; cases h2
  | ok p2 =>
  rcases p2 with ⟨mindb2, sls2m, sts2m, evs2m⟩
  rw [hmu2] at h2
  simp only [] at h2
  cases hxu2 : update_array maxKind fuel r1.stores.max_targets recs2 vci
      (group_by_chunk config batch) ce config with
  | error e => rw [hxu2] at h2; simp only [] at h2; cases h2
  | ok q2 =>
  rcases q2 with ⟨maxdb2, sls2x, sts2x, evs2x⟩
  rw [hxu2] at h2
  simp only [] at h2
  have hr2 := Except.ok.inj h2
  have hr2slash : sls2m ++ sls2x = r2.slashings :=
    congrArg UpdateResult.slashings hr2
  rw [update_array] at hmu2 hxu2
  cases hg2m : update_array_groups minKind fuel r1.stores.min_targets recs2 vci ce
      config (group_by_chunk config batch) [] with
  | error e => rw [hg2m] at hmu2; simp only [] at hmu2; cases hmu2
  | ok pp2 =>
  rcases pp2 with ⟨cF2m, gs2m, gt2m, ge2m⟩
  rw [hg2m] at hmu2
  simp only [] at hmu2
  have hsl2m : gs2m = sls2m := congrArg (fun t => t.2.1) (Except.ok.inj hmu2)
  cases hg2x : update_array_groups maxKind fuel r1.stores.max_targets recs2 vci ce
      config (group_by_chunk config batch) [] with
  | error e => rw [hg2x] at hxu2; simp only [] at hxu2; cases hxu2
  | ok qq2 =>
  rcases qq2 with ⟨cF2x, gs2x, gt2x, ge2x⟩
  rw [hg2x] at hxu2
  simp only [] at hxu2
  have hsl2x : gs2x = sls2x := congrArg (fun t => t.2.1) (Except.ok.inj hxu2)
  have hinit2m : MinInv r1.stores.min_targets vci batch config [] := by
    intro b hb v hv
    have hbase := hp1m b hb v hv
    rw [← hr1min, ← hdb1m,
      view_cell_flush minKind [] cF1m vci (config.chunk_index b.source)
        (config.cell_of v b.source) config hpw1m]
    exact hbase
  have hinit2x : MaxInv r1.stores.max_targets vci batch config [] := by
    intro b hb v hv
    have hbase := hp1x b hb v hv
    rw [← hr1max, ← hdb1x,
      view_cell_flush maxKind [] cF1x vci (config.chunk_index b.source)
        (config.cell_of v b.source) config hpw1x]
    exact hbase
  obtain ⟨hp2m, hz2m⟩ := update_array_groups_noslash minKind fuel
    r1.stores.min_targets recs2 vci ce config
    (MinInv r1.stores.min_targets vci batch config) (fun a => a ∈ batch)
    (fun cache v a cache' st evs hPre happ hp =>
      min_inv_pres fuel r1.stores.min_targets recs2 vci ce config batch hC hH hdvd
        hwin hnos cache v a hPre cache' st evs happ hp)
    (fun cache v a cache' st evs hPre hvmem happ hp =>
      apply_min_status fuel r1.stores.min_targets recs2 cache vci v a ce config
        cache' st evs happ (hp a hPre v hvmem))
    (group_by_chunk config batch) (group_by_chunk_mem config batch)
    [] cF2m gs2m gt2m ge2m hg2m hinit2m
  obtain ⟨hp2x, hz2x⟩ := update_array_groups_noslash maxKind fuel
    r1.stores.max_targets recs2 vci ce config
    (MaxInv r1.stores.max_targets vci batch config) (fun a => a ∈ batch)
    (fun cache v a cache' st evs hPre happ hp =>
      max_inv_pres fuel r1.stores.max_targets recs2 vci ce config batch hC hH hdvd
        hwin hnos cache v a hPre cache' st evs happ hp)
    (fun cache v a cache' st evs hPre hvmem happ hp =>
      apply_max_status fuel r1.stores.max_targets recs2 cache vci v a ce config
        cache' st evs happ (hp a hPre v hvmem))
    (group_by_chunk config batch) (group_by_chunk_mem config batch)
    [] cF2x gs2x gt2x ge2x hg2x hinit2x
  have hslm2 : sls2m = [] := hsl2m ▸ hz2m
  have hslx2 : sls2x = [] := hsl2x ▸ hz2x
  rw [← hr2slash, hslm2, hslx2]
  rfl

theorem c6_witness :
    (⟨⟨[((0, 0), ⟨[3, 2]⟩), ((0, 1), ⟨[65535, 65535]⟩)], [((0, 1), ⟨[0, 0]⟩)]⟩,
      [], [((0, ⟨[0], 2, 3, 0⟩), .notSlashable)],
      [((0, ⟨[0], 2, 3, 0⟩), .notSlashable)],
      [⟨0, 1, 3⟩, ⟨0, 0, 3⟩], []⟩ : UpdateResult).slashings = [] ∧
    (⟨⟨[((0, 0), ⟨[3, 2]⟩), ((0, 1), ⟨[65535, 65535]⟩)], [((0, 1), ⟨[0, 0]⟩)]⟩,
      [], [((0, ⟨[0], 2, 3, 0⟩), .notSlashable)],
      [((0, ⟨[0], 2, 3, 0⟩), .notSlashable)],
      [], []⟩ : UpdateResult).slashings = [] := by
  refine c6_rerun_no_slashings 64 ⟨[], []⟩ [] [] 0 [⟨[0], 2, 3, 0⟩] 3 ⟨4, 2, 1⟩
    rfl rfl (by decide) (by decide) (by decide) (by decide) (by decide)
    ?_ ?_ _ _ (by rfl) (by rfl)
  · intro a ha
    rcases List.mem_singleton.1 ha with rfl
    decide
  · intro x hx y hy
    rcases List.mem_singleton.1 hx with rfl
    rcases List.mem_singleton.1 hy with rfl
    decide

theorem c5_witness :
    ([] : List WriteEv) = [] ∧ ∀ ci,
      cache_view minKind [((0, 0), ⟨[0, 0]⟩)] [(0, ⟨[0, 0]⟩)] 0 ci ⟨4, 2, 1⟩ =
      cache_view minKind [((0, 0), ⟨[0, 0]⟩)] [] 0 ci ⟨4, 2, 1⟩ :=
  c5_early_return_skips_update minKind 8 [((0, 0), ⟨[0, 0]⟩)]
    [((0, 0), ⟨[0], 0, 0, 9⟩)] [] 0 0 ⟨[0], 0, 1, 5⟩ 5 ⟨4, 2, 1⟩
    [(0, ⟨[0, 0]⟩)] (.surroundsExisting ⟨[0], 0, 0, 9⟩) [] (by rfl) (by decide)

end Slasher
